import Mathlib

/-!
# kvalchemy: the persistent store, the engine's public operations and the batch

A shallow embedding of `dbengine/kvdb/bolt.go` (the namespaced B-tree store), of
`dbkernel/engine_public.go` (the public operations of the engine) and of
`storage/batch.go` (the batch of a chunked value), with the properties of the
specification stated over it.

Modelling conventions.

* A Go `[]byte` is a `List (Fin 256)`; a possibly-nil slice is an `Option` of it.
* A Go `uint32` is a `Nat`; conversions that truncate are written `% 2 ^ 32`.
* A bbolt bucket is a finite map, embedded as a function from keys to optional values.
  `Put` refuses what bbolt refuses: the empty key, a key above `MaxKeySize` and a value
  above `MaxValueSize`. File-system failures of the underlying database file are outside
  the model, and so are nested buckets inside a bucket, which the program never makes.
* A bbolt `Update` transaction commits when its body returns `nil` and rolls back otherwise.
* An index out of range (`storedValue[0]` on an empty stored value) is the outcome `panic`.
* Methods that change the engine return the engine after the call next to their result.
* The functions of the packages that the sources call and do not contain are parameters.
* A call that blocks in a `select` takes as an argument the case that is ready first.
-/

/-- A Go `byte`. -/
abbrev Byte := Fin 256

/-- A Go `[]byte` that is not nil. -/
abbrev Bytes := List Byte

/-- The values of Go's `error` that the store and the engine return. `ErrKeyRequired`,
`ErrKeyTooLarge`, `ErrValueTooLarge` and `ErrBucketNameRequired` are bbolt's own; `chunkMissing i` is `fmt.Errorf("chunk %d missing", i)`;
`invalidDataFormatFor key` is
`fmt.Errorf("invalid data format for key %s: %w", key, ErrInvalidDataFormat)` and
`reconstructFailed e` is `fmt.Errorf("failed to reconstruct batch value: %w", e)`, both of
which wrap an error; `walFailure code` stands for an error of the log or of the record
codec; `contextCanceled` and `contextDeadlineExceeded` are the two errors of a done
`context.Context`. -/
inductive Err where
  | ErrKeyNotFound
  | ErrBucketNotFound
  | ErrRecordCorrupted
  | ErrInvalidChunkMetadata
  | ErrInvalidDataFormat
  | ErrInCloseProcess
  | ErrInvalidOffset
  | ErrWaitTimeoutExceeded
  | ErrKeyRequired
  | ErrKeyTooLarge
  | ErrValueTooLarge
  | ErrBucketNameRequired
  | contextCanceled
  | contextDeadlineExceeded
  | chunkMissing (i : Nat)
  | invalidDataFormatFor (key : Bytes)
  | walFailure (code : Nat)
  | reconstructFailed (e : Err)
  deriving DecidableEq, Repr

/-- Go's `errors.Is(e, target)`: `e` is `target` or wraps it. -/
def Err.Is (e target : Err) : Bool :=
  if e = target then true
  else
    match e with
    | .invalidDataFormatFor _ => decide (target = .ErrInvalidDataFormat)
    | .reconstructFailed inner => inner.Is target
    | _ => false

/-- How a call ends: a nil error, an error value, or a run-time panic. -/
inductive Outcome where
  | ok
  | err (e : Err)
  | panic
  deriving DecidableEq, Repr

namespace crc32

/-- The reversed IEEE polynomial, `crc32.IEEE`. -/
def IEEE : Nat := 0xedb88320

/-- One round of the inner loop of `simpleMakeTable`. -/
def tableRound (poly crc : Nat) : Nat :=
  if crc % 2 = 1 then (crc >>> 1) ^^^ poly else crc >>> 1

/-- Entry `i` of the table built by `simpleMakeTable(poly)`: eight rounds from `uint32(i)`. -/
def tableEntry (poly i : Nat) : Nat :=
  (tableRound poly)^[8] i

/-- Entry `i` of `crc32.IEEETable`. -/
def IEEETable (i : Nat) : Nat := tableEntry IEEE i

/-- The loop body of `simpleUpdate`: `crc = tab[byte(crc)^v] ^ (crc >> 8)`. -/
def step (crc : Nat) (v : Byte) : Nat :=
  IEEETable ((crc % 256) ^^^ v.val) ^^^ (crc >>> 8)

/-- The bitwise complement of a `uint32`, Go's unary `^`. -/
def not32 (crc : Nat) : Nat := crc ^^^ 0xffffffff

/-- Go's `crc32.Update(crc, crc32.IEEETable, p)`: complement, fold the bytes, complement. -/
def Update (crc : Nat) (p : Bytes) : Nat :=
  not32 (p.foldl step (not32 crc))

/-- Go's `crc32.ChecksumIEEE(data)`, which is `Update(0, IEEETable, data)`. -/
def ChecksumIEEE (data : Bytes) : Nat := Update 0 data

end crc32

namespace binary

/-- Go's `binary.LittleEndian.PutUint32`: the four bytes of `v`, least significant first. -/
def PutUint32 (v : Nat) : Bytes :=
  [Fin.ofNat v, Fin.ofNat (v >>> 8), Fin.ofNat (v >>> 16), Fin.ofNat (v >>> 24)]

/-- Go's `binary.LittleEndian.Uint32` on the first four bytes of `b` (`none` when `b` is
shorter: the Go function panics there, and no caller reaches it). -/
def Uint32 (b : Bytes) : Option Nat :=
  match b with
  | b0 :: b1 :: b2 :: b3 :: _ =>
    some (b0.val ||| (b1.val <<< 8) ||| (b2.val <<< 16) ||| (b3.val <<< 24))
  | _ => none

end binary

namespace kvdb

/-- Modelled from the spec: the flag byte `0x00` of a full value (the declaration of the
constant is not part of the sources). -/
def FullValueFlag : Byte := 0

/-- Modelled from the spec: the flag byte `0x01` of the metadata header of a chunked value
(the declaration of the constant is not part of the sources). -/
def ChunkedValueFlag : Byte := 1

/-- The decimal digits of `n` as ASCII bytes, most significant first, pushed in front of
`acc` (the `%d` verb of `fmt.Sprintf`). -/
def decimalCore : Nat → Nat → Bytes → Bytes
  | 0, _, acc => acc
  | fuel + 1, n, acc =>
    if n < 10 then Fin.ofNat (48 + n) :: acc
    else decimalCore fuel (n / 10) (Fin.ofNat (48 + n % 10) :: acc)

/-- The output of `%d` for a non-negative `int`. -/
def decimal (n : Nat) : Bytes := decimalCore (n + 1) n []

/-- One step of reading a decimal string: the number read so far, then one more digit. -/
def decimalDigit (acc : Nat) (d : Byte) : Nat := acc * 10 + (d.val - 48)

/-- The number that a string of ASCII digits denotes. -/
def decimalValue (digits : Bytes) : Nat := digits.foldl decimalDigit 0

/-- The bytes of the string `"_chunk_"`. -/
def chunkInfix : Bytes := [95, 99, 104, 117, 110, 107, 95]

/-- The child key `fmt.Sprintf("%s_chunk_%d", key, i)`. -/
def chunkKey (key : Bytes) (i : Nat) : Bytes := key ++ chunkInfix ++ decimal i

/-- A bbolt bucket: each key is absent (`none`) or holds a value, which may be empty. -/
abbrev Bucket := Bytes → Option Bytes

/-- The bucket with no key. -/
def Bucket.empty : Bucket := fun _ => none

/-- The constant `MaxKeySize` of bbolt: the largest length of a key, in bytes. -/
def MaxKeySize : Nat := 32768

/-- The constant `MaxValueSize` of bbolt, `(1 << 31) - 2`: the largest length of a value,
in bytes. -/
def MaxValueSize : Nat := 2 ^ 31 - 2

/-- The bbolt call `Bucket.Put`: refuses the empty key, a key longer than `MaxKeySize` and
a value longer than `MaxValueSize`, in this order, and otherwise binds `key` to `value`. -/
def Bucket.Put (bucket : Bucket) (key value : Bytes) : Bucket × Outcome :=
  if key = [] then (bucket, .err .ErrKeyRequired)
  else if key.length > MaxKeySize then (bucket, .err .ErrKeyTooLarge)
  else if value.length > MaxValueSize then (bucket, .err .ErrValueTooLarge)
  else (Function.update bucket key (some value), .ok)

/-- The bbolt call `Bucket.Delete`: removes `key`; an absent key is not an error. -/
def Bucket.Delete (bucket : Bucket) (key : Bytes) : Bucket × Outcome :=
  (Function.update bucket key none, .ok)

/-- The buckets of a database file by name: `tx.Bucket(name)`. -/
abbrev DB := Bytes → Option Bucket

/-- The bbolt call `db.Update(fn)`: the changes of `fn` are kept when it returns nil and
discarded when it returns an error or panics. -/
def DB.Update (db : DB) (fn : DB → DB × Outcome) : DB × Outcome :=
  match fn db with
  | (tx, .ok) => (tx, .ok)
  | (_, r) => (db, r)

/-- The store handle: the database and the name of the user bucket. -/
structure BoltDBEmbed where
  db : DB
  nspace : Bytes

/-- The handle over a changed database. -/
def BoltDBEmbed.withDB (b : BoltDBEmbed) (p : DB × Outcome) : BoltDBEmbed × Outcome :=
  ({ b with db := p.1 }, p.2)

/-- The handle after a committed transaction that left `bucket` as the user bucket. -/
def BoltDBEmbed.commit (b : BoltDBEmbed) (bucket : Bucket) : BoltDBEmbed :=
  { b with db := Function.update b.db b.nspace (some bucket) }

/-- The opening of every transaction body of the store: `tx.Bucket(name)`, the error
`ErrBucketNotFound` when there is no such bucket, otherwise the rest of the body on it. -/
def inBucket (name : Bytes) (body : Bucket → Bucket × Outcome) (tx : DB) : DB × Outcome :=
  match tx name with
  | none => (tx, .err .ErrBucketNotFound)
  | some bucket =>
    match body bucket with
    | (bucket', r) => (Function.update tx name (some bucket'), r)

/-- The method `BoltDBEmbed.Set`: stores the flag byte `0x00` followed by the value. -/
def BoltDBEmbed.Set (b : BoltDBEmbed) (key value : Bytes) : BoltDBEmbed × Outcome :=
  b.withDB <| b.db.Update <| inBucket b.nspace fun bucket =>
    let storedValue := FullValueFlag :: value
    bucket.Put key storedValue

/-- The loop `for i := 0; i < int(chunkCount); i++ { bucket.Delete(chunkKey) }`, from
index `i` with `remaining` rounds to go. -/
def deleteChunks (key : Bytes) : Nat → Nat → Bucket → Bucket × Outcome
  | 0, _, bucket => (bucket, .ok)
  | remaining + 1, i, bucket =>
    match bucket.Delete (chunkKey key i) with
    | (bucket', .ok) => deleteChunks key remaining (i + 1) bucket'
    | (bucket', r) => (bucket', r)

/-- The loop `for i, chunk := range chunks { bucket.Put(chunkKey, chunk) }` from index `i`. -/
def putChunks (key : Bytes) : List Bytes → Nat → Bucket → Bucket × Outcome
  | [], _, bucket => (bucket, .ok)
  | chunk :: chunks, i, bucket =>
    match bucket.Put (chunkKey key i) chunk with
    | (bucket', .ok) => putChunks key chunks (i + 1) bucket'
    | (bucket', r) => (bucket', r)

/-- The 9-byte metadata header: flag, chunk count, checksum. -/
def metaData (chunkCount checksum : Nat) : Bytes :=
  ChunkedValueFlag :: (binary.PutUint32 chunkCount ++ binary.PutUint32 checksum)

/-- The first part of the body of `SetChunks`: the children of a chunked value stored
under `key` are deleted. -/
def dropOldChunks (key : Bytes) (bucket : Bucket) : Bucket × Outcome :=
  match bucket key with
  | none => (bucket, .ok)
  | some [] => (bucket, .panic)
  | some (flag :: rest) =>
    if flag = ChunkedValueFlag then
      if (flag :: rest).length < 9 then (bucket, .err .ErrInvalidChunkMetadata)
      else
        match binary.Uint32 rest with
        | some chunkCount => deleteChunks key chunkCount 0 bucket
        | none => (bucket, .panic)
    else (bucket, .ok)

/-- The second part of the body of `SetChunks`: the header, then each chunk. -/
def writeChunks (key : Bytes) (chunks : List Bytes) (checksum : Nat) (bucket : Bucket) :
    Bucket × Outcome :=
  let chunkCount := chunks.length % 2 ^ 32
  match bucket.Put key (metaData chunkCount checksum) with
  | (bucket', .ok) => putChunks key chunks 0 bucket'
  | (bucket', r) => (bucket', r)

/-- The method `BoltDBEmbed.SetChunks`: the children of the value it replaces are
deleted, then the header and the chunks are written. -/
def BoltDBEmbed.SetChunks (b : BoltDBEmbed) (key : Bytes) (chunks : List Bytes)
    (checksum : Nat) : BoltDBEmbed × Outcome :=
  b.withDB <| b.db.Update <| inBucket b.nspace fun bucket =>
    match dropOldChunks key bucket with
    | (bucket', .ok) => writeChunks key chunks checksum bucket'
    | (bucket', r) => (bucket', r)

/-- The private `deleteChunk`: deletes the children counted in the header, then the key. -/
def deleteChunk (key storedValue : Bytes) (bucket : Bucket) : Bucket × Outcome :=
  match binary.Uint32 (storedValue.drop 1) with
  | none => (bucket, .panic)
  | some chunkCount =>
    match deleteChunks key chunkCount 0 bucket with
    | (bucket', .ok) => bucket'.Delete key
    | (bucket', r) => (bucket', r)

/-- The transaction body of `Delete` on the bucket. -/
def deleteBody (key : Bytes) (bucket : Bucket) : Bucket × Outcome :=
  match bucket key with
  | none => (bucket, .ok)
  | some [] => (bucket, .panic)
  | some (flag :: rest) =>
    if flag = FullValueFlag then bucket.Delete key
    else if flag = ChunkedValueFlag then
      if (flag :: rest).length < 9 then (bucket, .err .ErrInvalidChunkMetadata)
      else
        match binary.Uint32 rest with
        | none => (bucket, .panic)
        | some chunkCount =>
          match deleteChunks key chunkCount 0 bucket with
          | (bucket', .ok) => bucket'.Delete key
          | (bucket', r) => (bucket', r)
    else (bucket, .err .ErrInvalidDataFormat)

/-- The method `BoltDBEmbed.Delete`. -/
def BoltDBEmbed.Delete (b : BoltDBEmbed) (key : Bytes) : BoltDBEmbed × Outcome :=
  b.withDB <| b.db.Update <| inBucket b.nspace (deleteBody key)

/-- The loop of `DeleteMany` over the keys: an absent key returns nil from the whole
transaction body, and a flag that is neither full nor chunked falls through the switch. -/
def deleteManyLoop : List Bytes → Bucket → Bucket × Outcome
  | [], bucket => (bucket, .ok)
  | key :: keys, bucket =>
    match bucket key with
    | none => (bucket, .ok)
    | some [] => (bucket, .panic)
    | some (flag :: rest) =>
      if flag = FullValueFlag then
        match bucket.Delete key with
        | (bucket', .ok) => deleteManyLoop keys bucket'
        | (bucket', r) => (bucket', r)
      else if flag = ChunkedValueFlag then
        if (flag :: rest).length < 9 then (bucket, .err .ErrInvalidChunkMetadata)
        else
          match deleteChunk key (flag :: rest) bucket with
          | (bucket', .ok) => deleteManyLoop keys bucket'
          | (bucket', r) => (bucket', r)
      else deleteManyLoop keys bucket

/-- The method `BoltDBEmbed.DeleteMany`. -/
def BoltDBEmbed.DeleteMany (b : BoltDBEmbed) (keys : List Bytes) : BoltDBEmbed × Outcome :=
  b.withDB <| b.db.Update <| inBucket b.nspace (deleteManyLoop keys)

/-- The chunk loop of `Get`: reads children `i, i+1, ...` (`remaining` of them), rolling the
checksum and appending to the buffer; a missing child ends it with an error. -/
def readChunks (bucket : Bucket) (key : Bytes) :
    Nat → Nat → Nat → Bytes → Except Err (Nat × Bytes)
  | 0, _, calculatedChecksum, fullValue => .ok (calculatedChecksum, fullValue)
  | remaining + 1, i, calculatedChecksum, fullValue =>
    match bucket (chunkKey key i) with
    | none => .error (.chunkMissing i)
    | some chunkData =>
      readChunks bucket key remaining (i + 1)
        (crc32.Update calculatedChecksum chunkData) (fullValue ++ chunkData)

/-- The transaction body of `Get` on the bucket: the returned value (`none` for a nil
slice) and the error. -/
def getBody (key : Bytes) (bucket : Bucket) : Option Bytes × Outcome :=
  match bucket key with
  | none => (none, .err .ErrKeyNotFound)
  | some [] => (none, .panic)
  | some (flag :: rest) =>
    if flag = FullValueFlag then (some rest, .ok)
    else if flag = ChunkedValueFlag then
      if (flag :: rest).length < 9 then (none, .err .ErrInvalidChunkMetadata)
      else
        match binary.Uint32 rest, binary.Uint32 (rest.drop 4) with
        | some chunkCount, some storedChecksum =>
          match readChunks bucket key chunkCount 0 0 [] with
          | .error e => (none, .err e)
          | .ok (calculatedChecksum, fullValue) =>
            if calculatedChecksum ≠ storedChecksum then (none, .err .ErrRecordCorrupted)
            else (some fullValue, .ok)
        | _, _ => (none, .panic)
    else (some (flag :: rest), .err (.invalidDataFormatFor key))

/-- The method `BoltDBEmbed.Get`, a read-only transaction on the user bucket. -/
def BoltDBEmbed.Get (b : BoltDBEmbed) (key : Bytes) : Option Bytes × Outcome :=
  match b.db b.nspace with
  | none => (none, .err .ErrBucketNotFound)
  | some bucket => getBody key bucket

/-- What the specification asks of `DeleteMany`: the single-key `Delete` applied to each
listed key in order. -/
def deleteEach (b : BoltDBEmbed) : List Bytes → BoltDBEmbed × Outcome
  | [] => (b, .ok)
  | key :: keys =>
    match b.Delete key with
    | (b', .ok) => deleteEach b' keys
    | (b', r) => (b', r)

/-- A store for the examples: the user bucket is named `[1]` and is empty. -/
def exampleStore : BoltDBEmbed :=
  { db := fun name => if name = [1] then some Bucket.empty else none, nspace := [1] }

/-- A bucket for the examples, holding the given entries. -/
def bucketOf (entries : List (Bytes × Bytes)) : Bucket := fun key => entries.lookup key

/-- A store for the examples whose user bucket, named `[1]`, holds the given entries. -/
def storeOf (entries : List (Bytes × Bytes)) : BoltDBEmbed :=
  { db := fun name => if name = [1] then some (bucketOf entries) else none, nspace := [1] }

/-- The entries of a chunked value under `[5]` with the three chunks `[11]`, `[12]`, `[13]`
and the checksum `checksum` in its header. -/
def chunkedEntries (checksum : Nat) : List (Bytes × Bytes) :=
  [([5], metaData 3 checksum), (chunkKey [5] 0, [11]), (chunkKey [5] 1, [12]),
    (chunkKey [5] 2, [13])]

/-- Modelled from the spec: the name `sys` of the metadata bucket (the declaration of the
constant is not part of the sources). -/
def sysBucketMetaData : Bytes := [115, 121, 115]

/-- The bbolt call `tx.CreateBucketIfNotExists(name)`: refuses the empty name, keeps a
bucket that is there and creates an empty one otherwise. -/
def CreateBucketIfNotExists (tx : DB) (name : Bytes) : DB × Outcome :=
  if name = [] then (tx, .err .ErrBucketNameRequired)
  else
    match tx name with
    | some _ => (tx, .ok)
    | none => (Function.update tx name (some Bucket.empty), .ok)

/-- The constructor `NewBoltdb` over the buckets `db` of the opened file and the namespace
of the configuration: the user bucket and the metadata bucket are created when they are
missing, and the handle is returned next to the error of that transaction. -/
def NewBoltdb (db : DB) (nspace : Bytes) : BoltDBEmbed × Outcome :=
  BoltDBEmbed.withDB { db := db, nspace := nspace } <| db.Update fun tx =>
    match CreateBucketIfNotExists tx nspace with
    | (tx', .ok) => CreateBucketIfNotExists tx' sysBucketMetaData
    | (tx', r) => (tx', r)

/-- The loop `for i, key := range keys { bucket.Put(key, flag ++ value[i]) }` of `SetMany`
from index `i`; an index `i` outside `value` is a run-time panic. -/
def setManyLoop (value : List Bytes) : List Bytes → Nat → Bucket → Bucket × Outcome
  | [], _, bucket => (bucket, .ok)
  | key :: keys, i, bucket =>
    match value[i]? with
    | none => (bucket, .panic)
    | some v =>
      let storedValue := FullValueFlag :: v
      match bucket.Put key storedValue with
      | (bucket', .ok) => setManyLoop value keys (i + 1) bucket'
      | (bucket', r) => (bucket', r)

/-- The method `BoltDBEmbed.SetMany`: one transaction over all the keys. -/
def BoltDBEmbed.SetMany (b : BoltDBEmbed) (keys value : List Bytes) : BoltDBEmbed × Outcome :=
  b.withDB <| b.db.Update <| inBucket b.nspace (setManyLoop value keys 0)

/-- What the specification compares `SetMany` with: the store after `Set(keys[i], values[i])`
for `i = 0, 1, ...` in order, each call on the store that the one before it left. -/
def setEach (b : BoltDBEmbed) : List Bytes → List Bytes → BoltDBEmbed
  | key :: keys, v :: values => setEach (b.Set key v).1 keys values
  | _, _ => b

/-- The bucket after the listed keys have been bound, in order, to the flag byte `0x00`
followed by the value listed with them. -/
def putFullValues (bucket : Bucket) (pairs : List (Bytes × Bytes)) : Bucket :=
  pairs.foldl (fun bk kv => Function.update bk kv.1 (some (FullValueFlag :: kv.2))) bucket

/-- The method `BoltDBEmbed.StoreMetadata`: a `Put` of the bare value in the metadata
bucket. -/
def BoltDBEmbed.StoreMetadata (b : BoltDBEmbed) (key value : Bytes) : BoltDBEmbed × Outcome :=
  b.withDB <| b.db.Update <| inBucket sysBucketMetaData fun bucket => bucket.Put key value

/-- The method `BoltDBEmbed.RetrieveMetadata`, a read-only transaction on the metadata
bucket: a copy of the stored value. -/
def BoltDBEmbed.RetrieveMetadata (b : BoltDBEmbed) (key : Bytes) : Option Bytes × Outcome :=
  match b.db sysBucketMetaData with
  | none => (none, .err .ErrBucketNotFound)
  | some bucket =>
    match bucket key with
    | none => (none, .err .ErrKeyNotFound)
    | some data => (some data, .ok)

/-- The store after `StoreMetadata(k, v)` for each listed pair in order, whatever each call
returns. -/
def storeMetadataEach (b : BoltDBEmbed) : List (Bytes × Bytes) → BoltDBEmbed
  | [] => b
  | (key, value) :: pairs => storeMetadataEach (b.StoreMetadata key value).1 pairs

/-- The words of the specification "`key` holds a well-formed chunked header with count
`n`": the stored value starts with the flag `0x01`, is at least 9 bytes long, and its
bytes 1 to 4 are `n` in little-endian. -/
def HoldsHeader (bucket : Bucket) (key : Bytes) (n : Nat) : Prop :=
  ∃ rest, bucket key = some (ChunkedValueFlag :: rest) ∧
    9 ≤ (ChunkedValueFlag :: rest).length ∧ binary.Uint32 rest = some n

/-- The words of the specification "when `key` holds a chunked header with count `n`, all
`n` children are present". -/
def ChildrenPresent (bucket : Bucket) (key : Bytes) : Prop :=
  ∀ n, HoldsHeader bucket key n → ∀ i, i < n → bucket (chunkKey key i) ≠ none

/-- A call of one of the three writing methods of the store on a user key. -/
inductive Call where
  | Set (key value : Bytes)
  | SetChunks (key : Bytes) (chunks : List Bytes) (checksum : Nat)
  | Delete (key : Bytes)
  deriving DecidableEq, Repr

/-- The key that a call operates on. -/
def Call.key : Call → Bytes
  | .Set key _ => key
  | .SetChunks key _ _ => key
  | .Delete key => key

/-- The call made on the store `b`. -/
def Call.run (b : BoltDBEmbed) : Call → BoltDBEmbed × Outcome
  | .Set key value => b.Set key value
  | .SetChunks key chunks checksum => b.SetChunks key chunks checksum
  | .Delete key => b.Delete key

/-- The store reached from `b` by the calls in order, when each of them succeeds. -/
def runCalls (b : BoltDBEmbed) : List Call → Option BoltDBEmbed
  | [] => some b
  | c :: cs =>
    match c.run b with
    | (b', .ok) => runCalls b' cs
    | _ => none

/-- The condition of the specification on a sequence of calls: no operated key is a chunk
child key of another operated key. -/
def NoChildKeys (calls : List Call) : Prop :=
  ∀ c ∈ calls, ∀ c' ∈ calls, ∀ i : Nat, c.key ≠ chunkKey c'.key i

/-- A store for the examples with the two buckets that `NewBoltdb` makes, the user bucket
named `[1]` holding the given entries and the metadata bucket the given metadata. -/
def storeWithMeta (entries metadata : List (Bytes × Bytes)) : BoltDBEmbed :=
  { db := fun name =>
      if name = [1] then some (bucketOf entries)
      else if name = sysBucketMetaData then some (bucketOf metadata) else none
    nspace := [1] }

/-- A store for the examples, reached from the empty store by three calls on the key
`[5]`: a `SetChunks` of the chunks `[11]`, `[12]`, `[13]`, a `Set`, and a `SetChunks` of the
one chunk `[21]`. -/
def replacedStore : BoltDBEmbed :=
  (((exampleStore.SetChunks [5] [[11], [12], [13]] 0).1.Set [5] [9]).1.SetChunks [5] [[21]] 0).1

/-- A chunk for the examples whose nine bytes read as a chunked header with count 5. -/
def headerLikeChunk : Bytes := [1, 5, 0, 0, 0, 0, 0, 0, 0]

end kvdb

namespace dbkernel

/-- Modelled from the spec: the operation kinds of a WAL record and of a memtable entry
(the generated `walrecord.LogOperation` declaration is not part of the sources); `Noop` is
the kind of the zero `y.ValueStruct` that a memtable returns for a key it does not hold. -/
inductive LogOperation where
  | Noop
  | Insert
  | Delete
  | DeleteRow
  | TxnBegin
  | TxnInsert
  | TxnCommit
  deriving DecidableEq, Repr

/-- The generated `walrecord.EntryType`, a byte. -/
abbrev EntryType := Byte

/-- The entry type of a plain key and value. -/
def EntryTypeKV : EntryType := 0

/-- The entry type of the commit record of a chunked value. -/
def EntryTypeChunked : EntryType := 1

/-- The entry type of a row record. -/
def EntryTypeRow : EntryType := 2

/-- The fields of `y.ValueStruct` that the engine reads: the operation kind in `Meta` and
the encoded log position in `Value`. -/
structure ValueStruct where
  Meta : LogOperation
  Value : Bytes
  deriving DecidableEq, Repr

/-- The accessors of a decoded `walrecord.WalRecord` that the read path uses. -/
structure WalRecord where
  EntryType : EntryType
  ValueBytes : Bytes
  Crc32Checksum : Nat
  PrevTxnWalIndexBytes : Bytes
  deriving DecidableEq, Repr

/-- A memtable, through the two lookups the engine makes: `get` and `getRowYValue`. -/
structure MemTable where
  get : Bytes → ValueStruct
  getRowYValue : Bytes → List ValueStruct

/-- Modelled from the spec: a position in the log, the triple of segment, block and chunk
offset, each a `uint32` (the declaration of `wal.Offset` is not part of the sources). -/
structure Offset where
  SegmentId : Nat
  BlockNumber : Nat
  ChunkOffset : Nat
  deriving DecidableEq, Repr

/-- The state of the engine that the public operations look at. The log is present
through its two reads: `getWalRecord(it, e.walIO)` and
`e.walIO.GetTransactionRecords(wal.DecodeOffset(bytes))`. -/
structure Engine where
  shutdown : Bool
  bloom : Bytes → Bool
  activeMemTable : MemTable
  sealedMemTables : List MemTable
  dataStore : kvdb.BoltDBEmbed
  getWalRecord : ValueStruct → Except Err WalRecord
  GetTransactionRecords : Bytes → Except Err (List WalRecord)
  currentOffset : Option Offset
  writeSeenCounter : Nat
  opsFlushedCounter : Nat

/-- The function `unmarshalChecksum`: 0 on fewer than four bytes, else the little-endian `uint32`. -/
def unmarshalChecksum (data : Bytes) : Nat :=
  if data.length < 4 then 0 else (binary.Uint32 data).getD 0

/-- The method `Engine.reconstructBatchValue`: the values of the chain after its first record,
concatenated and checked against the checksum held in the commit record. -/
def Engine.reconstructBatchValue (e : Engine) (record : WalRecord) : Option Bytes × Outcome :=
  match e.GetTransactionRecords record.PrevTxnWalIndexBytes with
  | .error err => (none, .err (.reconstructFailed err))
  | .ok records =>
    let checksum := unmarshalChecksum record.ValueBytes
    match records with
    | [] => (none, .panic)
    | _ :: preparedRecords =>
      let value := (preparedRecords.map fun rec => rec.ValueBytes).flatten
      if crc32.ChecksumIEEE value ≠ checksum then (none, .err .ErrRecordCorrupted)
      else (some value, .ok)

/-- The loop of `checkFunc` over the sealed memtables, on the list already turned
newest-first: the first entry that is not `Noop`. -/
def scanSealed (key : Bytes) : List MemTable → Option ValueStruct
  | [] => none
  | table :: older =>
    let val := table.get key
    if val.Meta ≠ .Noop then some val else scanSealed key older

/-- The closure `checkFunc` of `Engine.Get`. -/
def Engine.checkFunc (e : Engine) (key : Bytes) : Except Err ValueStruct :=
  if !e.bloom key then .error .ErrKeyNotFound
  else
    let it := e.activeMemTable.get key
    if it.Meta = .Noop then
      match scanSealed key e.sealedMemTables.reverse with
      | some val => .ok val
      | none => .ok it
    else .ok it

/-- The part of `Engine.Get` after `checkFunc`: what is returned for the entry `it`. -/
def Engine.resolve (e : Engine) (key : Bytes) (it : ValueStruct) : Option Bytes × Outcome :=
  if it.Meta = .Noop then e.dataStore.Get key
  else if it.Meta = .Delete then (none, .err .ErrKeyNotFound)
  else
    match e.getWalRecord it with
    | .error err => (none, .err err)
    | .ok record =>
      if record.EntryType = EntryTypeChunked then e.reconstructBatchValue record
      else if crc32.ChecksumIEEE record.ValueBytes ≠ record.Crc32Checksum then
        (none, .err .ErrRecordCorrupted)
      else (some record.ValueBytes, .ok)

/-- The method `Engine.Get`. -/
def Engine.Get (e : Engine) (key : Bytes) : Option Bytes × Outcome :=
  if e.shutdown then (none, .err .ErrInCloseProcess)
  else
    match e.checkFunc key with
    | .error err => (none, .err err)
    | .ok it => e.resolve key it

/-- The function `isNewChunkPosition` on two pointers; `none` as a result is the run-time
panic of reading a field through a nil `current`. -/
def isNewChunkPosition (current lastSeen : Option Offset) : Option Bool :=
  match lastSeen with
  | none => some true
  | some lastSeen =>
    match current with
    | none => none
    | some current =>
      some (decide (current.SegmentId > lastSeen.SegmentId ∨
        (current.SegmentId = lastSeen.SegmentId ∧ current.BlockNumber > lastSeen.BlockNumber) ∨
        (current.SegmentId = lastSeen.SegmentId ∧ current.BlockNumber = lastSeen.BlockNumber ∧
          current.ChunkOffset > lastSeen.ChunkOffset)))

/-- The case of the `select` of `WaitForAppend` that is ready first: the context is done,
with the error `ctx.Err()` it then holds; the channel `done` is closed, which the waiting
goroutine does after a broadcast of the condition variable, `atWake` being the engine at
that moment; or the timer fires. -/
inductive WaitEvent where
  | ctxDone (err : Err)
  | done (atWake : Engine)
  | timeout

/-- How a call of `WaitForAppend` ends: the error it returns, and whether it got as far as
the `select`, that is, whether it waited. -/
structure WaitResult where
  err : Outcome
  waited : Bool
  deriving DecidableEq, Repr

/-- The `select` of `WaitForAppend`. -/
def waitSelect : WaitEvent → WaitResult
  | .ctxDone err => { err := .err err, waited := true }
  | .done _ => { err := .ok, waited := true }
  | .timeout => { err := .err .ErrWaitTimeoutExceeded, waited := true }

/-- The method `Engine.WaitForAppend`; `ev` is what happens first once the call waits. -/
def Engine.WaitForAppend (e : Engine) (lastSeen : Option Offset) (ev : WaitEvent) :
    WaitResult :=
  match e.currentOffset with
  | none => waitSelect ev
  | some currentPos =>
    if isNewChunkPosition (some currentPos) lastSeen = some true then
      { err := .ok, waited := false }
    else waitSelect ev

/-- The engine when a call of `WaitForAppend` returns: the engine at the wake-up when it
returns on the closed channel `done`, else the engine of the call. -/
def engineAtReturn (e : Engine) : WaitEvent → WaitResult → Engine
  | .done atWake, { err := _, waited := true } => atWake
  | _, _ => e

/-- The columns of a row, a Go `map[string][]byte` that is not nil. -/
abbrev ColumnMap := Bytes → Option Bytes

/-- The parts of the package that the public operations call and that are not part of the
sources, as parameters: the two write paths, `close`, the row read of the store, the merge
of row deltas `buildColumnMap(columnsValue, vs, e.walIO)`, which changes the map it is
given, and the two constructors of log readers. -/
structure Deps where
  Reader : Type
  persistKeyValue : Engine → Bytes → Option Bytes → LogOperation → Engine × Outcome
  persistRowColumnAction :
    Engine → LogOperation → Bytes → Option ColumnMap → Engine × Outcome
  close : Engine → Engine × Outcome
  storeGetRowColumns :
    kvdb.BoltDBEmbed → Bytes → (Bytes → Bool) → Option ColumnMap × Outcome
  buildColumnMap : Engine → Option ColumnMap → List ValueStruct → Option ColumnMap × Outcome
  NewReader : Engine → Except Err Reader
  NewReaderWithStart : Engine → Offset → Except Err Reader

/-- The method `Engine.Put`. -/
def Engine.Put (deps : Deps) (e : Engine) (key value : Bytes) : Engine × Outcome :=
  if e.shutdown then (e, .err .ErrInCloseProcess)
  else deps.persistKeyValue e key (some value) .Insert

/-- The method `Engine.Delete`. -/
def Engine.Delete (deps : Deps) (e : Engine) (key : Bytes) : Engine × Outcome :=
  if e.shutdown then (e, .err .ErrInCloseProcess)
  else deps.persistKeyValue e key none .Delete

/-- The method `Engine.SetColumnsInRow`. -/
def Engine.SetColumnsInRow (deps : Deps) (e : Engine) (rowKey : Bytes)
    (columnEntries : Option ColumnMap) : Engine × Outcome :=
  if e.shutdown then (e, .err .ErrInCloseProcess)
  else deps.persistRowColumnAction e .Insert rowKey columnEntries

/-- The method `Engine.DeleteColumnsFromRow`. -/
def Engine.DeleteColumnsFromRow (deps : Deps) (e : Engine) (rowKey : Bytes)
    (columnEntries : Option ColumnMap) : Engine × Outcome :=
  if e.shutdown then (e, .err .ErrInCloseProcess)
  else deps.persistRowColumnAction e .Delete rowKey columnEntries

/-- The method `Engine.DeleteRow`. -/
def Engine.DeleteRow (deps : Deps) (e : Engine) (rowKey : Bytes) : Engine × Outcome :=
  if e.shutdown then (e, .err .ErrInCloseProcess)
  else deps.persistRowColumnAction e .DeleteRow rowKey none

/-- The closure `checkFunc` of `Engine.GetRowColumns`: the row deltas of the sealed
memtables in the order of the list, then those of the active memtable. -/
def Engine.rowCheckFunc (e : Engine) (key : Bytes) : Except Err (List ValueStruct) :=
  if !e.bloom key then .error .ErrKeyNotFound
  else
    let first := e.activeMemTable.getRowYValue key
    if first.length ≠ 0 ∧ first.getLast?.map (fun v => v.Meta) = some .DeleteRow then
      .error .ErrKeyNotFound
    else
      let vs := (e.sealedMemTables.map fun sm => sm.getRowYValue key).flatten
      .ok (vs ++ first)

/-- The last loop of `GetRowColumns`: the columns that fail a non-nil predicate are
deleted from the map. -/
def filterColumns (predicate : Option (Bytes → Bool)) (columnsValue : Option ColumnMap) :
    Option ColumnMap :=
  match predicate with
  | none => columnsValue
  | some p => columnsValue.map fun m columnKey => if p columnKey then m columnKey else none

/-- The closure `predicateFunc` of `GetRowColumns`, handed to the store: a nil predicate
accepts every column. -/
def predicateFunc (predicate : Option (Bytes → Bool)) (columnKey : Bytes) : Bool :=
  match predicate with
  | none => true
  | some p => p columnKey

/-- The method `Engine.GetRowColumns`; a nil predicate is `none`. -/
def Engine.GetRowColumns (deps : Deps) (e : Engine) (rowKey : Bytes)
    (predicate : Option (Bytes → Bool)) : Option ColumnMap × Outcome :=
  if e.shutdown then (none, .err .ErrInCloseProcess)
  else
    match e.rowCheckFunc rowKey with
    | .error err => (none, .err err)
    | .ok vs =>
      match deps.storeGetRowColumns e.dataStore rowKey (predicateFunc predicate) with
      | (_, .panic) => (none, .panic)
      | (columnsValue, r) =>
        let fatal := match r with
          | .err err => !err.Is .ErrKeyNotFound
          | _ => false
        if fatal then (none, r)
        else
          match deps.buildColumnMap e columnsValue vs with
          | (merged, .ok) => (filterColumns predicate merged, .ok)
          | (_, r) => (none, r)

/-- The method `Engine.Close`. -/
def Engine.Close (deps : Deps) (e : Engine) : Engine × Outcome :=
  if e.shutdown then (e, .err .ErrInCloseProcess)
  else deps.close e

/-- The method `Engine.NewReader`. -/
def Engine.NewReader (deps : Deps) (e : Engine) : Except Err deps.Reader :=
  deps.NewReader e

/-- The method `Engine.NewReaderWithStart`; a nil `startPos` is `none`. -/
def Engine.NewReaderWithStart (deps : Deps) (e : Engine) (startPos : Option Offset) :
    Except Err deps.Reader :=
  let curOffset := e.currentOffset
  match startPos with
  | none => e.NewReader deps
  | some startPos =>
    match curOffset with
    | none => .error .ErrInvalidOffset
    | some curOffset =>
      if startPos.SegmentId > curOffset.SegmentId then .error .ErrInvalidOffset
      else if startPos.SegmentId = curOffset.SegmentId then
        if startPos.BlockNumber > curOffset.BlockNumber then .error .ErrInvalidOffset
        else if startPos.BlockNumber = curOffset.BlockNumber then
          if startPos.ChunkOffset > curOffset.ChunkOffset then .error .ErrInvalidOffset
          else deps.NewReaderWithStart e startPos
        else deps.NewReaderWithStart e startPos
      else deps.NewReaderWithStart e startPos

/-- The order of the specification on positions: the lexicographic order of the triples
of segment, block and chunk offset. -/
def Offset.lexLt (a b : Offset) : Prop :=
  toLex (a.SegmentId, toLex (a.BlockNumber, a.ChunkOffset))
    < toLex (b.SegmentId, toLex (b.BlockNumber, b.ChunkOffset))

/-- The condition of the specification for a success of `WaitForAppend`: the current
offset of the engine is not nil, and `lastSeen` is nil or strictly below it. -/
def OffsetPast (e : Engine) (lastSeen : Option Offset) : Prop :=
  ∃ c, e.currentOffset = some c ∧ (lastSeen = none ∨ ∃ l, lastSeen = some l ∧ l.lexLt c)

/-- The deciding memtable entry for a key, in the words of the specification: the active
memtable's entry when it is not `Noop`, else the entry of the newest sealed memtable, the
one of highest index in the sealed list, that holds an entry that is not `Noop`. -/
def IsDecidingEntry (e : Engine) (key : Bytes) (it : ValueStruct) : Prop :=
  (it = e.activeMemTable.get key ∧ it.Meta ≠ .Noop) ∨
  ((e.activeMemTable.get key).Meta = .Noop ∧
    ∃ i : Fin e.sealedMemTables.length,
      it = (e.sealedMemTables.get i).get key ∧ it.Meta ≠ .Noop ∧
      ∀ j : Fin e.sealedMemTables.length, i < j →
        ((e.sealedMemTables.get j).get key).Meta = .Noop)

/-- A memtable for the examples, holding the listed entries and `Noop` elsewhere. -/
def memTableOf (entries : List (Bytes × ValueStruct)) : MemTable :=
  { get := fun key => (entries.lookup key).getD { Meta := .Noop, Value := [] },
    getRowYValue := fun _ => [] }

/-- An engine for the examples. The Bloom filter is negative on `[9]` only. The active
memtable holds an insert for `[1]` and a delete for `[2]`; the older sealed memtable holds
inserts for `[2]`, `[3]` and `[4]`, the newer one a delete for `[3]` and an insert for
`[6]`. The store holds full values under `[2]`, `[3]`, `[4]` and `[7]`. The log holds the
record of value `[21]` at position `[11]` and a record with a wrong checksum at `[16]`. -/
def exampleEngine : Engine :=
  { shutdown := false
    bloom := fun key => decide (key ≠ [9])
    activeMemTable := memTableOf
      [([1], { Meta := .Insert, Value := [11] }), ([2], { Meta := .Delete, Value := [12] })]
    sealedMemTables :=
      [memTableOf
        [([2], { Meta := .Insert, Value := [11] }), ([3], { Meta := .Insert, Value := [11] }),
          ([4], { Meta := .Insert, Value := [11] })],
       memTableOf
        [([3], { Meta := .Delete, Value := [13] }), ([6], { Meta := .Insert, Value := [16] })]]
    dataStore := kvdb.storeOf [([2], [0, 32]), ([3], [0, 33]), ([4], [0, 34]), ([7], [0, 37])]
    getWalRecord := fun it =>
      if it.Value = [11] then
        .ok { EntryType := EntryTypeKV, ValueBytes := [21],
              Crc32Checksum := crc32.ChecksumIEEE [21], PrevTxnWalIndexBytes := [] }
      else if it.Value = [16] then
        .ok { EntryType := EntryTypeKV, ValueBytes := [26],
              Crc32Checksum := 0, PrevTxnWalIndexBytes := [] }
      else .error (.walFailure 0)
    GetTransactionRecords := fun _ => .error (.walFailure 1)
    currentOffset := some { SegmentId := 1, BlockNumber := 2, ChunkOffset := 30 }
    writeSeenCounter := 6
    opsFlushedCounter := 4 }

/-- An engine for the examples of chunked values. The active memtable holds a commit
entry for `[8]` and one for `[10]`. Both commit records are of entry type `Chunked` and
point to the chain of a begin record and two records of values `[41]` and `[42, 43]`; the
first holds the checksum of `[41, 42, 43]`, the second the checksum 7. -/
def chunkedEngine : Engine :=
  { exampleEngine with
    activeMemTable := memTableOf
      [([8], { Meta := .TxnCommit, Value := [18] }),
        ([10], { Meta := .TxnCommit, Value := [20] })]
    sealedMemTables := []
    getWalRecord := fun it =>
      if it.Value = [18] then
        .ok { EntryType := EntryTypeChunked,
              ValueBytes := binary.PutUint32 (crc32.ChecksumIEEE [41, 42, 43]),
              Crc32Checksum := 0, PrevTxnWalIndexBytes := [17] }
      else if it.Value = [20] then
        .ok { EntryType := EntryTypeChunked, ValueBytes := binary.PutUint32 7,
              Crc32Checksum := 0, PrevTxnWalIndexBytes := [17] }
      else .error (.walFailure 0)
    GetTransactionRecords := fun pos =>
      if pos = [17] then
        .ok [{ EntryType := EntryTypeChunked, ValueBytes := [], Crc32Checksum := 0,
               PrevTxnWalIndexBytes := [] },
             { EntryType := EntryTypeChunked, ValueBytes := [41], Crc32Checksum := 0,
               PrevTxnWalIndexBytes := [15] },
             { EntryType := EntryTypeChunked, ValueBytes := [42, 43], Crc32Checksum := 0,
               PrevTxnWalIndexBytes := [16] }]
      else .error (.walFailure 1) }

/-- Parameters for the examples: a write path that counts the operation, a `close` that
sets the shutdown flag, an empty row read, a merge that keeps the map, and readers that
are told apart by a number. -/
def exampleDeps : Deps :=
  { Reader := Nat
    persistKeyValue := fun e _ _ _ =>
      ({ e with writeSeenCounter := e.writeSeenCounter + 1 }, .ok)
    persistRowColumnAction := fun e _ _ _ =>
      ({ e with writeSeenCounter := e.writeSeenCounter + 1 }, .ok)
    close := fun e => ({ e with shutdown := true }, .ok)
    storeGetRowColumns := fun _ _ _ => (some fun _ => none, .ok)
    buildColumnMap := fun _ columnsValue _ => (columnsValue, .ok)
    NewReader := fun _ => .ok 0
    NewReaderWithStart := fun _ startPos => .ok (startPos.ChunkOffset + 1) }

/-- A merge step for the examples: a delta whose `Value` is a column name byte followed by
the column value sets that column on `Insert` and removes it on `Delete`; `DeleteRow`
clears the map. -/
def exampleDelta (m : ColumnMap) (it : ValueStruct) : ColumnMap :=
  match it.Meta with
  | .Insert => Function.update m (it.Value.take 1) (some (it.Value.drop 1))
  | .Delete => Function.update m (it.Value.take 1) none
  | .DeleteRow => fun _ => none
  | _ => m

/-- Parameters for the examples of rows: the store holds the row `[1]` with the columns
`[1]` and `[2]` and hands out those that the predicate accepts; the merge replays the
deltas in the order given, oldest first. -/
def rowDeps : Deps :=
  { exampleDeps with
    storeGetRowColumns := fun _ rowKey predicateFunc =>
      if rowKey = [1] then
        (some fun col =>
          if predicateFunc col then [([1], [10]), ([2], [20])].lookup col else none, .ok)
      else (none, .err .ErrKeyNotFound)
    buildColumnMap := fun _ columnsValue vs =>
      (some (vs.foldl exampleDelta (columnsValue.getD fun _ => none)), .ok) }

/-- A memtable for the examples that holds the listed row deltas under the row `[1]`. -/
def rowTableOf (deltas : List ValueStruct) : MemTable :=
  { get := fun _ => { Meta := .Noop, Value := [] },
    getRowYValue := fun key => if key = [1] then deltas else [] }

/-- An engine for the examples of rows. For the row `[1]` the older sealed memtable sets
column `[3]`, the newer one removes column `[1]`, and the active memtable sets column `[4]`. -/
def rowEngine : Engine :=
  { exampleEngine with
    activeMemTable := rowTableOf [{ Meta := .Insert, Value := [4, 40] }]
    sealedMemTables :=
      [rowTableOf [{ Meta := .Insert, Value := [3, 30] }],
       rowTableOf [{ Meta := .Delete, Value := [1] }]] }

/-- An engine for the examples of rows in which the newest entry for the row `[1]` is a
`DeleteRow` that sits in the only sealed memtable, after a delta that sets column `[3]`;
the active memtable holds nothing for the row. -/
def sealedDeleteRowEngine : Engine :=
  { exampleEngine with
    activeMemTable := rowTableOf []
    sealedMemTables :=
      [rowTableOf [{ Meta := .Insert, Value := [3, 30] }, { Meta := .DeleteRow, Value := [] }]] }

/-- The same row deltas with the `DeleteRow` in the active memtable. -/
def activeDeleteRowEngine : Engine :=
  { exampleEngine with
    activeMemTable := rowTableOf [{ Meta := .DeleteRow, Value := [] }]
    sealedMemTables := [rowTableOf [{ Meta := .Insert, Value := [3, 30] }]] }

/-- An engine for the examples of chunked values whose log returns, without an error, a
chain with no record at all. -/
def emptyChainEngine : Engine :=
  { chunkedEngine with GetTransactionRecords := fun _ => .ok [] }

end dbkernel

namespace storage

/-- The position of a frame in the log, `wal.ChunkPosition` of the log library. -/
structure ChunkPosition where
  SegmentId : Nat
  BlockNumber : Nat
  ChunkOffset : Nat
  ChunkSize : Nat
  deriving DecidableEq, Repr

/-- The operation kinds that `batch.go` writes (the generated `wrecord.LogOperation`
declaration is not part of the sources). -/
inductive LogOperation where
  | LogOperationOpBatchStart
  | LogOperationOPBatchInsert
  | LogOperationOpBatchCommit
  deriving DecidableEq, Repr

/-- The struct `walRecord` with the fields that `batch.go` sets; a nil value and a nil
position are `none`. -/
structure walRecord where
  hlc : Nat
  key : Bytes
  value : Option Bytes
  op : LogOperation
  batchID : Bytes
  lastBatchPos : Option ChunkPosition
  deriving DecidableEq, Repr

/-- The content of the log: the frames written, oldest first, each with the position that
`Write` returned for it. -/
abbrev Log := List (ChunkPosition × Bytes)

/-- The state of the engine of this package: the global counter, the log, and the tiers
that a read consults, which are the Bloom filter, the memtables and the store. -/
structure Engine where
  globalCounter : Nat
  wal : Log
  bloom : Bytes → Bool
  activeMemTable : dbkernel.MemTable
  sealedMemTables : List dbkernel.MemTable
  dataStore : kvdb.BoltDBEmbed

/-- The parts that `batch.go` calls and that are not part of the sources, as parameters:
the record codec `fbEncode`; `wal.Write` of the log library, through the position or the
error it returns on a given log and frame (a write that succeeds appends the frame, one
that fails leaves the log as it was); `persistKeyValue`; and the two reads of the log that
a read of a key makes. -/
structure Env where
  fbEncode : walRecord → Except Err Bytes
  Write : Log → Bytes → Except Err ChunkPosition
  persistKeyValue :
    Engine → Bytes → Bytes → LogOperation → Bytes → Option ChunkPosition → Engine × Outcome
  getWalRecord : Log → dbkernel.ValueStruct → Except Err dbkernel.WalRecord
  GetTransactionRecords : Log → Bytes → Except Err (List dbkernel.WalRecord)

/-- The struct `Batch`; the field `engine` is the engine behind the pointer. -/
structure Batch where
  key : Bytes
  batchID : Bytes
  lastPos : Option ChunkPosition
  err : Option Err
  commited : Bool
  engine : Engine
  checksum : Nat

/-- The method `globalCounter.Add(1)` of an atomic `uint64`: the engine after it; the
value it returns is the new counter. -/
def Engine.addCounter (e : Engine) : Engine :=
  { e with globalCounter := (e.globalCounter + 1) % 2 ^ 64 }

/-- The method `wal.Write` on the engine: the engine after it and what it returns. -/
def Engine.walWrite (env : Env) (e : Engine) (encoded : Bytes) :
    Engine × Except Err ChunkPosition :=
  match env.Write e.wal encoded with
  | .error err => (e, .error err)
  | .ok chunkPos => ({ e with wal := e.wal ++ [(chunkPos, encoded)] }, .ok chunkPos)

/-- The method `Engine.NewBatch`; `uuid` is what `ksuid.New().MarshalBinary()` returns.
The result is the engine after the call and the batch or the error. -/
def Engine.NewBatch (env : Env) (e : Engine) (uuid : Except Err Bytes) (key : Bytes) :
    Engine × Except Err Batch :=
  match uuid with
  | .error err => (e, .error err)
  | .ok uuid =>
    let e1 := e.addCounter
    let index := e1.globalCounter
    let record : walRecord :=
      { hlc := index, key := key, value := none, op := .LogOperationOpBatchStart,
        batchID := uuid, lastBatchPos := none }
    match env.fbEncode record with
    | .error err => (e1, .error err)
    | .ok encoded =>
      match e1.walWrite env encoded with
      | (e2, .error err) => (e2, .error err)
      | (e2, .ok chunkPos) =>
        (e2, .ok { key := key, batchID := uuid, lastPos := some chunkPos, err := none,
                   commited := false, engine := e2, checksum := 0 })

/-- The method `Batch.Put`: the batch after the call and the error. -/
def Batch.Put (env : Env) (b : Batch) (value : Bytes) : Batch × Outcome :=
  match b.err with
  | some err => (b, .err err)
  | none =>
    let e1 := b.engine.addCounter
    let index := e1.globalCounter
    let record : walRecord :=
      { hlc := index, key := b.key, value := some value, op := .LogOperationOPBatchInsert,
        batchID := b.batchID, lastBatchPos := b.lastPos }
    match env.fbEncode record with
    | .error err => ({ b with engine := e1, err := some err }, .err err)
    | .ok encoded =>
      match e1.walWrite env encoded with
      | (e2, .error err) => ({ b with engine := e2, err := some err }, .err err)
      | (e2, .ok chunkPos) =>
        ({ b with engine := e2, lastPos := some chunkPos,
                  checksum := crc32.Update b.checksum value }, .ok)

/-- The record that `Batch.Put` encodes for `value`. -/
def Batch.insertRecord (b : Batch) (value : Bytes) : walRecord :=
  { hlc := b.engine.addCounter.globalCounter, key := b.key, value := some value,
    op := .LogOperationOPBatchInsert, batchID := b.batchID, lastBatchPos := b.lastPos }

/-- The record that `Engine.NewBatch` encodes for the batch id `uuid`. -/
def Engine.startRecord (e : Engine) (uuid key : Bytes) : walRecord :=
  { hlc := e.addCounter.globalCounter, key := key, value := none,
    op := .LogOperationOpBatchStart, batchID := uuid, lastBatchPos := none }

/-- The function `marshalChecksum`: the four bytes of the checksum, least significant
first. -/
def marshalChecksum (checksum : Nat) : Bytes := binary.PutUint32 checksum

/-- The function `unmarshalChecksum` of `batch.go`: 0 on fewer than four bytes, else the
little-endian `uint32` of the first four. -/
def unmarshalChecksum (data : Bytes) : Nat :=
  if data.length < 4 then 0 else (binary.Uint32 data).getD 0

/-- The method `Batch.Commit`: the engine after the call and the error. -/
def Batch.Commit (env : Env) (b : Batch) : Engine × Outcome :=
  match b.err with
  | some err => (b.engine, .err err)
  | none =>
    env.persistKeyValue b.engine b.key (marshalChecksum b.checksum)
      .LogOperationOpBatchCommit b.batchID b.lastPos

/-- A caller that puts the values one after the other, whatever each `Put` returns: the
batch after the last one. -/
def Batch.putEach (env : Env) : Batch → List Bytes → Batch
  | b, [] => b
  | b, value :: values => Batch.putEach env (b.Put env value).1 values

/-- A caller that puts the values one after the other and stops at the first error. -/
def Batch.putAll (env : Env) : Batch → List Bytes → Batch × Outcome
  | b, [] => (b, .ok)
  | b, value :: values =>
    match b.Put env value with
    | (b', .ok) => Batch.putAll env b' values
    | (b', r) => (b', r)

/-- The engine after a batch is opened on `key` and the values are put into it, with no
`Commit`. -/
def Engine.openBatch (env : Env) (e : Engine) (uuid : Except Err Bytes) (key : Bytes)
    (values : List Bytes) : Engine :=
  match e.NewBatch env uuid key with
  | (e1, .error _) => e1
  | (_, .ok b) => (b.putEach env values).engine

/-- The records of one batch in the words of the specification: each record carries the
key and the batch id, and its previous position is the position of the record before it,
`prev` for the first. -/
def IsChain (key batchID : Bytes) :
    Option ChunkPosition → List (ChunkPosition × walRecord) → Prop
  | _, [] => True
  | prev, (pos, record) :: rest =>
    record.lastBatchPos = prev ∧ record.key = key ∧ record.batchID = batchID ∧
      IsChain key batchID (some pos) rest

/-- The position of the last record of a chain, `prev` when there is no record. -/
def chainEnd (prev : Option ChunkPosition) (records : List (ChunkPosition × walRecord)) :
    Option ChunkPosition :=
  match records.getLast? with
  | some (pos, _) => some pos
  | none => prev

/-- The frames are the encodings of the records, at the same positions. -/
def Encodes (env : Env) (records : List (ChunkPosition × walRecord)) (frames : Log) : Prop :=
  List.Forall₂ (fun r f => r.1 = f.1 ∧ env.fbEncode r.2 = .ok f.2) records frames

/-- The records that a batch on `key` with id `batchID` has written since the log was
`log0`: they are not none, they form a chain that starts with no previous position, the
log is `log0` followed by their frames, and the batch holds the position of the last. -/
def ChainWritten (env : Env) (log0 : Log) (key batchID : Bytes) (b : Batch)
    (records : List (ChunkPosition × walRecord)) : Prop :=
  records ≠ [] ∧ IsChain key batchID none records ∧
    (∃ frames, Encodes env records frames ∧ b.engine.wal = log0 ++ frames) ∧
    b.lastPos = chainEnd none records ∧ b.key = key ∧ b.batchID = batchID

/-- Modelled from the spec: the engine as the read path sees it (the method `Get` of this
package is not part of the sources): the tiers of the engine, with the reads of the log
made on its current content. -/
def Engine.view (env : Env) (e : Engine) : dbkernel.Engine :=
  { shutdown := false
    bloom := e.bloom
    activeMemTable := e.activeMemTable
    sealedMemTables := e.sealedMemTables
    dataStore := e.dataStore
    getWalRecord := env.getWalRecord e.wal
    GetTransactionRecords := env.GetTransactionRecords e.wal
    currentOffset := none
    writeSeenCounter := e.globalCounter
    opsFlushedCounter := 0 }

/-- Modelled from the spec: a read of a key, the read path of `Engine.Get` over the tiers
of the engine and its log. -/
def Engine.read (env : Env) (e : Engine) (key : Bytes) : Option Bytes × Outcome :=
  (e.view env).Get key

/-- Parameters for the examples: a codec that writes the counter, the length of the key
and the length of the value; a log that places each frame at the chunk offset equal to the
number of frames before it and refuses a frame whose last byte is 9;
a write path that counts the operation; and reads of the log that look at the entry only. -/
def exampleEnv : Env :=
  { fbEncode := fun record =>
      .ok [Fin.ofNat record.hlc, Fin.ofNat record.key.length,
        Fin.ofNat ((record.value.getD []).length)]
    Write := fun log encoded =>
      if encoded.getLast? = some 9 then .error (.walFailure 2)
      else .ok { SegmentId := 1, BlockNumber := 0, ChunkOffset := log.length,
                 ChunkSize := encoded.length }
    persistKeyValue := fun e _ _ _ _ _ => (e.addCounter, .ok)
    getWalRecord := fun _ it => dbkernel.exampleEngine.getWalRecord it
    GetTransactionRecords := fun _ pos => dbkernel.exampleEngine.GetTransactionRecords pos }

/-- An engine for the examples: an empty log over the tiers of the example engine of the
read path. -/
def exampleEngine : Engine :=
  { globalCounter := 0
    wal := []
    bloom := dbkernel.exampleEngine.bloom
    activeMemTable := dbkernel.exampleEngine.activeMemTable
    sealedMemTables := dbkernel.exampleEngine.sealedMemTables
    dataStore := dbkernel.exampleEngine.dataStore }

/-- The batch that `NewBatch` returns on the example engine for the key `[5]` and the
batch id `[77]`. -/
def exampleBatch : Batch :=
  { key := [5]
    batchID := [77]
    lastPos := some { SegmentId := 1, BlockNumber := 0, ChunkOffset := 0, ChunkSize := 3 }
    err := none
    commited := false
    engine :=
      { exampleEngine with
        globalCounter := 1
        wal := [({ SegmentId := 1, BlockNumber := 0, ChunkOffset := 0, ChunkSize := 3 },
          [1, 1, 0])] }
    checksum := 0 }

end storage

/-! ## Checksums and byte encodings -/

namespace crc32

theorem not32_not32 (crc : Nat) : not32 (not32 crc) = crc := by
  unfold not32
  rw [Nat.xor_assoc, Nat.xor_self, Nat.xor_zero]

theorem not32_lt {crc : Nat} (h : crc < 2 ^ 32) : not32 crc < 2 ^ 32 := by
  unfold not32
  exact Nat.xor_lt_two_pow h (by norm_num)

theorem tableRound_lt {crc : Nat} (h : crc < 2 ^ 32) : tableRound IEEE crc < 2 ^ 32 := by
  have h1 : crc >>> 1 < 2 ^ 32 := by
    rw [Nat.shiftRight_eq_div_pow]; omega
  unfold tableRound
  split
  · exact Nat.xor_lt_two_pow h1 (by norm_num [IEEE])
  · exact h1

theorem iterate_tableRound_lt (n : Nat) {crc : Nat} (h : crc < 2 ^ 32) :
    (tableRound IEEE)^[n] crc < 2 ^ 32 := by
  induction n generalizing crc with
  | zero => simpa using h
  | succ n ih =>
    rw [Function.iterate_succ_apply]
    exact ih (tableRound_lt h)

theorem IEEETable_lt {i : Nat} (h : i < 2 ^ 32) : IEEETable i < 2 ^ 32 :=
  iterate_tableRound_lt 8 h

theorem step_lt {crc : Nat} (h : crc < 2 ^ 32) (v : Byte) : step crc v < 2 ^ 32 := by
  unfold step
  apply Nat.xor_lt_two_pow
  · apply IEEETable_lt
    have h1 : crc % 256 < 2 ^ 8 := by omega
    have h2 : v.val < 2 ^ 8 := by have := v.isLt; omega
    have := @Nat.xor_lt_two_pow _ _ 8 h1 h2
    omega
  · rw [Nat.shiftRight_eq_div_pow]; omega

theorem foldl_step_lt (p : Bytes) {crc : Nat} (h : crc < 2 ^ 32) :
    p.foldl step crc < 2 ^ 32 := by
  induction p generalizing crc with
  | nil => simpa using h
  | cons v p ih => exact ih (step_lt h v)

/-- A checksum is a `uint32` when the one it continues is. -/
theorem Update_lt (p : Bytes) {crc : Nat} (h : crc < 2 ^ 32) : Update crc p < 2 ^ 32 :=
  not32_lt (foldl_step_lt p (not32_lt h))

theorem ChecksumIEEE_lt (data : Bytes) : ChecksumIEEE data < 2 ^ 32 :=
  Update_lt data (by norm_num)

/-- Rolling the checksum over two pieces is the checksum over their concatenation. -/
theorem Update_append (crc : Nat) (p q : Bytes) :
    Update (Update crc p) q = Update crc (p ++ q) := by
  unfold Update
  rw [not32_not32, List.foldl_append]

theorem Update_nil (crc : Nat) : Update crc [] = crc := by
  unfold Update
  exact not32_not32 crc

/-- The rolling checksum over a list of chunks, from `crc`, is the checksum of the
concatenation continued from `crc`. -/
theorem foldl_Update (chunks : List Bytes) (crc : Nat) :
    chunks.foldl Update crc = Update crc chunks.flatten := by
  induction chunks generalizing crc with
  | nil => simp [Update_nil]
  | cons c cs ih => rw [List.foldl_cons, ih, Update_append, List.flatten_cons]

end crc32

namespace binary

theorem lor_mul_two_pow {a i : Nat} (h : a < 2 ^ i) (b : Nat) :
    a ||| b * 2 ^ i = 2 ^ i * b + a := by
  rw [Nat.lor_comm, Nat.mul_comm b, ← Nat.mul_add_lt_is_or h]

theorem Uint32_PutUint32 (v : Nat) (rest : Bytes) :
    Uint32 (PutUint32 v ++ rest) = some (v % 2 ^ 32) := by
  simp only [PutUint32, Uint32, List.cons_append, List.nil_append, Option.some.injEq]
  have e0 : (Fin.ofNat v : Fin 256).val = v % 256 := rfl
  have e1 : (Fin.ofNat (v >>> 8) : Fin 256).val = v / 2 ^ 8 % 256 := by
    rw [← Nat.shiftRight_eq_div_pow]; rfl
  have e2 : (Fin.ofNat (v >>> 16) : Fin 256).val = v / 2 ^ 16 % 256 := by
    rw [← Nat.shiftRight_eq_div_pow]; rfl
  have e3 : (Fin.ofNat (v >>> 24) : Fin 256).val = v / 2 ^ 24 % 256 := by
    rw [← Nat.shiftRight_eq_div_pow]; rfl
  rw [e0, e1, e2, e3]
  simp only [Nat.shiftLeft_eq]
  rw [@lor_mul_two_pow (v % 256) 8 (by omega)]
  rw [@lor_mul_two_pow (2 ^ 8 * (v / 2 ^ 8 % 256) + v % 256) 16 (by omega)]
  rw [@lor_mul_two_pow
    (2 ^ 16 * (v / 2 ^ 16 % 256) + (2 ^ 8 * (v / 2 ^ 8 % 256) + v % 256)) 24 (by omega)]
  omega

theorem PutUint32_length (v : Nat) : (PutUint32 v).length = 4 := rfl

theorem PutUint32_mod (v : Nat) : PutUint32 (v % 2 ^ 32) = PutUint32 v := by
  simp only [PutUint32, Nat.shiftRight_eq_div_pow]
  have h0 : (Fin.ofNat (v % 2 ^ 32) : Fin 256) = Fin.ofNat v := by
    apply Fin.ext; show v % 2 ^ 32 % 256 = v % 256; omega
  have h1 : (Fin.ofNat (v % 2 ^ 32 / 2 ^ 8) : Fin 256) = Fin.ofNat (v / 2 ^ 8) := by
    apply Fin.ext; show v % 2 ^ 32 / 2 ^ 8 % 256 = v / 2 ^ 8 % 256; omega
  have h2 : (Fin.ofNat (v % 2 ^ 32 / 2 ^ 16) : Fin 256) = Fin.ofNat (v / 2 ^ 16) := by
    apply Fin.ext; show v % 2 ^ 32 / 2 ^ 16 % 256 = v / 2 ^ 16 % 256; omega
  have h3 : (Fin.ofNat (v % 2 ^ 32 / 2 ^ 24) : Fin 256) = Fin.ofNat (v / 2 ^ 24) := by
    apply Fin.ext; show v % 2 ^ 32 / 2 ^ 24 % 256 = v / 2 ^ 24 % 256; omega
  rw [h0, h1, h2, h3]

end binary

/-! ## The persistent store -/

namespace kvdb

theorem decimalValue_decimalCore (fuel : Nat) :
    ∀ (n : Nat) (acc : Bytes), n < fuel →
      (decimalCore fuel n acc).foldl decimalDigit 0 = acc.foldl decimalDigit n := by
  induction fuel with
  | zero => intro n acc h; omega
  | succ fuel ih =>
    intro n acc h
    unfold decimalCore
    split
    · next hlt =>
      have hv : (Fin.ofNat (48 + n) : Fin 256).val = 48 + n := by
        show (48 + n) % 256 = 48 + n
        omega
      simp [decimalDigit, hv]
    · next hge =>
      rw [ih (n / 10) _ (by omega)]
      have hv : (Fin.ofNat (48 + n % 10) : Fin 256).val = 48 + n % 10 := by
        show (48 + n % 10) % 256 = 48 + n % 10
        omega
      have hn : n / 10 * 10 + n % 10 = n := by omega
      simp [decimalDigit, hv, hn]

theorem decimalValue_decimal (n : Nat) : decimalValue (decimal n) = n := by
  unfold decimalValue decimal
  rw [decimalValue_decimalCore (n + 1) n [] (by omega)]
  rfl

/-- Two numbers with the same decimal output are equal. -/
theorem decimal_injective {i j : Nat} (h : decimal i = decimal j) : i = j := by
  have := congrArg decimalValue h
  rwa [decimalValue_decimal, decimalValue_decimal] at this

/-- The `%d` of a number below `10 ^ d` has at most `d` digits. -/
theorem decimalCore_length (fuel : Nat) :
    ∀ (n d : Nat) (acc : Bytes), 1 ≤ d → n < 10 ^ d →
      (decimalCore fuel n acc).length ≤ acc.length + d := by
  induction fuel with
  | zero => intro n d acc _ _; simp [decimalCore]
  | succ fuel ih =>
    intro n d acc hd hn
    unfold decimalCore
    split
    · simp only [List.length_cons]
      omega
    · next hge =>
      obtain ⟨d', rfl⟩ : ∃ d', d = d' + 1 := ⟨d - 1, by omega⟩
      have hd' : 1 ≤ d' := by
        by_contra h0
        have : d' = 0 := by omega
        subst this
        simp at hn
        omega
      have hdiv : n / 10 < 10 ^ d' := by
        rw [Nat.pow_succ] at hn
        exact Nat.div_lt_of_lt_mul (by rw [Nat.mul_comm]; exact hn)
      have := ih (n / 10) d' (Fin.ofNat (48 + n % 10) :: acc) hd' hdiv
      simp only [List.length_cons] at this
      omega

/-- The length of a child key whose index is below `10 ^ 10`. -/
theorem chunkKey_length_le (key : Bytes) {i : Nat} (hi : i < 10 ^ 10) :
    (chunkKey key i).length ≤ key.length + 17 := by
  have := decimalCore_length (i + 1) i 10 [] (by decide) hi
  simp only [chunkKey, chunkInfix, decimal, List.length_append, List.length_cons,
    List.length_nil] at this ⊢
  omega

theorem chunkKey_injective {key : Bytes} {i j : Nat} (h : chunkKey key i = chunkKey key j) :
    i = j := by
  unfold chunkKey at h
  exact decimal_injective (List.append_cancel_left h)

theorem chunkKey_ne_self (key : Bytes) (i : Nat) : chunkKey key i ≠ key := by
  intro h
  have := congrArg List.length h
  simp [chunkKey, chunkInfix] at this

theorem chunkKey_ne_nil (key : Bytes) (i : Nat) : chunkKey key i ≠ [] := by
  intro h
  have := congrArg List.length h
  simp [chunkKey, chunkInfix] at this

theorem deleteChunks_snd (key : Bytes) (n : Nat) :
    ∀ (i : Nat) (bucket : Bucket), (deleteChunks key n i bucket).2 = .ok := by
  induction n with
  | zero => intro i bucket; rfl
  | succ n ih => intro i bucket; simp only [deleteChunks, Bucket.Delete]; exact ih _ _

theorem deleteChunks_other (key : Bytes) (n : Nat) :
    ∀ (i : Nat) (bucket : Bucket) (k : Bytes), (∀ j, j < n → k ≠ chunkKey key (i + j)) →
      (deleteChunks key n i bucket).1 k = bucket k := by
  induction n with
  | zero => intro i bucket k _; rfl
  | succ n ih =>
    intro i bucket k h
    simp only [deleteChunks, Bucket.Delete]
    rw [ih (i + 1) _ k (fun j hj => by
      have := h (j + 1) (by omega)
      rwa [show i + (j + 1) = i + 1 + j by omega] at this)]
    exact Function.update_noteq (by simpa using h 0 (by omega)) _ _

theorem deleteChunks_child (key : Bytes) (n : Nat) :
    ∀ (i : Nat) (bucket : Bucket) (j : Nat), j < n →
      (deleteChunks key n i bucket).1 (chunkKey key (i + j)) = none := by
  induction n with
  | zero => intro i bucket j h; omega
  | succ n ih =>
    intro i bucket j h
    simp only [deleteChunks, Bucket.Delete]
    cases j with
    | zero =>
      rw [deleteChunks_other key n (i + 1) _ _ (fun j _ hEq => by
        have := chunkKey_injective hEq
        omega)]
      exact Function.update_same _ _ _
    | succ j =>
      have := ih (i + 1) (Function.update bucket (chunkKey key i) none) j (by omega)
      rwa [show i + 1 + j = i + (j + 1) by omega] at this

/-- What `Put` does on a key and a value within the limits of bbolt. -/
theorem Put_valid (bucket : Bucket) {key value : Bytes} (hkey : key ≠ [])
    (hk : key.length ≤ MaxKeySize) (hv : value.length ≤ MaxValueSize) :
    bucket.Put key value = (Function.update bucket key (some value), .ok) := by
  have hk' : ¬ key.length > MaxKeySize := by omega
  have hv' : ¬ value.length > MaxValueSize := by omega
  simp only [Bucket.Put, hkey, hk', hv', if_false]

/-- A `Put` that returns nil had a key and a value within the limits of bbolt. -/
theorem Put_inv {bucket : Bucket} {key value : Bytes} (h : (bucket.Put key value).2 = .ok) :
    key ≠ [] ∧ key.length ≤ MaxKeySize ∧ value.length ≤ MaxValueSize := by
  unfold Bucket.Put at h
  by_cases hkey : key = []
  · simp [hkey] at h
  · by_cases hk : key.length > MaxKeySize
    · simp [hkey, hk] at h
    · by_cases hv : value.length > MaxValueSize
      · simp [hkey, hk, hv] at h
      · exact ⟨hkey, by omega, by omega⟩

/-- A `Put` that does not return nil leaves the bucket as it was. -/
theorem Put_refused {bucket : Bucket} {key value : Bytes}
    (h : (bucket.Put key value).2 ≠ .ok) : (bucket.Put key value).1 = bucket := by
  unfold Bucket.Put at h ⊢
  by_cases hkey : key = []
  · simp [hkey]
  · by_cases hk : key.length > MaxKeySize
    · simp [hkey, hk]
    · by_cases hv : value.length > MaxValueSize
      · simp [hkey, hk, hv]
      · simp [hkey, hk, hv] at h

/-- The chunk loop of `SetChunks` after a `Put` that returns nil. -/
theorem putChunks_cons_valid (key : Bytes) (c : Bytes) (cs : List Bytes) (i : Nat)
    (bucket : Bucket) (h : (bucket.Put (chunkKey key i) c).2 = .ok) :
    putChunks key (c :: cs) i bucket
      = putChunks key cs (i + 1) (Function.update bucket (chunkKey key i) (some c)) := by
  obtain ⟨h1, h2, h3⟩ := Put_inv h
  simp only [putChunks, Put_valid bucket h1 h2 h3]

/-- The chunk loop of `SetChunks` stops at a `Put` that does not return nil. -/
theorem putChunks_cons_refused (key : Bytes) (c : Bytes) (cs : List Bytes) (i : Nat)
    (bucket : Bucket) (h : (bucket.Put (chunkKey key i) c).2 ≠ .ok) :
    putChunks key (c :: cs) i bucket = (bucket, (bucket.Put (chunkKey key i) c).2) := by
  have h1 := Put_refused h
  rcases hput : bucket.Put (chunkKey key i) c with ⟨bucket', r⟩
  rw [hput] at h h1
  simp only at h h1
  subst h1
  cases r with
  | ok => exact absurd rfl h
  | err e => simp only [putChunks, hput]
  | panic => simp only [putChunks, hput]

/-- The chunk loop of `SetChunks` returns nil when every child key and every chunk is
within the limits of bbolt. -/
theorem putChunks_valid (key : Bytes) (chunks : List Bytes) :
    ∀ (i : Nat) (bucket : Bucket),
      (∀ j, j < chunks.length → (chunkKey key (i + j)).length ≤ MaxKeySize) →
      (∀ c ∈ chunks, c.length ≤ MaxValueSize) →
      (putChunks key chunks i bucket).2 = .ok := by
  induction chunks with
  | nil => intro i bucket _ _; rfl
  | cons c cs ih =>
    intro i bucket hkeys hvalues
    have hput : (bucket.Put (chunkKey key i) c).2 = .ok := by
      rw [Put_valid bucket (chunkKey_ne_nil key i) (by simpa using hkeys 0 (by simp))
        (hvalues c (by simp))]
    rw [putChunks_cons_valid key c cs i bucket hput]
    exact ih _ _ (fun j hj => by
      have := hkeys (j + 1) (by simpa using hj)
      rwa [show i + (j + 1) = i + 1 + j by omega] at this)
      (fun c' hc' => hvalues c' (by simp [hc']))

theorem putChunks_other (key : Bytes) (chunks : List Bytes) :
    ∀ (i : Nat) (bucket : Bucket) (k : Bytes),
      (∀ j, j < chunks.length → k ≠ chunkKey key (i + j)) →
      (putChunks key chunks i bucket).1 k = bucket k := by
  induction chunks with
  | nil => intro i bucket k _; rfl
  | cons c cs ih =>
    intro i bucket k h
    by_cases hput : (bucket.Put (chunkKey key i) c).2 = .ok
    · rw [putChunks_cons_valid key c cs i bucket hput]
      rw [ih (i + 1) _ k (fun j hj => by
        have := h (j + 1) (by simpa using hj)
        rwa [show i + (j + 1) = i + 1 + j by omega] at this)]
      exact Function.update_noteq (by simpa using h 0 (by simp)) _ _
    · rw [putChunks_cons_refused key c cs i bucket hput]

/-- A chunk loop that returns nil made every `Put` of it. -/
theorem putChunks_ok_inv (key : Bytes) (c : Bytes) (cs : List Bytes) (i : Nat)
    (bucket : Bucket) (hok : (putChunks key (c :: cs) i bucket).2 = .ok) :
    (bucket.Put (chunkKey key i) c).2 = .ok := by
  by_contra hput
  rw [putChunks_cons_refused key c cs i bucket hput] at hok
  exact hput hok

theorem putChunks_child (key : Bytes) (chunks : List Bytes) :
    ∀ (i : Nat) (bucket : Bucket), (putChunks key chunks i bucket).2 = .ok →
      ∀ (j : Nat) (h : j < chunks.length),
        (putChunks key chunks i bucket).1 (chunkKey key (i + j)) = some chunks[j] := by
  induction chunks with
  | nil => intro i bucket _ j h; simp at h
  | cons c cs ih =>
    intro i bucket hok j h
    have hput := putChunks_ok_inv key c cs i bucket hok
    rw [putChunks_cons_valid key c cs i bucket hput] at hok ⊢
    cases j with
    | zero =>
      rw [putChunks_other key cs (i + 1) _ _ (fun j _ hEq => by
        have := chunkKey_injective hEq
        omega)]
      simp
    | succ j =>
      have := ih (i + 1) (Function.update bucket (chunkKey key i) (some c)) hok j
        (by simpa using h)
      rw [show i + 1 + j = i + (j + 1) by omega] at this
      simpa using this

theorem readChunks_present (bucket : Bucket) (key : Bytes) (chunks : List Bytes) :
    ∀ (i crc : Nat) (buf : Bytes),
      (∀ j (h : j < chunks.length), bucket (chunkKey key (i + j)) = some chunks[j]) →
      readChunks bucket key chunks.length i crc buf
        = .ok (chunks.foldl crc32.Update crc, buf ++ chunks.flatten) := by
  induction chunks with
  | nil => intro i crc buf _; simp [readChunks]
  | cons c cs ih =>
    intro i crc buf h
    have h0 : bucket (chunkKey key i) = some c := by simpa using h 0 (by simp)
    simp only [List.length_cons, readChunks, h0]
    rw [ih (i + 1) _ _ (fun j hj => by
      have := h (j + 1) (by simpa using hj)
      rw [show i + (j + 1) = i + 1 + j by omega] at this
      simpa using this)]
    simp


theorem run_ok (b : BoltDBEmbed) (body : Bucket → Bucket × Outcome) {bucket bucket' : Bucket}
    (hb : b.db b.nspace = some bucket) (h : body bucket = (bucket', .ok)) :
    b.withDB (b.db.Update (inBucket b.nspace body))
      = (b.commit bucket', .ok) := by
  simp [BoltDBEmbed.withDB, BoltDBEmbed.commit, DB.Update, inBucket, hb, h]

theorem run_fail (b : BoltDBEmbed) (body : Bucket → Bucket × Outcome) {bucket : Bucket}
    (hb : b.db b.nspace = some bucket) (h : (body bucket).2 ≠ .ok) :
    b.withDB (b.db.Update (inBucket b.nspace body)) = (b, (body bucket).2) := by
  rcases hbody : body bucket with ⟨bucket', r⟩
  rw [hbody] at h
  cases r with
  | ok => exact absurd rfl h
  | err e => simp [BoltDBEmbed.withDB, DB.Update, inBucket, hb, hbody]
  | panic => simp [BoltDBEmbed.withDB, DB.Update, inBucket, hb, hbody]

theorem run_none (b : BoltDBEmbed) (body : Bucket → Bucket × Outcome)
    (hb : b.db b.nspace = none) :
    b.withDB (b.db.Update (inBucket b.nspace body)) = (b, .err .ErrBucketNotFound) := by
  simp [BoltDBEmbed.withDB, DB.Update, inBucket, hb]

/-- A transaction that returns nil found the bucket, and its body returned nil on it. -/
theorem run_snd_ok (b : BoltDBEmbed) (body : Bucket → Bucket × Outcome)
    (h : (b.withDB (b.db.Update (inBucket b.nspace body))).2 = .ok) :
    ∃ bucket, b.db b.nspace = some bucket ∧ (body bucket).2 = .ok := by
  cases hb : b.db b.nspace with
  | none => rw [run_none b body hb] at h; cases h
  | some bucket =>
    refine ⟨bucket, rfl, ?_⟩
    by_contra hne
    rw [run_fail b body hb hne] at h
    exact hne h

theorem commit_bucket (b : BoltDBEmbed) (bucket : Bucket) :
    (b.commit bucket).db b.nspace = some bucket := by
  simp [BoltDBEmbed.commit]

theorem Get_commit (b : BoltDBEmbed) (bucket : Bucket) (key : Bytes) :
    (b.commit bucket).Get key = getBody key bucket := by
  simp [BoltDBEmbed.Get, BoltDBEmbed.commit]

theorem Get_of_bucket {b : BoltDBEmbed} {bucket : Bucket} (hb : b.db b.nspace = some bucket)
    (key : Bytes) : b.Get key = getBody key bucket := by
  simp [BoltDBEmbed.Get, hb]

theorem getBody_full {bucket : Bucket} {key value : Bytes}
    (h : bucket key = some (FullValueFlag :: value)) : getBody key bucket = (some value, .ok) := by
  simp [getBody, h]

/-- What `Set` does on a key and a value within the limits of bbolt. -/
theorem Set_valid (b : BoltDBEmbed) {bucket : Bucket} {key value : Bytes}
    (hb : b.db b.nspace = some bucket) (hkey : key ≠ []) (hk : key.length ≤ MaxKeySize)
    (hv : value.length + 1 ≤ MaxValueSize) :
    b.Set key value
      = (b.commit (Function.update bucket key (some (FullValueFlag :: value))), .ok) :=
  run_ok b _ hb (Put_valid bucket hkey hk (by simpa using hv))

/-- C1, as amended. For every non-empty key of at most 32768 bytes and every value of at
most `2 ^ 31 - 3` bytes, the empty one included, in a store whose user bucket exists, `Set`
returns nil, the bucket then holds under the key the byte `0x00` followed by the value, and
`Get` of the key returns exactly the value with a nil error, whatever the key held before. -/
theorem C1_Set_then_Get (b : BoltDBEmbed) (bucket : Bucket) (key value : Bytes)
    (hkey : key ≠ []) (hk : key.length ≤ 32768) (hv : value.length ≤ 2 ^ 31 - 3)
    (hb : b.db b.nspace = some bucket) :
    (b.Set key value).2 = .ok ∧
    (∃ bucket', (b.Set key value).1.db b.nspace = some bucket' ∧
        bucket' key = some ((0 : Byte) :: value)) ∧
    (b.Set key value).1.Get key = (some value, .ok) := by
  have hset := Set_valid b hb hkey (show key.length ≤ MaxKeySize from hk)
    (show value.length + 1 ≤ MaxValueSize by simp only [MaxValueSize]; omega)
  rw [hset]
  refine ⟨rfl, ⟨_, commit_bucket _ _, ?_⟩, ?_⟩
  · simp [FullValueFlag]
  · rw [Get_commit]
    exact getBody_full (Function.update_same _ _ _)

/-- Witness of C1 as amended: the value `[7, 8]` set under `[5]` over the header of a
chunked value, and the empty value set in the empty bucket. -/
theorem C1_Set_then_Get_witness :
    ((storeOf (chunkedEntries 0)).Set [5] [7, 8]).2 = .ok ∧
    ((storeOf (chunkedEntries 0)).Set [5] [7, 8]).1.Get [5] = (some [7, 8], .ok) ∧
    (exampleStore.Set [5] []).1.Get [5] = (some [], .ok) :=
  ⟨(C1_Set_then_Get (storeOf (chunkedEntries 0)) (bucketOf (chunkedEntries 0)) [5] [7, 8]
      (by decide) (by decide) (by decide) rfl).1,
    (C1_Set_then_Get (storeOf (chunkedEntries 0)) (bucketOf (chunkedEntries 0)) [5] [7, 8]
      (by decide) (by decide) (by decide) rfl).2.2,
    (C1_Set_then_Get exampleStore Bucket.empty [5] [] (by decide) (by decide) (by decide)
      rfl).2.2⟩

/-- What `Set` does on a key that is longer than bbolt allows: nothing, with an error. -/
theorem Set_key_too_large (b : BoltDBEmbed) {bucket : Bucket} {key : Bytes} (value : Bytes)
    (hb : b.db b.nspace = some bucket) (hkey : key ≠ []) (hk : key.length > MaxKeySize) :
    b.Set key value = (b, .err .ErrKeyTooLarge) := by
  have hbody : (fun bk : Bucket => bk.Put key (FullValueFlag :: value)) bucket
      = (bucket, .err .ErrKeyTooLarge) := by
    simp only [Bucket.Put, hkey, hk, if_false, if_true]
  have := run_fail b (fun bk : Bucket => bk.Put key (FullValueFlag :: value)) hb
    (by rw [hbody]; simp)
  rw [hbody] at this
  exact this

/-- C1 as stated fails on a key that bbolt refuses for its length: in the store with the
empty user bucket, `Set` of a non-empty key of 32769 bytes returns `ErrKeyTooLarge`, stores
nothing, and `Get` of the key returns `ErrKeyNotFound`. -/
theorem C1_counterexample :
    List.replicate 32769 (0 : Byte) ≠ [] ∧
    (exampleStore.Set (List.replicate 32769 0) [7]).2 = .err .ErrKeyTooLarge ∧
    (exampleStore.Set (List.replicate 32769 0) [7]).1.Get (List.replicate 32769 0)
      = (none, .err .ErrKeyNotFound) := by
  have hne : List.replicate 32769 (0 : Byte) ≠ [] := by
    intro h
    have hlen := congrArg List.length h
    rw [List.length_replicate, List.length_nil] at hlen
    omega
  have hk : (List.replicate 32769 (0 : Byte)).length > MaxKeySize := by
    rw [List.length_replicate]
    decide
  have hb : exampleStore.db exampleStore.nspace = some Bucket.empty := rfl
  rw [Set_key_too_large exampleStore [7] hb hne hk]
  exact ⟨hne, rfl, (Get_of_bucket hb _).trans rfl⟩

/-- What `Get` returns on a well-formed header whose children are all present. -/
theorem getBody_chunked {bucket : Bucket} {key rest : Bytes} (chunks : List Bytes)
    (storedChecksum : Nat)
    (h : bucket key = some (ChunkedValueFlag :: rest))
    (hlen : 9 ≤ (ChunkedValueFlag :: rest).length)
    (hcount : binary.Uint32 rest = some chunks.length)
    (hsum : binary.Uint32 (rest.drop 4) = some storedChecksum)
    (hchildren : ∀ j (hj : j < chunks.length), bucket (chunkKey key j) = some chunks[j]) :
    getBody key bucket
      = if chunks.foldl crc32.Update 0 ≠ storedChecksum then (none, .err .ErrRecordCorrupted)
        else (some chunks.flatten, .ok) := by
  have hflag : ChunkedValueFlag ≠ FullValueFlag := by decide
  have hread := readChunks_present bucket key chunks 0 0 []
    (fun j hj => by simpa using hchildren j hj)
  have hnot : ¬ (ChunkedValueFlag :: rest).length < 9 := by omega
  simp only [getBody, h, hflag, if_false, if_true, hnot, hcount, hsum, hread]
  simp

/-- A second part of `SetChunks` that returns nil wrote the header and went on to the
chunks. -/
theorem writeChunks_inv {key : Bytes} {chunks : List Bytes} {checksum : Nat} {bucket : Bucket}
    (h : (writeChunks key chunks checksum bucket).2 = .ok) :
    key ≠ [] ∧ key.length ≤ MaxKeySize ∧
    writeChunks key chunks checksum bucket
      = putChunks key chunks 0 (Function.update bucket key
          (some (metaData (chunks.length % 2 ^ 32) checksum))) := by
  by_cases hput : (bucket.Put key (metaData (chunks.length % 2 ^ 32) checksum)).2 = .ok
  · obtain ⟨h1, h2, h3⟩ := Put_inv hput
    refine ⟨h1, h2, ?_⟩
    simp only [writeChunks, Put_valid bucket h1 h2 h3]
  · exfalso
    have h1 := Put_refused hput
    rcases hp : bucket.Put key (metaData (chunks.length % 2 ^ 32) checksum) with ⟨bucket', r⟩
    rw [hp] at hput
    cases r with
    | ok => exact hput rfl
    | err e =>
      simp only [writeChunks, hp] at h
      cases h
    | panic =>
      simp only [writeChunks, hp] at h
      cases h

/-- A successful `SetChunks` found the bucket, cleared the old children without error, had
a non-empty key, made every `Put` of its chunk loop, and committed the bucket with the
header and the chunks written. -/
theorem SetChunks_inv (b : BoltDBEmbed) (key : Bytes) (chunks : List Bytes) (checksum : Nat)
    (hok : (b.SetChunks key chunks checksum).2 = .ok) :
    ∃ bucket bucket1, b.db b.nspace = some bucket ∧
      dropOldChunks key bucket = (bucket1, .ok) ∧
      (key ≠ [] ∧ (putChunks key chunks 0 (Function.update bucket1 key
        (some (metaData (chunks.length % 2 ^ 32) checksum)))).2 = .ok) ∧
      b.SetChunks key chunks checksum
        = (b.commit (putChunks key chunks 0 (Function.update bucket1 key
            (some (metaData (chunks.length % 2 ^ 32) checksum)))).1, .ok) := by
  obtain ⟨bucket, hb, hbody⟩ := run_snd_ok b _ hok
  rcases hdrop : dropOldChunks key bucket with ⟨bucket1, r⟩
  simp only [hdrop] at hbody
  cases r with
  | err e => simp at hbody
  | panic => simp at hbody
  | ok =>
    simp only at hbody
    obtain ⟨hkey, _, hwrite⟩ := writeChunks_inv hbody
    rw [hwrite] at hbody
    refine ⟨bucket, bucket1, hb, hdrop, ⟨hkey, hbody⟩, ?_⟩
    apply run_ok b _ hb
    simp only [hdrop, hwrite]
    exact Prod.ext rfl hbody

theorem written_header (key : Bytes) (chunks : List Bytes) (bucket : Bucket) (header : Bytes) :
    (putChunks key chunks 0 (Function.update bucket key (some header))).1 key = some header := by
  rw [putChunks_other key chunks 0 _ key (fun j _ hEq => chunkKey_ne_self key _ hEq.symm)]
  exact Function.update_same _ _ _

theorem written_child (key : Bytes) (chunks : List Bytes) (bucket : Bucket)
    (hok : (putChunks key chunks 0 bucket).2 = .ok) (j : Nat) (hj : j < chunks.length) :
    (putChunks key chunks 0 bucket).1 (chunkKey key j) = some chunks[j] := by
  simpa using putChunks_child key chunks 0 bucket hok j hj

/-- C2, as amended. For every key and every list of fewer than `2 ^ 32` chunks, after
`SetChunks(k, chunks, checksum)` returns nil with the checksum of the concatenation of the
chunks, `Get(k)` returns exactly that concatenation, in index order, with a nil error,
whatever the key held before. -/
theorem C2_SetChunks_then_Get (b : BoltDBEmbed) (key : Bytes) (chunks : List Bytes)
    (checksum : Nat) (hlen : chunks.length < 2 ^ 32)
    (hsum : checksum = crc32.ChecksumIEEE chunks.flatten)
    (hok : (b.SetChunks key chunks checksum).2 = .ok) :
    (b.SetChunks key chunks checksum).1.Get key = (some chunks.flatten, .ok) := by
  obtain ⟨bucket, bucket1, _, _, ⟨_, hput⟩, hset⟩ := SetChunks_inv b key chunks checksum hok
  rw [hset, Get_commit]
  have hmod : chunks.length % 2 ^ 32 = chunks.length := Nat.mod_eq_of_lt hlen
  have hcs : checksum % 2 ^ 32 = checksum := by
    rw [hsum]; exact Nat.mod_eq_of_lt (crc32.ChecksumIEEE_lt _)
  have hhead : (putChunks key chunks 0 (Function.update bucket1 key
      (some (metaData (chunks.length % 2 ^ 32) checksum)))).1 key
      = some (ChunkedValueFlag :: (binary.PutUint32 (chunks.length % 2 ^ 32)
          ++ binary.PutUint32 checksum)) := written_header key chunks bucket1 _
  rw [getBody_chunked chunks checksum hhead
    (by simp [binary.PutUint32])
    (by rw [binary.Uint32_PutUint32, hmod, hmod])
    (by
      have hdrop : (binary.PutUint32 (chunks.length % 2 ^ 32)
          ++ binary.PutUint32 checksum).drop 4 = binary.PutUint32 checksum ++ [] := by
        simp [binary.PutUint32]
      rw [hdrop, binary.Uint32_PutUint32, hcs])
    (fun j hj => written_child key chunks _ hput j hj)]
  rw [crc32.foldl_Update, hsum]
  simp [crc32.ChecksumIEEE]

/-- Witness of C2 as amended: a chunked value of three chunks under `[5]` is replaced by
one of two chunks, and `Get` returns their concatenation. -/
theorem C2_SetChunks_then_Get_witness :
    ([[1, 2], [3]] : List Bytes).length < 2 ^ 32 ∧
    ((storeOf (chunkedEntries 0)).SetChunks [5] [[1, 2], [3]]
        (crc32.ChecksumIEEE [1, 2, 3])).2 = .ok ∧
    ((storeOf (chunkedEntries 0)).SetChunks [5] [[1, 2], [3]]
        (crc32.ChecksumIEEE [1, 2, 3])).1.Get [5] = (some [1, 2, 3], .ok) :=
  ⟨by decide, by decide,
    C2_SetChunks_then_Get (storeOf (chunkedEntries 0)) [5] [[1, 2], [3]]
      (crc32.ChecksumIEEE [1, 2, 3]) (by decide) rfl (by decide)⟩

/-- C3. A successful `SetChunks(k, chunks, checksum)` leaves under `k` exactly nine bytes,
the flag `0x01`, the number of chunks as a little-endian `uint32` and the checksum as a
little-endian `uint32`, and leaves chunk `i` as it is, with no flag byte, under the key
`k ++ "_chunk_" ++ decimal i`, for every `i` below the number of chunks. -/
theorem C3_SetChunks_layout (b : BoltDBEmbed) (key : Bytes) (chunks : List Bytes)
    (checksum : Nat) (hok : (b.SetChunks key chunks checksum).2 = .ok) :
    ∃ bucket', (b.SetChunks key chunks checksum).1.db b.nspace = some bucket' ∧
      bucket' key = some
        [1, Fin.ofNat chunks.length, Fin.ofNat (chunks.length / 2 ^ 8),
          Fin.ofNat (chunks.length / 2 ^ 16), Fin.ofNat (chunks.length / 2 ^ 24),
          Fin.ofNat checksum, Fin.ofNat (checksum / 2 ^ 8),
          Fin.ofNat (checksum / 2 ^ 16), Fin.ofNat (checksum / 2 ^ 24)] ∧
      ∀ i (hi : i < chunks.length),
        bucket' (key ++ [95, 99, 104, 117, 110, 107, 95] ++ decimal i) = some chunks[i] := by
  obtain ⟨bucket, bucket1, _, _, ⟨_, hput⟩, hset⟩ := SetChunks_inv b key chunks checksum hok
  rw [hset]
  refine ⟨_, commit_bucket _ _, ?_, fun i hi => written_child key chunks _ hput i hi⟩
  rw [written_header, metaData, binary.PutUint32_mod]
  simp [binary.PutUint32, ChunkedValueFlag, Nat.shiftRight_eq_div_pow]

/-- Witness of C3: two chunks written under `[5]` with the checksum 258. -/
theorem C3_SetChunks_layout_witness :
    (exampleStore.SetChunks [5] [[7], [8, 9]] 258).2 = .ok ∧
    ∃ bucket', (exampleStore.SetChunks [5] [[7], [8, 9]] 258).1.db [1] = some bucket' ∧
      bucket' [5] = some [1, 2, 0, 0, 0, 2, 1, 0, 0] ∧
      bucket' [5, 95, 99, 104, 117, 110, 107, 95, 48] = some [7] ∧
      bucket' [5, 95, 99, 104, 117, 110, 107, 95, 49] = some [8, 9] :=
  ⟨by decide,
    match C3_SetChunks_layout exampleStore [5] [[7], [8, 9]] 258 (by decide) with
    | ⟨bucket', hb, hkey, hchunks⟩ =>
      ⟨bucket', hb, hkey, hchunks 0 (by decide), hchunks 1 (by decide)⟩⟩

/-- C4. For a key whose stored value is a well-formed chunked header, flag `0x01` and at
least nine bytes, with count `n` and whose `n` children are all present, `Get` returns
`ErrRecordCorrupted` and no value exactly when the rolling checksum over the children
`0..n-1` in order differs from the checksum stored in the header, and otherwise it returns
their concatenation. -/
theorem C4_Get_chunked_checksum (b : BoltDBEmbed) (bucket : Bucket) (key rest : Bytes)
    (chunks : List Bytes) (storedChecksum : Nat)
    (hb : b.db b.nspace = some bucket)
    (h : bucket key = some ((1 : Byte) :: rest))
    (hlen : 9 ≤ ((1 : Byte) :: rest).length)
    (hcount : binary.Uint32 rest = some chunks.length)
    (hsum : binary.Uint32 (rest.drop 4) = some storedChecksum)
    (hchildren : ∀ j (hj : j < chunks.length), bucket (chunkKey key j) = some chunks[j]) :
    (b.Get key = (none, .err .ErrRecordCorrupted)
        ↔ chunks.foldl crc32.Update 0 ≠ storedChecksum) ∧
    (chunks.foldl crc32.Update 0 = storedChecksum → b.Get key = (some chunks.flatten, .ok)) := by
  rw [Get_of_bucket hb, getBody_chunked chunks storedChecksum h hlen hcount hsum hchildren]
  by_cases hc : chunks.foldl crc32.Update 0 = storedChecksum
  · simp [hc]
  · simp [hc]

/-- Witness of C4: the same three children under a header with their checksum, and under
a header with the checksum 7. -/
theorem C4_Get_chunked_checksum_witness :
    (storeOf (chunkedEntries (crc32.ChecksumIEEE [11, 12, 13]))).Get [5]
      = (some [11, 12, 13], .ok) ∧
    (storeOf (chunkedEntries 7)).Get [5] = (none, .err .ErrRecordCorrupted) :=
  ⟨(C4_Get_chunked_checksum (storeOf (chunkedEntries (crc32.ChecksumIEEE [11, 12, 13])))
      (bucketOf (chunkedEntries (crc32.ChecksumIEEE [11, 12, 13]))) [5]
      (binary.PutUint32 3 ++ binary.PutUint32 (crc32.ChecksumIEEE [11, 12, 13]))
      [[11], [12], [13]] (crc32.ChecksumIEEE [11, 12, 13])
      rfl (by decide) (by decide) (by decide) (by decide) (by decide)).2 (by decide),
   (C4_Get_chunked_checksum (storeOf (chunkedEntries 7)) (bucketOf (chunkedEntries 7)) [5]
      (binary.PutUint32 3 ++ binary.PutUint32 7) [[11], [12], [13]] 7
      rfl (by decide) (by decide) (by decide) (by decide) (by decide)).1.mpr (by decide)⟩


theorem commit_self {b : BoltDBEmbed} {bucket : Bucket} (hb : b.db b.nspace = some bucket) :
    b.commit bucket = b := by
  unfold BoltDBEmbed.commit
  rw [← hb, Function.update_eq_self]

theorem getBody_absent {bucket : Bucket} {key : Bytes} (h : bucket key = none) :
    getBody key bucket = (none, .err .ErrKeyNotFound) := by
  simp [getBody, h]

theorem deleteBody_chunked {bucket : Bucket} {key rest : Bytes} {n : Nat}
    (h : bucket key = some (ChunkedValueFlag :: rest))
    (hlen : 9 ≤ (ChunkedValueFlag :: rest).length) (hcount : binary.Uint32 rest = some n) :
    deleteBody key bucket
      = (Function.update (deleteChunks key n 0 bucket).1 key none, .ok) := by
  have hflag : ChunkedValueFlag ≠ FullValueFlag := by decide
  have hnot : ¬ (ChunkedValueFlag :: rest).length < 9 := by omega
  have hsnd := deleteChunks_snd key n 0 bucket
  rcases hdel : deleteChunks key n 0 bucket with ⟨bucket', r⟩
  rw [hdel] at hsnd
  simp only at hsnd
  subst hsnd
  simp only [deleteBody, h, hflag, if_false, if_true, hnot, hcount, hdel, Bucket.Delete]

/-- C5. On a key holding a well-formed chunked header with count `n`, `Delete` returns nil
and afterwards neither the key nor any child key `k_chunk_i`, `i < n`, is in the bucket and
`Get` of the key returns `ErrKeyNotFound`; on a key holding a full value, `Delete` returns
nil, removes exactly that key and `Get` of the key returns `ErrKeyNotFound`. -/
theorem C5_Delete_removes (b : BoltDBEmbed) (bucket : Bucket) (key : Bytes)
    (hb : b.db b.nspace = some bucket) :
    (∀ (rest : Bytes) (n : Nat), bucket key = some ((1 : Byte) :: rest) →
        9 ≤ ((1 : Byte) :: rest).length → binary.Uint32 rest = some n →
        (b.Delete key).2 = .ok ∧
        (∃ bucket', (b.Delete key).1.db b.nspace = some bucket' ∧ bucket' key = none ∧
          ∀ i, i < n → bucket' (chunkKey key i) = none) ∧
        (b.Delete key).1.Get key = (none, .err .ErrKeyNotFound)) ∧
    (∀ (value : Bytes), bucket key = some ((0 : Byte) :: value) →
        (b.Delete key).2 = .ok ∧
        (∃ bucket', (b.Delete key).1.db b.nspace = some bucket' ∧ bucket' key = none ∧
          ∀ other, other ≠ key → bucket' other = bucket other) ∧
        (b.Delete key).1.Get key = (none, .err .ErrKeyNotFound)) := by
  constructor
  · intro rest n h hlen hcount
    have hdel : b.Delete key
        = (b.commit (Function.update (deleteChunks key n 0 bucket).1 key none), .ok) :=
      run_ok b _ hb (deleteBody_chunked h hlen hcount)
    rw [hdel]
    refine ⟨rfl, ⟨_, commit_bucket _ _, Function.update_same _ _ _, fun i hi => ?_⟩, ?_⟩
    · rw [Function.update_noteq (chunkKey_ne_self key i)]
      simpa using deleteChunks_child key n 0 bucket i hi
    · rw [Get_commit]
      exact getBody_absent (Function.update_same _ _ _)
  · intro value h
    have hbody : deleteBody key bucket = (Function.update bucket key none, .ok) := by
      have h' : bucket key = some (FullValueFlag :: value) := h
      simp [deleteBody, h', Bucket.Delete]
    have hdel : b.Delete key = (b.commit (Function.update bucket key none), .ok) :=
      run_ok b _ hb hbody
    rw [hdel]
    refine ⟨rfl, ⟨_, commit_bucket _ _, Function.update_same _ _ _, fun other ho => ?_⟩, ?_⟩
    · exact Function.update_noteq ho _ _
    · rw [Get_commit]
      exact getBody_absent (Function.update_same _ _ _)

/-- Witness of C5: a chunked value under `[5]` and a full value under `[7]`. -/
theorem C5_Delete_removes_witness :
    ((storeOf (chunkedEntries 0)).Delete [5]).2 = .ok ∧
    ((storeOf (chunkedEntries 0)).Delete [5]).1.Get [5] = (none, .err .ErrKeyNotFound) ∧
    ((storeOf [([7], [0, 9])]).Delete [7]).2 = .ok ∧
    ((storeOf [([7], [0, 9])]).Delete [7]).1.Get [7] = (none, .err .ErrKeyNotFound) :=
  have hchunked := (C5_Delete_removes (storeOf (chunkedEntries 0))
    (bucketOf (chunkedEntries 0)) [5] rfl).1
    (binary.PutUint32 3 ++ binary.PutUint32 0) 3 (by decide) (by decide) (by decide)
  have hfull := (C5_Delete_removes (storeOf [([7], [0, 9])])
    (bucketOf [([7], [0, 9])]) [7] rfl).2 [9] (by decide)
  ⟨hchunked.1, hchunked.2.2, hfull.1, hfull.2.2⟩

/-- C6. `Delete` of a key that is absent from the user bucket returns nil and leaves the
store as it was. -/
theorem C6_Delete_absent (b : BoltDBEmbed) (bucket : Bucket) (key : Bytes)
    (hb : b.db b.nspace = some bucket) (habsent : bucket key = none) :
    b.Delete key = (b, .ok) := by
  have hbody : deleteBody key bucket = (bucket, .ok) := by simp [deleteBody, habsent]
  have hdel : b.Delete key = (b.commit bucket, .ok) := run_ok b _ hb hbody
  rw [hdel, commit_self hb]

/-- Witness of C6: the key `[5]` in the empty bucket. -/
theorem C6_Delete_absent_witness :
    exampleStore.db exampleStore.nspace = some Bucket.empty ∧ Bucket.empty [5] = none ∧
    exampleStore.Delete [5] = (exampleStore, .ok) :=
  ⟨rfl, rfl, C6_Delete_absent exampleStore Bucket.empty [5] rfl rfl⟩

/-- C7, the code at a failing input. The bucket holds the full value `[9]` under `[7]` and
nothing under `[6]`. `DeleteMany` of `[6], [7]` returns nil at the absent first key and
leaves `[7]` readable, where `Delete` of each key in order removes it. -/
theorem C7_DeleteMany_stops_at_absent_key :
    ((storeOf [([7], [0, 9])]).DeleteMany [[6], [7]]).2 = .ok ∧
    ((storeOf [([7], [0, 9])]).DeleteMany [[6], [7]]).1.Get [7] = (some [9], .ok) ∧
    (deleteEach (storeOf [([7], [0, 9])]) [[6], [7]]).2 = .ok ∧
    (deleteEach (storeOf [([7], [0, 9])]) [[6], [7]]).1.Get [7]
      = (none, .err .ErrKeyNotFound) := by
  decide


/-- With the bucket in place, a non-empty key and old children cleared without error,
`SetChunks` returns nil. -/
theorem SetChunks_succeeds (b : BoltDBEmbed) (bucket : Bucket) (key : Bytes)
    (chunks : List Bytes) (checksum : Nat) (hb : b.db b.nspace = some bucket)
    (hkey : key ≠ []) (hold : (dropOldChunks key bucket).2 = .ok)
    (hk : key.length ≤ MaxKeySize)
    (hkeys : ∀ j, j < chunks.length → (chunkKey key j).length ≤ MaxKeySize)
    (hvalues : ∀ c ∈ chunks, c.length ≤ MaxValueSize) :
    (b.SetChunks key chunks checksum).2 = .ok := by
  rcases hdrop : dropOldChunks key bucket with ⟨bucket1, r⟩
  rw [hdrop] at hold
  simp only at hold
  subst hold
  have hput := putChunks_valid key chunks 0 (Function.update bucket1 key
    (some (metaData (chunks.length % 2 ^ 32) checksum)))
    (fun j hj => by simpa using hkeys j hj) hvalues
  have hheader : bucket1.Put key (metaData (chunks.length % 2 ^ 32) checksum)
      = (Function.update bucket1 key
          (some (metaData (chunks.length % 2 ^ 32) checksum)), .ok) :=
    Put_valid bucket1 hkey hk (by simp [metaData, binary.PutUint32, MaxValueSize])
  have hrun := run_ok b (fun bucket =>
      match dropOldChunks key bucket with
      | (bucket', .ok) => writeChunks key chunks checksum bucket'
      | (bucket', r) => (bucket', r)) hb
    (by
      simp only [hdrop, writeChunks, hheader]
      exact Prod.ext rfl hput)
  unfold BoltDBEmbed.SetChunks
  rw [hrun]

/-- When the number of chunks is a positive multiple of `2 ^ 32`, the header holds the
count 0 and `Get` does not return the concatenation. -/
theorem SetChunks_count_wraps (b : BoltDBEmbed) (bucket : Bucket) (key : Bytes) (n : Nat)
    (c : Byte) (hb : b.db b.nspace = some bucket) (hkey : key ≠ [])
    (habsent : bucket key = none) (hpos : 0 < n) (hmod : n % 2 ^ 32 = 0)
    (hk : key.length + 17 ≤ MaxKeySize) (hn : n ≤ 10 ^ 10) :
    (b.SetChunks key (List.replicate n [c])
        (crc32.ChecksumIEEE (List.replicate n [c]).flatten)).2 = .ok ∧
    (b.SetChunks key (List.replicate n [c])
        (crc32.ChecksumIEEE (List.replicate n [c]).flatten)).1.Get key
      ≠ (some (List.replicate n [c]).flatten, .ok) := by
  have hok := SetChunks_succeeds b bucket key (List.replicate n [c])
    (crc32.ChecksumIEEE (List.replicate n [c]).flatten) hb hkey
    (by simp [dropOldChunks, habsent]) (by omega)
    (fun j hj => by
      rw [List.length_replicate] at hj
      have := chunkKey_length_le key (show j < 10 ^ 10 by omega)
      omega)
    (fun c' hc' => by
      rw [List.eq_of_mem_replicate hc']
      simp [MaxValueSize])
  refine ⟨hok, ?_⟩
  obtain ⟨_, bucket1, _, _, _, hset⟩ := SetChunks_inv b key _ _ hok
  rw [hset, Get_commit]
  generalize crc32.ChecksumIEEE (List.replicate n [c]).flatten = checksum
  have hhead : (putChunks key (List.replicate n [c]) 0 (Function.update bucket1 key
      (some (metaData ((List.replicate n [c]).length % 2 ^ 32) checksum)))).1 key
      = some (ChunkedValueFlag :: (binary.PutUint32 0 ++ binary.PutUint32 checksum)) := by
    rw [written_header, List.length_replicate, hmod]
    rfl
  have hne : (List.replicate n [c]).flatten ≠ [] := by
    obtain ⟨m, rfl⟩ : ∃ m, n = m + 1 := ⟨n - 1, by omega⟩
    simp [List.replicate_succ]
  rw [getBody_chunked [] (checksum % 2 ^ 32) hhead (by simp [binary.PutUint32])
    (by rw [binary.Uint32_PutUint32]; rfl)
    (by
      have hdrop : (binary.PutUint32 0 ++ binary.PutUint32 checksum).drop 4
          = binary.PutUint32 checksum ++ [] := by
        simp [binary.PutUint32]
      rw [hdrop, binary.Uint32_PutUint32])
    (fun j hj => by simp at hj)]
  split
  · simp
  · intro h
    injection h with h1 _
    injection h1 with h2
    exact hne h2.symm

/-- C2 as stated fails when the number of chunks does not fit the `uint32` count of the
header: with `2 ^ 32` chunks of one byte each, `SetChunks` returns nil with the checksum of
the concatenation, the header holds the count 0, and `Get` does not return the
concatenation. -/
theorem C2_counterexample :
    (exampleStore.SetChunks [5] (List.replicate (2 ^ 32) [0])
        (crc32.ChecksumIEEE (List.replicate (2 ^ 32) [0]).flatten)).2 = .ok ∧
    (exampleStore.SetChunks [5] (List.replicate (2 ^ 32) [0])
        (crc32.ChecksumIEEE (List.replicate (2 ^ 32) [0]).flatten)).1.Get [5]
      ≠ (some (List.replicate (2 ^ 32) [0]).flatten, .ok) :=
  SetChunks_count_wraps exampleStore Bucket.empty [5] (2 ^ 32) 0 rfl (by decide) rfl
    (by norm_num) (by norm_num) (by decide) (by norm_num)

end kvdb

/-! ## The engine read path -/

namespace dbkernel

theorem scanSealed_skip (key : Bytes) (newer older : List MemTable)
    (h : ∀ t ∈ newer, (t.get key).Meta = .Noop) :
    scanSealed key (newer ++ older) = scanSealed key older := by
  induction newer with
  | nil => rfl
  | cons t ts ih =>
    have ht : (t.get key).Meta = .Noop := h t (by simp)
    simp only [List.cons_append, scanSealed, ht, ne_eq, not_true_eq_false, if_false]
    exact ih (fun t' ht' => h t' (by simp [ht']))

theorem scanSealed_none (key : Bytes) (tables : List MemTable)
    (h : ∀ t ∈ tables, (t.get key).Meta = .Noop) : scanSealed key tables = none := by
  have := scanSealed_skip key tables [] h
  simpa [scanSealed] using this

/-- The scan from the end of the sealed list stops at the entry of highest index that is
not `Noop`. -/
theorem scanSealed_reverse (key : Bytes) (tables : List MemTable) (i : Fin tables.length)
    (hi : ((tables.get i).get key).Meta ≠ .Noop)
    (hnewer : ∀ j : Fin tables.length, i < j → ((tables.get j).get key).Meta = .Noop) :
    scanSealed key tables.reverse = some ((tables.get i).get key) := by
  have hsplit : tables = tables.take i ++ tables.get i :: tables.drop (i + 1) := by
    rw [List.get_eq_getElem, ← List.drop_eq_getElem_cons i.isLt, List.take_append_drop]
  have hrev : tables.reverse
      = (tables.drop (i + 1)).reverse ++ (tables.get i :: (tables.take i).reverse) := by
    conv_lhs => rw [hsplit]
    simp
  rw [hrev, scanSealed_skip]
  · rw [scanSealed, if_pos hi]
  · intro t ht
    rw [List.mem_reverse, List.mem_iff_getElem] at ht
    obtain ⟨n, hn, rfl⟩ := ht
    rw [List.length_drop] at hn
    rw [List.getElem_drop]
    exact hnewer ⟨i + 1 + n, by omega⟩ (by simp [Fin.lt_def]; omega)

theorem checkFunc_deciding {e : Engine} {key : Bytes} {it : ValueStruct}
    (hbloom : e.bloom key = true) (hit : IsDecidingEntry e key it) :
    e.checkFunc key = .ok it := by
  rcases hit with ⟨rfl, hne⟩ | ⟨hnoop, i, rfl, hne, hnewer⟩
  · simp [Engine.checkFunc, hbloom, hne]
  · simp [Engine.checkFunc, hbloom, hnoop, scanSealed_reverse key _ i hne hnewer]

theorem checkFunc_all_noop {e : Engine} {key : Bytes} (hbloom : e.bloom key = true)
    (hactive : (e.activeMemTable.get key).Meta = .Noop)
    (hsealed : ∀ t ∈ e.sealedMemTables, (t.get key).Meta = .Noop) :
    e.checkFunc key = .ok (e.activeMemTable.get key) := by
  have hnone := scanSealed_none key e.sealedMemTables.reverse
    (fun t ht => hsealed t (List.mem_reverse.mp ht))
  simp [Engine.checkFunc, hbloom, hactive, hnone]

/-- C8. On an engine that is not shut down, `Get` consults the tiers in order: with a
negative Bloom test it returns `ErrKeyNotFound`, whatever the memtables and the store
hold; otherwise what it returns is decided by the active memtable's entry when that is not
`Noop`, else by the entry of the newest sealed memtable holding one that is not `Noop`; and
when every memtable yields `Noop` it returns exactly what the store's `Get` returns. -/
theorem C8_Get_tier_order (e : Engine) (key : Bytes) (hrun : e.shutdown = false) :
    (e.bloom key = false → e.Get key = (none, .err .ErrKeyNotFound)) ∧
    (e.bloom key = true → ∀ it, IsDecidingEntry e key it → e.Get key = e.resolve key it) ∧
    (e.bloom key = true → (e.activeMemTable.get key).Meta = .Noop →
      (∀ t ∈ e.sealedMemTables, (t.get key).Meta = .Noop) →
      e.Get key = e.dataStore.Get key) := by
  refine ⟨fun hb => ?_, fun hb it hit => ?_, fun hb hactive hsealed => ?_⟩
  · simp [Engine.Get, hrun, Engine.checkFunc, hb]
  · simp [Engine.Get, hrun, checkFunc_deciding hb hit]
  · simp [Engine.Get, hrun, checkFunc_all_noop hb hactive hsealed, Engine.resolve, hactive]

/-- Witness of C8 on the example engine: a key the Bloom filter rejects, a key decided by
the active memtable, one decided by the newer sealed memtable, and one no memtable
holds. -/
theorem C8_Get_tier_order_witness :
    exampleEngine.shutdown = false ∧
    exampleEngine.Get [9] = (none, .err .ErrKeyNotFound) ∧
    exampleEngine.Get [1]
      = exampleEngine.resolve [1] { Meta := .Insert, Value := [11] } ∧
    exampleEngine.Get [3]
      = exampleEngine.resolve [3] { Meta := .Delete, Value := [13] } ∧
    exampleEngine.Get [7] = exampleEngine.dataStore.Get [7] :=
  have h := C8_Get_tier_order exampleEngine
  ⟨rfl, (h [9] rfl).1 rfl,
    (h [1] rfl).2.1 rfl _ (Or.inl ⟨rfl, by decide⟩),
    (h [3] rfl).2.1 rfl _ (Or.inr ⟨rfl, ⟨1, by decide⟩, rfl, by decide, by decide⟩),
    (h [7] rfl).2.2 rfl rfl (by decide)⟩

/-- C9. On an engine that is not shut down, if the deciding memtable entry for a key is a
`Delete`, `Get` returns a nil value and `ErrKeyNotFound`, whatever older sealed memtables
and the store hold for the key. -/
theorem C9_Get_deleted (e : Engine) (key : Bytes) (it : ValueStruct)
    (hrun : e.shutdown = false) (hit : IsDecidingEntry e key it) (hdel : it.Meta = .Delete) :
    e.Get key = (none, .err .ErrKeyNotFound) := by
  cases hb : e.bloom key with
  | false => simp [Engine.Get, hrun, Engine.checkFunc, hb]
  | true => simp [Engine.Get, hrun, checkFunc_deciding hb hit, Engine.resolve, hdel]

/-- Witness of C9 on the example engine: a delete in the active memtable and a delete in
the newer sealed memtable, over values that the older memtable and the store still hold. -/
theorem C9_Get_deleted_witness :
    exampleEngine.shutdown = false ∧
    exampleEngine.dataStore.Get [2] = (some [32], .ok) ∧
    exampleEngine.Get [2] = (none, .err .ErrKeyNotFound) ∧
    exampleEngine.dataStore.Get [3] = (some [33], .ok) ∧
    exampleEngine.Get [3] = (none, .err .ErrKeyNotFound) :=
  ⟨rfl, by decide,
    C9_Get_deleted exampleEngine [2] { Meta := .Delete, Value := [12] } rfl
      (Or.inl ⟨rfl, by decide⟩) rfl,
    by decide,
    C9_Get_deleted exampleEngine [3] { Meta := .Delete, Value := [13] } rfl
      (Or.inr ⟨rfl, ⟨1, by decide⟩, rfl, by decide, by decide⟩) rfl⟩

/-- C10. On an engine that is not shut down whose Bloom filter tests positive, if the
deciding memtable entry, not a `Delete`, refers to a log record whose entry type is not
`Chunked`, `Get` returns exactly the value bytes of the record when their checksum equals
the checksum stored in the record, and `ErrRecordCorrupted` with a nil value otherwise; so
a value recorded with its own checksum is read back as it is, whatever the store holds. -/
theorem C10_Get_record (e : Engine) (key : Bytes) (it : ValueStruct) (record : WalRecord)
    (hrun : e.shutdown = false) (hbloom : e.bloom key = true)
    (hit : IsDecidingEntry e key it) (hnotdel : it.Meta ≠ .Delete)
    (hrec : e.getWalRecord it = .ok record)
    (hkind : record.EntryType ≠ EntryTypeChunked) :
    (crc32.ChecksumIEEE record.ValueBytes = record.Crc32Checksum →
      e.Get key = (some record.ValueBytes, .ok)) ∧
    (crc32.ChecksumIEEE record.ValueBytes ≠ record.Crc32Checksum →
      e.Get key = (none, .err .ErrRecordCorrupted)) ∧
    (crc32.ChecksumIEEE record.ValueBytes = record.Crc32Checksum →
      ∀ store : kvdb.BoltDBEmbed,
        Engine.Get { e with dataStore := store } key = (some record.ValueBytes, .ok)) := by
  have hnoop : it.Meta ≠ .Noop := by
    rcases hit with ⟨_, hne⟩ | ⟨_, _, _, hne, _⟩ <;> exact hne
  have key_fact : ∀ e' : Engine, e'.shutdown = false → e'.checkFunc key = .ok it →
      e'.getWalRecord it = .ok record →
      (crc32.ChecksumIEEE record.ValueBytes = record.Crc32Checksum →
        e'.Get key = (some record.ValueBytes, .ok)) ∧
      (crc32.ChecksumIEEE record.ValueBytes ≠ record.Crc32Checksum →
        e'.Get key = (none, .err .ErrRecordCorrupted)) := by
    intro e' hrun' hcheck hrec'
    constructor
    · intro hcrc
      simp [Engine.Get, hrun', hcheck, Engine.resolve, hnoop, hnotdel, hrec', hkind, hcrc]
    · intro hcrc
      simp [Engine.Get, hrun', hcheck, Engine.resolve, hnoop, hnotdel, hrec', hkind, hcrc]
  have hcheck := checkFunc_deciding hbloom hit
  refine ⟨(key_fact e hrun hcheck hrec).1, (key_fact e hrun hcheck hrec).2, ?_⟩
  intro hcrc store
  exact (key_fact { e with dataStore := store } hrun hcheck hrec).1 hcrc

/-- Witness of C10 on the example engine: a record whose checksum matches and one whose
checksum does not. -/
theorem C10_Get_record_witness :
    exampleEngine.shutdown = false ∧ exampleEngine.bloom [1] = true ∧
    exampleEngine.Get [1] = (some [21], .ok) ∧
    exampleEngine.Get [6] = (none, .err .ErrRecordCorrupted) :=
  ⟨rfl, rfl,
    (C10_Get_record exampleEngine [1] { Meta := .Insert, Value := [11] }
      { EntryType := EntryTypeKV, ValueBytes := [21],
        Crc32Checksum := crc32.ChecksumIEEE [21], PrevTxnWalIndexBytes := [] }
      rfl rfl (Or.inl ⟨rfl, by decide⟩) (by decide) rfl (by decide)).1 rfl,
    (C10_Get_record exampleEngine [6] { Meta := .Insert, Value := [16] }
      { EntryType := EntryTypeKV, ValueBytes := [26],
        Crc32Checksum := 0, PrevTxnWalIndexBytes := [] }
      rfl rfl (Or.inr ⟨rfl, ⟨1, by decide⟩, rfl, by decide, by decide⟩) (by decide) rfl
      (by decide)).2.1 (by decide)⟩

end dbkernel

/-! ## Positions, waiting and readers -/

namespace dbkernel

theorem lexLt_iff (a b : Offset) :
    a.lexLt b ↔ a.SegmentId < b.SegmentId ∨
      (a.SegmentId = b.SegmentId ∧ a.BlockNumber < b.BlockNumber) ∨
      (a.SegmentId = b.SegmentId ∧ a.BlockNumber = b.BlockNumber ∧
        a.ChunkOffset < b.ChunkOffset) := by
  unfold Offset.lexLt
  rw [Prod.Lex.lt_iff]
  simp only [Prod.Lex.lt_iff]
  tauto

theorem isNewChunkPosition_iff (current lastSeen : Offset) :
    isNewChunkPosition (some current) (some lastSeen) = some true ↔ lastSeen.lexLt current := by
  rw [lexLt_iff]
  simp only [isNewChunkPosition, Option.some.injEq, decide_eq_true_eq]
  constructor
  · rintro (h | ⟨h1, h2⟩ | ⟨h1, h2, h3⟩)
    · exact Or.inl h
    · exact Or.inr (Or.inl ⟨h1.symm, h2⟩)
    · exact Or.inr (Or.inr ⟨h1.symm, h2.symm, h3⟩)
  · rintro (h | ⟨h1, h2⟩ | ⟨h1, h2, h3⟩)
    · exact Or.inl h
    · exact Or.inr (Or.inl ⟨h1.symm, h2⟩)
    · exact Or.inr (Or.inr ⟨h1.symm, h2.symm, h3⟩)

theorem Offset.eq_of_fields {a b : Offset} (h1 : a.SegmentId = b.SegmentId)
    (h2 : a.BlockNumber = b.BlockNumber) (h3 : a.ChunkOffset = b.ChunkOffset) : a = b := by
  cases a; cases b; simp_all

/-- C15. For positions that are not nil, `isNewChunkPosition(current, lastSeen)` holds
exactly when the triple of `current` is strictly above that of `lastSeen` in the
lexicographic order; the relation is irreflexive and transitive, and of two distinct
positions exactly one is above the other. With a nil `lastSeen` it holds for every
`current`. -/
theorem C15_isNewChunkPosition_order :
    (∀ current lastSeen : Offset,
      isNewChunkPosition (some current) (some lastSeen) = some true
        ↔ lastSeen.lexLt current) ∧
    (∀ a : Offset, isNewChunkPosition (some a) (some a) ≠ some true) ∧
    (∀ a b c : Offset, isNewChunkPosition (some a) (some b) = some true →
      isNewChunkPosition (some b) (some c) = some true →
      isNewChunkPosition (some a) (some c) = some true) ∧
    (∀ a b : Offset, a ≠ b →
      (isNewChunkPosition (some a) (some b) = some true ∧
          isNewChunkPosition (some b) (some a) ≠ some true) ∨
      (isNewChunkPosition (some b) (some a) = some true ∧
          isNewChunkPosition (some a) (some b) ≠ some true)) ∧
    (∀ current : Option Offset, isNewChunkPosition current none = some true) := by
  refine ⟨isNewChunkPosition_iff, ?_, ?_, ?_, fun _ => rfl⟩
  · intro a
    simp only [ne_eq, isNewChunkPosition_iff, lexLt_iff]
    omega
  · intro a b c
    simp only [isNewChunkPosition_iff, lexLt_iff]
    omega
  · intro a b hne
    simp only [ne_eq, isNewChunkPosition_iff, lexLt_iff]
    have hfield : ¬ (a.SegmentId = b.SegmentId ∧ a.BlockNumber = b.BlockNumber ∧
        a.ChunkOffset = b.ChunkOffset) :=
      fun h => hne (Offset.eq_of_fields h.1 h.2.1 h.2.2)
    omega

theorem WaitForAppend_of_past {e : Engine} {lastSeen : Option Offset}
    (h : OffsetPast e lastSeen) (ev : WaitEvent) :
    e.WaitForAppend lastSeen ev = { err := .ok, waited := false } := by
  obtain ⟨c, hc, hl⟩ := h
  have hnew : isNewChunkPosition (some c) lastSeen = some true := by
    rcases hl with rfl | ⟨l, rfl, hlt⟩
    · rfl
    · exact (isNewChunkPosition_iff c l).mpr hlt
  simp [Engine.WaitForAppend, hc, hnew]

theorem WaitForAppend_of_not_past {e : Engine} {lastSeen : Option Offset}
    (h : ¬ OffsetPast e lastSeen) (ev : WaitEvent) :
    e.WaitForAppend lastSeen ev = waitSelect ev := by
  unfold Engine.WaitForAppend
  cases hc : e.currentOffset with
  | none => rfl
  | some c =>
    have hnew : isNewChunkPosition (some c) lastSeen ≠ some true := by
      intro hnew
      apply h
      refine ⟨c, hc, ?_⟩
      cases lastSeen with
      | none => exact Or.inl rfl
      | some l => exact Or.inr ⟨l, rfl, (isNewChunkPosition_iff c l).mp hnew⟩
    simp [hnew]

theorem waitSelect_waited (ev : WaitEvent) : (waitSelect ev).waited = true := by
  cases ev <;> rfl

/-- C16. `WaitForAppend` returns without waiting exactly when the current offset of the
engine is not nil and `lastSeen` is nil or strictly below it, and then it returns
success; with `lastSeen` equal to the current offset it waits. -/
theorem C16_WaitForAppend_immediate (e : Engine) (lastSeen : Option Offset)
    (ev : WaitEvent) :
    ((e.WaitForAppend lastSeen ev).waited = false ↔ OffsetPast e lastSeen) ∧
    (e.WaitForAppend lastSeen ev = { err := .ok, waited := false } ↔ OffsetPast e lastSeen) ∧
    (lastSeen = e.currentOffset → (e.WaitForAppend lastSeen ev).waited = true) := by
  have hnot : ¬ OffsetPast e lastSeen → (e.WaitForAppend lastSeen ev).waited = true :=
    fun h => by rw [WaitForAppend_of_not_past h]; exact waitSelect_waited ev
  refine ⟨⟨fun h => ?_, fun h => by rw [WaitForAppend_of_past h]⟩,
    ⟨fun h => ?_, fun h => WaitForAppend_of_past h ev⟩, fun heq => hnot ?_⟩
  · by_contra hp
    rw [hnot hp] at h
    cases h
  · by_contra hp
    have := hnot hp
    rw [h] at this
    cases this
  · rintro ⟨c, hc, hl⟩
    rcases hl with rfl | ⟨l, rfl, hlt⟩
    · rw [hc] at heq; cases heq
    · rw [hc] at heq
      injection heq with heq
      subst heq
      rw [lexLt_iff] at hlt
      omega


/-- Witness of C15: the positions `(1, 2, 30)` and `(1, 3, 0)`. -/
theorem C15_isNewChunkPosition_order_witness :
    isNewChunkPosition (some { SegmentId := 1, BlockNumber := 3, ChunkOffset := 0 })
        (some { SegmentId := 1, BlockNumber := 2, ChunkOffset := 30 }) = some true ∧
    Offset.lexLt { SegmentId := 1, BlockNumber := 2, ChunkOffset := 30 }
        { SegmentId := 1, BlockNumber := 3, ChunkOffset := 0 } ∧
    isNewChunkPosition (some { SegmentId := 1, BlockNumber := 2, ChunkOffset := 30 })
        (some { SegmentId := 1, BlockNumber := 3, ChunkOffset := 0 }) ≠ some true :=
  have hnew : isNewChunkPosition
      (some { SegmentId := 1, BlockNumber := 3, ChunkOffset := 0 })
      (some { SegmentId := 1, BlockNumber := 2, ChunkOffset := 30 }) = some true := by decide
  ⟨hnew, (C15_isNewChunkPosition_order.1 _ _).mp hnew,
    ((C15_isNewChunkPosition_order.2.2.2.1 _ _ (by decide)).resolve_right
      (fun h => h.2 hnew)).2⟩

/-- Witness of C16 on the example engine, whose current offset is `(1, 2, 30)`: a call
with that offset as `lastSeen` waits, a call with a nil `lastSeen` does not. -/
theorem C16_WaitForAppend_immediate_witness :
    (exampleEngine.WaitForAppend exampleEngine.currentOffset .timeout).waited = true ∧
    exampleEngine.WaitForAppend none .timeout = { err := .ok, waited := false } :=
  ⟨(C16_WaitForAppend_immediate exampleEngine exampleEngine.currentOffset .timeout).2.2 rfl,
    (C16_WaitForAppend_immediate exampleEngine none .timeout).2.1.mpr
      ⟨_, rfl, Or.inl rfl⟩⟩

/-- C17 as stated fails: the example engine is at `(1, 2, 30)`, the caller has seen
`(1, 2, 50)`, and a broadcast wakes the waiter when the engine is at `(1, 2, 31)`. The
call returns success, and the offset at that moment is not above `lastSeen`. -/
theorem C17_counterexample :
    (exampleEngine.WaitForAppend
        (some { SegmentId := 1, BlockNumber := 2, ChunkOffset := 50 })
        (.done { exampleEngine with
          currentOffset := some { SegmentId := 1, BlockNumber := 2, ChunkOffset := 31 } })).err
      = .ok ∧
    ¬ OffsetPast
        (engineAtReturn exampleEngine
          (.done { exampleEngine with
            currentOffset := some { SegmentId := 1, BlockNumber := 2, ChunkOffset := 31 } })
          (exampleEngine.WaitForAppend
            (some { SegmentId := 1, BlockNumber := 2, ChunkOffset := 50 })
            (.done { exampleEngine with
              currentOffset :=
                some { SegmentId := 1, BlockNumber := 2, ChunkOffset := 31 } })))
        (some { SegmentId := 1, BlockNumber := 2, ChunkOffset := 50 }) := by
  refine ⟨by decide, ?_⟩
  rintro ⟨c, hc, hl⟩
  have hc' : c = { SegmentId := 1, BlockNumber := 2, ChunkOffset := 31 } := by
    have : (some { SegmentId := 1, BlockNumber := 2, ChunkOffset := 31 } : Option Offset)
        = some c := hc
    injection this with this
    exact this.symm
  subst hc'
  rcases hl with h | ⟨l, hl, hlt⟩
  · cases h
  · injection hl with hl
    subst hl
    rw [lexLt_iff] at hlt
    simp at hlt

/-- C17, as amended. Whenever `WaitForAppend` returns success, either it returned without
waiting and the current offset of the engine is not nil and `lastSeen` is nil or strictly
below it, or it waited and was woken by a broadcast of the condition variable; after a
wake-up it returns success whatever the current offset then is. -/
theorem C17_WaitForAppend_success (e : Engine) (lastSeen : Option Offset) (ev : WaitEvent)
    (hok : (e.WaitForAppend lastSeen ev).err = .ok) :
    (((e.WaitForAppend lastSeen ev).waited = false ∧ OffsetPast e lastSeen) ∨
      ((e.WaitForAppend lastSeen ev).waited = true ∧ ∃ atWake, ev = .done atWake)) ∧
    (¬ OffsetPast e lastSeen →
      ∀ atWake, e.WaitForAppend lastSeen (.done atWake) = { err := .ok, waited := true }) := by
  constructor
  · by_cases hp : OffsetPast e lastSeen
    · exact Or.inl ⟨by rw [WaitForAppend_of_past hp], hp⟩
    · rw [WaitForAppend_of_not_past hp] at hok ⊢
      refine Or.inr ⟨waitSelect_waited ev, ?_⟩
      cases ev with
      | ctxDone err => cases hok
      | done atWake => exact ⟨atWake, rfl⟩
      | timeout => cases hok
  · intro hp atWake
    rw [WaitForAppend_of_not_past hp]
    rfl

/-- Witness of C17 as amended: the call of the counterexample, woken by a broadcast. -/
theorem C17_WaitForAppend_success_witness :
    (exampleEngine.WaitForAppend
        (some { SegmentId := 1, BlockNumber := 2, ChunkOffset := 50 })
        (.done exampleEngine)).err = .ok ∧
    (exampleEngine.WaitForAppend
        (some { SegmentId := 1, BlockNumber := 2, ChunkOffset := 50 })
        (.done exampleEngine)).waited = true :=
  ⟨by decide,
    ((C17_WaitForAppend_success exampleEngine
        (some { SegmentId := 1, BlockNumber := 2, ChunkOffset := 50 })
        (.done exampleEngine) (by decide)).1.resolve_left
      (fun h => by
        have h1 := h.1
        revert h1
        decide)).1⟩

/-- C18. If at the call the current offset is nil, or `lastSeen` is not nil and the
current offset is not strictly above it, and no broadcast wakes the waiter, then
`WaitForAppend` does not return success: it returns the error of the context when the
context is done first and `ErrWaitTimeoutExceeded` when the timeout elapses first. -/
theorem C18_WaitForAppend_no_broadcast (e : Engine) (lastSeen : Option Offset)
    (hcall : e.currentOffset = none ∨
      ∃ l c, lastSeen = some l ∧ e.currentOffset = some c ∧ ¬ l.lexLt c) :
    (∀ err, e.WaitForAppend lastSeen (.ctxDone err) = { err := .err err, waited := true }) ∧
    e.WaitForAppend lastSeen .timeout
      = { err := .err .ErrWaitTimeoutExceeded, waited := true } ∧
    (∀ ev, (∀ atWake, ev ≠ .done atWake) → (e.WaitForAppend lastSeen ev).err ≠ .ok) := by
  have hp : ¬ OffsetPast e lastSeen := by
    rintro ⟨c, hc, hl⟩
    rcases hcall with hnone | ⟨l, c', hl', hc', hnlt⟩
    · rw [hnone] at hc; cases hc
    · rw [hc'] at hc
      injection hc with hc
      subst hc
      rcases hl with h | ⟨l2, h, hlt⟩
      · rw [hl'] at h; cases h
      · rw [hl'] at h
        injection h with h
        subst h
        exact hnlt hlt
  refine ⟨fun err => ?_, ?_, fun ev hev => ?_⟩
  · rw [WaitForAppend_of_not_past hp]; rfl
  · rw [WaitForAppend_of_not_past hp]; rfl
  · rw [WaitForAppend_of_not_past hp]
    cases ev with
    | ctxDone err => simp [waitSelect]
    | done atWake => exact absurd rfl (hev atWake)
    | timeout => simp [waitSelect]

/-- Witness of C18 on the example engine with its own offset as `lastSeen`. -/
theorem C18_WaitForAppend_no_broadcast_witness :
    exampleEngine.WaitForAppend exampleEngine.currentOffset (.ctxDone .contextCanceled)
      = { err := .err .contextCanceled, waited := true } ∧
    exampleEngine.WaitForAppend exampleEngine.currentOffset .timeout
      = { err := .err .ErrWaitTimeoutExceeded, waited := true } :=
  have h := C18_WaitForAppend_no_broadcast exampleEngine exampleEngine.currentOffset
    (Or.inr ⟨_, _, rfl, rfl, by rw [lexLt_iff]; simp⟩)
  ⟨h.1 .contextCanceled, h.2.1⟩


/-- What `NewReaderWithStart` does with a start position that is not nil: the engine
refuses it when `isNewChunkPosition(startPos, currentOffset)` holds, and hands it to the
log otherwise. -/
theorem NewReaderWithStart_some (deps : Deps) (e : Engine) (startPos : Offset) :
    e.NewReaderWithStart deps (some startPos)
      = if isNewChunkPosition (some startPos) e.currentOffset = some true then
          .error .ErrInvalidOffset
        else deps.NewReaderWithStart e startPos := by
  unfold Engine.NewReaderWithStart
  cases hc : e.currentOffset with
  | none => simp [isNewChunkPosition]
  | some c =>
    simp only [isNewChunkPosition, Option.some.injEq, decide_eq_true_eq]
    by_cases h1 : startPos.SegmentId > c.SegmentId
    · simp [h1]
    · by_cases h2 : startPos.SegmentId = c.SegmentId
      · by_cases h3 : startPos.BlockNumber > c.BlockNumber
        · simp [h2, h3]
        · by_cases h4 : startPos.BlockNumber = c.BlockNumber
          · by_cases h5 : startPos.ChunkOffset > c.ChunkOffset
            · simp [h2, h4, h5]
            · simp [h2, h4, h5]
          · simp [h2, h3, h4]
      · simp [h1, h2]

/-- C19. With a start position that is not nil, `NewReaderWithStart` refuses it with
`ErrInvalidOffset` when the current offset is nil or the start position is strictly above
it in the lexicographic order, which is when `isNewChunkPosition(startPos, currentOffset)`
holds, and otherwise returns what the log returns for it, so a start position equal to the
current offset is accepted; `ErrInvalidOffset` is returned in no other case unless the log
itself returns it. With a nil start position it returns what `NewReader` returns. -/
theorem C19_NewReaderWithStart_check (deps : Deps) (e : Engine) (startPos : Offset) :
    (isNewChunkPosition (some startPos) e.currentOffset = some true
        ↔ e.currentOffset = none ∨ ∃ c, e.currentOffset = some c ∧ c.lexLt startPos) ∧
    (isNewChunkPosition (some startPos) e.currentOffset = some true →
      e.NewReaderWithStart deps (some startPos) = .error .ErrInvalidOffset) ∧
    (isNewChunkPosition (some startPos) e.currentOffset ≠ some true →
      e.NewReaderWithStart deps (some startPos) = deps.NewReaderWithStart e startPos) ∧
    (deps.NewReaderWithStart e startPos ≠ .error .ErrInvalidOffset →
      (e.NewReaderWithStart deps (some startPos) = .error .ErrInvalidOffset
        ↔ e.currentOffset = none ∨ ∃ c, e.currentOffset = some c ∧ c.lexLt startPos)) ∧
    (e.currentOffset = some startPos →
      e.NewReaderWithStart deps (some startPos) = deps.NewReaderWithStart e startPos) ∧
    e.NewReaderWithStart deps none = e.NewReader deps := by
  have hiff : isNewChunkPosition (some startPos) e.currentOffset = some true
      ↔ e.currentOffset = none ∨ ∃ c, e.currentOffset = some c ∧ c.lexLt startPos := by
    cases hc : e.currentOffset with
    | none => simp [isNewChunkPosition]
    | some c => simp [isNewChunkPosition_iff]
  refine ⟨hiff, fun h => ?_, fun h => ?_, fun hlog => ?_, fun heq => ?_, rfl⟩
  · rw [NewReaderWithStart_some, if_pos h]
  · rw [NewReaderWithStart_some, if_neg h]
  · rw [← hiff, NewReaderWithStart_some]
    by_cases h : isNewChunkPosition (some startPos) e.currentOffset = some true
    · simp [h]
    · simp [h, hlog]
  · rw [NewReaderWithStart_some, if_neg]
    rw [heq]
    simp only [ne_eq, isNewChunkPosition_iff, lexLt_iff]
    omega

/-- Witness of C19 on the example engine, at `(1, 2, 30)`: the start `(1, 2, 31)` is
refused, the start `(1, 2, 30)` is handed to the log. -/
theorem C19_NewReaderWithStart_check_witness :
    exampleEngine.NewReaderWithStart exampleDeps
        (some { SegmentId := 1, BlockNumber := 2, ChunkOffset := 31 })
      = .error .ErrInvalidOffset ∧
    exampleEngine.NewReaderWithStart exampleDeps
        (some { SegmentId := 1, BlockNumber := 2, ChunkOffset := 30 })
      = exampleDeps.NewReaderWithStart exampleEngine
          { SegmentId := 1, BlockNumber := 2, ChunkOffset := 30 } :=
  ⟨(C19_NewReaderWithStart_check exampleDeps exampleEngine
      { SegmentId := 1, BlockNumber := 2, ChunkOffset := 31 }).2.1 (by decide),
    (C19_NewReaderWithStart_check exampleDeps exampleEngine
      { SegmentId := 1, BlockNumber := 2, ChunkOffset := 30 }).2.2.2.2.1 rfl⟩

/-- C20. Once the shutdown flag is set, `Put`, `Delete`, `SetColumnsInRow`,
`DeleteColumnsFromRow`, `DeleteRow` and `Close` return `ErrInCloseProcess` and leave the
engine, with its log, memtables, counters and store, as it was, and the reads `Get` and
`GetRowColumns` return a nil value and `ErrInCloseProcess`. -/
theorem C20_shutdown_refuses (deps : Deps) (e : Engine) (hdown : e.shutdown = true) :
    (∀ key value, e.Put deps key value = (e, .err .ErrInCloseProcess)) ∧
    (∀ key, e.Delete deps key = (e, .err .ErrInCloseProcess)) ∧
    (∀ key, e.Get key = (none, .err .ErrInCloseProcess)) ∧
    (∀ rowKey columnEntries,
      e.SetColumnsInRow deps rowKey columnEntries = (e, .err .ErrInCloseProcess)) ∧
    (∀ rowKey columnEntries,
      e.DeleteColumnsFromRow deps rowKey columnEntries = (e, .err .ErrInCloseProcess)) ∧
    (∀ rowKey, e.DeleteRow deps rowKey = (e, .err .ErrInCloseProcess)) ∧
    (∀ rowKey predicate,
      e.GetRowColumns deps rowKey predicate = (none, .err .ErrInCloseProcess)) ∧
    e.Close deps = (e, .err .ErrInCloseProcess) := by
  refine ⟨fun _ _ => ?_, fun _ => ?_, fun _ => ?_, fun _ _ => ?_, fun _ _ => ?_,
    fun _ => ?_, fun _ _ => ?_, ?_⟩
  · simp [Engine.Put, hdown]
  · simp [Engine.Delete, hdown]
  · simp [Engine.Get, hdown]
  · simp [Engine.SetColumnsInRow, hdown]
  · simp [Engine.DeleteColumnsFromRow, hdown]
  · simp [Engine.DeleteRow, hdown]
  · simp [Engine.GetRowColumns, hdown]
  · simp [Engine.Close, hdown]

/-- Witness of C20: the example engine is closed, which sets the flag, and then a `Put`,
a `Get` of a key that the memtable holds, and a second `Close` are refused. -/
theorem C20_shutdown_refuses_witness :
    (exampleEngine.Close exampleDeps).2 = .ok ∧
    (exampleEngine.Close exampleDeps).1.shutdown = true ∧
    (exampleEngine.Close exampleDeps).1.Put exampleDeps [1] [2]
      = ((exampleEngine.Close exampleDeps).1, .err .ErrInCloseProcess) ∧
    (exampleEngine.Close exampleDeps).1.Get [1] = (none, .err .ErrInCloseProcess) ∧
    (exampleEngine.Close exampleDeps).1.Close exampleDeps
      = ((exampleEngine.Close exampleDeps).1, .err .ErrInCloseProcess) :=
  have h := C20_shutdown_refuses exampleDeps (exampleEngine.Close exampleDeps).1 rfl
  ⟨rfl, rfl, h.1 [1] [2], h.2.2.1 [1], h.2.2.2.2.2.2.2⟩

end dbkernel

/-! ## Chunked values and batches -/

namespace dbkernel

theorem unmarshalChecksum_of_Uint32 {data : Bytes} {checksum : Nat}
    (h : binary.Uint32 data = some checksum) : unmarshalChecksum data = checksum := by
  unfold unmarshalChecksum
  have hlen : ¬ data.length < 4 := by
    match data, h with
    | _ :: _ :: _ :: _ :: _, _ => simp
  simp [hlen, h]

theorem reconstructBatchValue_chain {e : Engine} {record first : WalRecord}
    {chain : List WalRecord}
    (hchain : e.GetTransactionRecords record.PrevTxnWalIndexBytes = .ok (first :: chain)) :
    e.reconstructBatchValue record
      = if crc32.ChecksumIEEE (chain.map fun rec => rec.ValueBytes).flatten
            ≠ unmarshalChecksum record.ValueBytes then (none, .err .ErrRecordCorrupted)
        else (some (chain.map fun rec => rec.ValueBytes).flatten, .ok) := by
  simp only [Engine.reconstructBatchValue, hchain]

/-- C11. On an engine that is not shut down whose Bloom filter tests positive, when the
deciding memtable entry, not a `Delete`, refers to a commit record of entry type `Chunked`,
the chain read from its previous-transaction offset has a first record, and the value of
the commit record decodes to the little-endian `uint32` `checksum`, `Get` returns the
concatenation, in chain order, of the value bytes of the records of the chain after the
first exactly when the checksum of that concatenation equals `checksum`, and
`ErrRecordCorrupted` with a nil value otherwise. -/
theorem C11_Get_chunked (e : Engine) (key : Bytes) (it : ValueStruct)
    (record first : WalRecord) (chain : List WalRecord) (checksum : Nat)
    (hrun : e.shutdown = false) (hbloom : e.bloom key = true)
    (hit : IsDecidingEntry e key it) (hnotdel : it.Meta ≠ .Delete)
    (hrec : e.getWalRecord it = .ok record)
    (hkind : record.EntryType = EntryTypeChunked)
    (hchain : e.GetTransactionRecords record.PrevTxnWalIndexBytes = .ok (first :: chain))
    (hsum : binary.Uint32 record.ValueBytes = some checksum) :
    (e.Get key = (some (chain.map fun rec => rec.ValueBytes).flatten, .ok)
      ↔ crc32.ChecksumIEEE (chain.map fun rec => rec.ValueBytes).flatten = checksum) ∧
    (crc32.ChecksumIEEE (chain.map fun rec => rec.ValueBytes).flatten ≠ checksum →
      e.Get key = (none, .err .ErrRecordCorrupted)) := by
  have hnoop : it.Meta ≠ .Noop := by
    rcases hit with ⟨_, hne⟩ | ⟨_, _, _, hne, _⟩ <;> exact hne
  have hget : e.Get key
      = if crc32.ChecksumIEEE (chain.map fun rec => rec.ValueBytes).flatten ≠ checksum then
          (none, .err .ErrRecordCorrupted)
        else (some (chain.map fun rec => rec.ValueBytes).flatten, .ok) := by
    simp only [Engine.Get, hrun, checkFunc_deciding hbloom hit, Engine.resolve, hnoop,
      hnotdel, hrec, hkind, if_true, if_false, Bool.false_eq_true,
      reconstructBatchValue_chain hchain, unmarshalChecksum_of_Uint32 hsum]
  rw [hget]
  by_cases hc : crc32.ChecksumIEEE (chain.map fun rec => rec.ValueBytes).flatten = checksum
  · simp [hc]
  · simp [hc]

/-- Witness of C11 on the example engine of chunked values: a commit record that holds
the checksum of its chain, and one that holds another checksum. -/
theorem C11_Get_chunked_witness :
    chunkedEngine.Get [8] = (some [41, 42, 43], .ok) ∧
    chunkedEngine.Get [10] = (none, .err .ErrRecordCorrupted) :=
  ⟨(C11_Get_chunked chunkedEngine [8] { Meta := .TxnCommit, Value := [18] }
      { EntryType := EntryTypeChunked,
        ValueBytes := binary.PutUint32 (crc32.ChecksumIEEE [41, 42, 43]),
        Crc32Checksum := 0, PrevTxnWalIndexBytes := [17] }
      { EntryType := EntryTypeChunked, ValueBytes := [], Crc32Checksum := 0,
        PrevTxnWalIndexBytes := [] }
      [{ EntryType := EntryTypeChunked, ValueBytes := [41], Crc32Checksum := 0,
         PrevTxnWalIndexBytes := [15] },
       { EntryType := EntryTypeChunked, ValueBytes := [42, 43], Crc32Checksum := 0,
         PrevTxnWalIndexBytes := [16] }]
      (crc32.ChecksumIEEE [41, 42, 43])
      rfl rfl (Or.inl ⟨rfl, by decide⟩) (by decide) rfl rfl rfl (by decide)).1.mpr
      (by decide),
   (C11_Get_chunked chunkedEngine [10] { Meta := .TxnCommit, Value := [20] }
      { EntryType := EntryTypeChunked, ValueBytes := binary.PutUint32 7,
        Crc32Checksum := 0, PrevTxnWalIndexBytes := [17] }
      { EntryType := EntryTypeChunked, ValueBytes := [], Crc32Checksum := 0,
        PrevTxnWalIndexBytes := [] }
      [{ EntryType := EntryTypeChunked, ValueBytes := [41], Crc32Checksum := 0,
         PrevTxnWalIndexBytes := [15] },
       { EntryType := EntryTypeChunked, ValueBytes := [42, 43], Crc32Checksum := 0,
         PrevTxnWalIndexBytes := [16] }]
      7
      rfl rfl (Or.inl ⟨rfl, by decide⟩) (by decide) rfl rfl rfl (by decide)).2
      (by decide)⟩

end dbkernel

namespace storage

/-- The four ways a `Put` ends: the batch already holds an error; the record does not
encode; the log refuses the frame; or the frame is written. -/
theorem Put_cases (env : Env) (b : Batch) (value : Bytes) :
    (∃ err, b.err = some err ∧ b.Put env value = (b, .err err)) ∨
    (b.err = none ∧ ∃ err,
      b.Put env value = ({ b with engine := b.engine.addCounter, err := some err }, .err err)) ∨
    (b.err = none ∧ ∃ encoded chunkPos,
      env.fbEncode (b.insertRecord value) = .ok encoded ∧
      env.Write b.engine.addCounter.wal encoded = .ok chunkPos ∧
      b.Put env value
        = ({ b with
              engine := { b.engine.addCounter with
                wal := b.engine.addCounter.wal ++ [(chunkPos, encoded)] },
              lastPos := some chunkPos,
              checksum := crc32.Update b.checksum value }, .ok)) := by
  cases herr : b.err with
  | some err => exact Or.inl ⟨err, rfl, by simp [Batch.Put, herr]⟩
  | none =>
    cases henc : env.fbEncode (b.insertRecord value) with
    | error err =>
      refine Or.inr (Or.inl ⟨rfl, err, ?_⟩)
      have henc' := henc
      unfold Batch.insertRecord at henc'
      simp [Batch.Put, herr, henc']
    | ok encoded =>
      have henc' := henc
      unfold Batch.insertRecord at henc'
      cases hw : env.Write b.engine.addCounter.wal encoded with
      | error err =>
        refine Or.inr (Or.inl ⟨rfl, err, ?_⟩)
        simp [Batch.Put, herr, henc', Engine.walWrite, hw]
      | ok chunkPos =>
        refine Or.inr (Or.inr ⟨rfl, encoded, chunkPos, rfl, hw, ?_⟩)
        simp [Batch.Put, herr, henc', Engine.walWrite, hw]

theorem addCounter_wal (e : Engine) : e.addCounter.wal = e.wal := rfl

/-- A `Put` that returns nil found no error in the batch and leaves none. -/
theorem Put_ok {env : Env} {b : Batch} {value : Bytes} (h : (b.Put env value).2 = .ok) :
    b.err = none ∧ (b.Put env value).1.err = none ∧
    (b.Put env value).1.checksum = crc32.Update b.checksum value := by
  rcases Put_cases env b value with ⟨err, _, hput⟩ | ⟨_, err, hput⟩ |
      ⟨hnone, encoded, chunkPos, _, _, hput⟩
  · rw [hput] at h; cases h
  · rw [hput] at h; cases h
  · rw [hput]; exact ⟨hnone, hnone, rfl⟩

theorem putAll_ok (env : Env) (values : List Bytes) :
    ∀ (b b' : Batch), b.err = none → b.putAll env values = (b', .ok) →
      b'.err = none ∧ b'.checksum = values.foldl crc32.Update b.checksum := by
  induction values with
  | nil =>
    intro b b' herr h
    simp only [Batch.putAll, Prod.mk.injEq, and_true] at h
    subst h
    exact ⟨herr, rfl⟩
  | cons value values ih =>
    intro b b' herr h
    rcases hput : b.Put env value with ⟨b1, r⟩
    have hsnd : (b.Put env value).2 = r := by rw [hput]
    cases r with
    | ok =>
      obtain ⟨_, herr1, hsum1⟩ := Put_ok hsnd
      rw [hput] at herr1 hsum1
      simp only [Batch.putAll, hput] at h
      obtain ⟨herr', hsum'⟩ := ih b1 b' herr1 h
      exact ⟨herr', by rw [hsum', hsum1, List.foldl_cons]⟩
    | err e => simp [Batch.putAll, hput] at h
    | panic => simp [Batch.putAll, hput] at h

/-- What a successful `NewBatch` did: the start record encoded, the frame was written at
the position the batch holds, and the batch is fresh. -/
theorem NewBatch_ok {env : Env} {e e0 : Engine} {uuid : Except Err Bytes} {key : Bytes}
    {b0 : Batch} (h : e.NewBatch env uuid key = (e0, .ok b0)) :
    ∃ id encoded chunkPos, uuid = .ok id ∧
      env.fbEncode (e.startRecord id key) = .ok encoded ∧
      env.Write e.wal encoded = .ok chunkPos ∧
      e0 = { e.addCounter with wal := e.wal ++ [(chunkPos, encoded)] } ∧
      b0 = { key := key, batchID := id, lastPos := some chunkPos, err := none,
             commited := false, engine := e0, checksum := 0 } := by
  cases uuid with
  | error err => simp [Engine.NewBatch] at h
  | ok id =>
    cases henc : env.fbEncode (e.startRecord id key) with
    | error err =>
      unfold Engine.startRecord at henc
      simp [Engine.NewBatch, henc] at h
    | ok encoded =>
      have henc' := henc
      unfold Engine.startRecord at henc'
      cases hw : env.Write e.wal encoded with
      | error err =>
        have hw' : env.Write e.addCounter.wal encoded = .error err := hw
        simp [Engine.NewBatch, henc', Engine.walWrite, hw'] at h
      | ok chunkPos =>
        have hw' : env.Write e.addCounter.wal encoded = .ok chunkPos := hw
        simp only [Engine.NewBatch, henc', Engine.walWrite, hw', Prod.mk.injEq,
          Except.ok.injEq] at h
        obtain ⟨h1, h2⟩ := h
        refine ⟨id, encoded, chunkPos, rfl, henc, hw, ?_, ?_⟩
        · rw [← h1]; rfl
        · rw [← h2, ← h1]

theorem unmarshal_marshal (checksum : Nat) :
    dbkernel.unmarshalChecksum (marshalChecksum checksum) = checksum % 2 ^ 32 := by
  apply dbkernel.unmarshalChecksum_of_Uint32
  have := binary.Uint32_PutUint32 checksum []
  simpa [marshalChecksum] using this

/-- C12. For every sequence of values put without error into a batch opened by
`NewBatch`, the empty sequence included, the rolling checksum of the batch is the
checksum of their concatenation, `Commit` hands to the write path the four bytes, least
significant first, of that checksum, and the check made when the value is reconstructed
from a chain of records with these values accepts it. -/
theorem C12_Commit_checksum (env : Env) (e e0 : Engine) (uuid : Except Err Bytes)
    (key : Bytes) (values : List Bytes) (b0 b : Batch)
    (hnew : e.NewBatch env uuid key = (e0, .ok b0))
    (hput : b0.putAll env values = (b, .ok)) :
    b.checksum = crc32.ChecksumIEEE values.flatten ∧
    b.Commit env
      = env.persistKeyValue b.engine b.key
          [Fin.ofNat (crc32.ChecksumIEEE values.flatten),
            Fin.ofNat (crc32.ChecksumIEEE values.flatten / 2 ^ 8),
            Fin.ofNat (crc32.ChecksumIEEE values.flatten / 2 ^ 16),
            Fin.ofNat (crc32.ChecksumIEEE values.flatten / 2 ^ 24)]
          .LogOperationOpBatchCommit b.batchID b.lastPos ∧
    (∀ (d : dbkernel.Engine) (record first : dbkernel.WalRecord)
        (chain : List dbkernel.WalRecord),
      record.ValueBytes = marshalChecksum b.checksum →
      d.GetTransactionRecords record.PrevTxnWalIndexBytes = .ok (first :: chain) →
      (chain.map fun rec => rec.ValueBytes) = values →
      d.reconstructBatchValue record = (some values.flatten, .ok)) := by
  obtain ⟨id, encoded, chunkPos, _, _, _, _, hb0⟩ := NewBatch_ok hnew
  have herr0 : b0.err = none := by rw [hb0]
  have hsum0 : b0.checksum = 0 := by rw [hb0]
  obtain ⟨herr, hsum⟩ := putAll_ok env values b0 b herr0 hput
  have hcrc : b.checksum = crc32.ChecksumIEEE values.flatten := by
    rw [hsum, hsum0, crc32.foldl_Update]; rfl
  refine ⟨hcrc, ?_, ?_⟩
  · simp only [Batch.Commit, herr, hcrc, marshalChecksum, binary.PutUint32,
      Nat.shiftRight_eq_div_pow]
  · intro d record first chain hvalue hchain hvalues
    rw [dbkernel.reconstructBatchValue_chain hchain, hvalue, unmarshal_marshal, hvalues, hcrc,
      Nat.mod_eq_of_lt (crc32.ChecksumIEEE_lt _)]
    simp


theorem IsChain_snoc {key batchID : Bytes} (pos : ChunkPosition) (record : walRecord) :
    ∀ (prev : Option ChunkPosition) (records : List (ChunkPosition × walRecord)),
      IsChain key batchID prev records → record.lastBatchPos = chainEnd prev records →
      record.key = key → record.batchID = batchID →
      IsChain key batchID prev (records ++ [(pos, record)]) := by
  intro prev records
  induction records generalizing prev with
  | nil =>
    intro _ hlast hkey hid
    exact ⟨hlast, hkey, hid, trivial⟩
  | cons head rest ih =>
    intro hchain hlast hkey hid
    obtain ⟨p, r⟩ := head
    obtain ⟨h1, h2, h3, h4⟩ := hchain
    refine ⟨h1, h2, h3, ih (some p) h4 ?_ hkey hid⟩
    rw [hlast]
    unfold chainEnd
    cases rest with
    | nil => rfl
    | cons x xs =>
      rw [List.getLast?_cons_cons]
      cases hl : (x :: xs).getLast? with
      | none => simp at hl
      | some y => rfl

theorem chainEnd_snoc (prev : Option ChunkPosition)
    (records : List (ChunkPosition × walRecord)) (pos : ChunkPosition) (record : walRecord) :
    chainEnd prev (records ++ [(pos, record)]) = some pos := by
  unfold chainEnd
  rw [List.getLast?_concat]

theorem Encodes_snoc {env : Env} {records : List (ChunkPosition × walRecord)} {frames : Log}
    (h : Encodes env records frames) {pos : ChunkPosition} {record : walRecord}
    {encoded : Bytes} (henc : env.fbEncode record = .ok encoded) :
    Encodes env (records ++ [(pos, record)]) (frames ++ [(pos, encoded)]) := by
  unfold Encodes at h ⊢
  induction h with
  | nil => exact List.Forall₂.cons ⟨rfl, henc⟩ List.Forall₂.nil
  | cons hhead _ ih => exact List.Forall₂.cons hhead ih

/-- One `Put` keeps the chain: it adds no record, or the record whose previous position is
the position the batch held. -/
theorem Put_chain {env : Env} {log0 : Log} {key batchID : Bytes} {b : Batch}
    {records : List (ChunkPosition × walRecord)} {done : Nat} (value : Bytes)
    (h : ChainWritten env log0 key batchID b records)
    (hlen : records.length ≤ done + 1) (hfull : b.err = none → records.length = done + 1) :
    ∃ records', ChainWritten env log0 key batchID (b.Put env value).1 records' ∧
      records'.length ≤ done + 1 + 1 ∧
      ((b.Put env value).1.err = none → records'.length = done + 1 + 1) := by
  obtain ⟨hne, hchain, ⟨frames, henc, hwal⟩, hlast, hkey, hid⟩ := h
  rcases Put_cases env b value with ⟨err, herr, hput⟩ | ⟨_, err, hput⟩ |
      ⟨hnone, encoded, chunkPos, hencoded, _, hput⟩
  · rw [hput]
    exact ⟨records, ⟨hne, hchain, ⟨frames, henc, hwal⟩, hlast, hkey, hid⟩, by omega,
      fun h => by rw [herr] at h; cases h⟩
  · rw [hput]
    exact ⟨records, ⟨hne, hchain, ⟨frames, henc, hwal⟩, hlast, hkey, hid⟩, by omega,
      fun h => by cases h⟩
  · rw [hput]
    refine ⟨records ++ [(chunkPos, b.insertRecord value)], ⟨by simp, ?_, ?_, ?_, hkey, hid⟩,
      ?_, fun _ => ?_⟩
    · exact IsChain_snoc chunkPos _ none records hchain hlast hkey hid
    · refine ⟨frames ++ [(chunkPos, encoded)], Encodes_snoc henc hencoded, ?_⟩
      show b.engine.wal ++ [(chunkPos, encoded)] = log0 ++ (frames ++ [(chunkPos, encoded)])
      rw [hwal, List.append_assoc]
    · exact (chainEnd_snoc none records chunkPos _).symm
    · simp only [List.length_append, List.length_singleton]; omega
    · simp only [List.length_append, List.length_singleton]
      rw [hfull hnone]

theorem putEach_chain {env : Env} {log0 : Log} {key batchID : Bytes} (values : List Bytes) :
    ∀ (b : Batch) (records : List (ChunkPosition × walRecord)) (done : Nat),
      ChainWritten env log0 key batchID b records → records.length ≤ done + 1 →
      (b.err = none → records.length = done + 1) →
      ∃ records', ChainWritten env log0 key batchID (b.putEach env values) records' ∧
        records'.length ≤ done + values.length + 1 ∧
        ((b.putEach env values).err = none → records'.length = done + values.length + 1) := by
  induction values with
  | nil =>
    intro b records done h hlen hfull
    exact ⟨records, h, hlen, hfull⟩
  | cons value values ih =>
    intro b records done h hlen hfull
    obtain ⟨records1, h1, hlen1, hfull1⟩ := Put_chain value h hlen hfull
    obtain ⟨records', h', hlen', hfull'⟩ := ih (b.Put env value).1 records1 (done + 1) h1
      hlen1 hfull1
    refine ⟨records', h', ?_, fun herr => ?_⟩
    · simp only [List.length_cons]; omega
    · have := hfull' herr
      simp only [List.length_cons]; omega

/-- C13. The records of one batch form a single backward-linked chain. After `NewBatch`
succeeds on `key` and the values are put, whatever each `Put` returns, the frames written
to the log since the batch was opened encode records that all carry the key and the batch
id; the first, the start record, has no previous position; each later one, written by a
successful `Put`, has as previous position the position that the log returned for the
record before it; the batch holds the position of the last one, and `Commit` passes it.
When every `Put` succeeded there is one record for the start and one for each value. -/
theorem C13_batch_chain (env : Env) (e e0 : Engine) (uuid : Except Err Bytes) (key : Bytes)
    (values : List Bytes) (b0 : Batch) (hnew : e.NewBatch env uuid key = (e0, .ok b0)) :
    uuid = .ok b0.batchID ∧
    ∃ records : List (ChunkPosition × walRecord),
      records ≠ [] ∧ IsChain key b0.batchID none records ∧
      (∃ frames, Encodes env records frames ∧
        (b0.putEach env values).engine.wal = e.wal ++ frames) ∧
      (b0.putEach env values).lastPos = chainEnd none records ∧
      (b0.putEach env values).key = key ∧
      (b0.putEach env values).batchID = b0.batchID ∧
      records.length ≤ values.length + 1 ∧
      ((b0.putEach env values).err = none →
        records.length = values.length + 1 ∧
        (b0.putEach env values).Commit env
          = env.persistKeyValue (b0.putEach env values).engine key
              (marshalChecksum (b0.putEach env values).checksum)
              .LogOperationOpBatchCommit b0.batchID (chainEnd none records)) := by
  obtain ⟨id, encoded, chunkPos, huuid, henc, _, he0, hb0⟩ := NewBatch_ok hnew
  have hid : b0.batchID = id := by rw [hb0]
  have hstart : ChainWritten env e.wal key id b0 [(chunkPos, e.startRecord id key)] := by
    refine ⟨by simp, ⟨rfl, rfl, rfl, trivial⟩,
      ⟨[(chunkPos, encoded)], List.Forall₂.cons ⟨rfl, henc⟩ List.Forall₂.nil, ?_⟩, ?_, ?_, ?_⟩
    · rw [hb0, he0]
    · rw [hb0]; rfl
    · rw [hb0]
    · rw [hb0]
  obtain ⟨records, ⟨hne, hchain, hframes, hlast, hkey, hbid⟩, hlen, hfull⟩ :=
    putEach_chain values b0 _ 0 hstart (by simp) (fun _ => by simp)
  rw [hid]
  refine ⟨huuid, records, hne, hchain, hframes, hlast, hkey, hbid, by omega, fun herr => ?_⟩
  refine ⟨by have := hfull herr; omega, ?_⟩
  simp only [Batch.Commit, herr, hkey, hbid, hlast]

end storage

namespace dbkernel

/-- Two engines with the same flag, tiers and store, whose logs return the same for the
entry that decides the key and for the chain of its record, return the same for the key. -/
theorem Get_congr {d d' : Engine} (key : Bytes) (hs : d'.shutdown = d.shutdown)
    (hb : d'.bloom = d.bloom) (ha : d'.activeMemTable = d.activeMemTable)
    (hse : d'.sealedMemTables = d.sealedMemTables) (hst : d'.dataStore = d.dataStore)
    (hlog : ∀ it, d.checkFunc key = .ok it →
      d'.getWalRecord it = d.getWalRecord it ∧
      ∀ record, d.getWalRecord it = .ok record →
        d'.GetTransactionRecords record.PrevTxnWalIndexBytes
          = d.GetTransactionRecords record.PrevTxnWalIndexBytes) :
    d'.Get key = d.Get key := by
  have hcheck : d'.checkFunc key = d.checkFunc key := by
    unfold Engine.checkFunc
    rw [hb, ha, hse]
  unfold Engine.Get
  rw [hs, hcheck]
  cases hc : d.checkFunc key with
  | error err => rfl
  | ok it =>
    obtain ⟨hrec, hchain⟩ := hlog it hc
    simp only
    unfold Engine.resolve
    rw [hst, hrec]
    cases hr : d.getWalRecord it with
    | error err => rfl
    | ok record =>
      have := hchain record hr
      simp only [Engine.reconstructBatchValue, this]

end dbkernel

namespace storage

/-- What a `Put` leaves as it was: the key, the batch id and the flag `commited` of the
batch, and the Bloom filter, the memtables and the store of the engine; the log only
grows. -/
theorem Put_frame (env : Env) (b : Batch) (value : Bytes) :
    (b.Put env value).1.key = b.key ∧ (b.Put env value).1.batchID = b.batchID ∧
    (b.Put env value).1.commited = b.commited ∧
    (b.Put env value).1.engine.bloom = b.engine.bloom ∧
    (b.Put env value).1.engine.activeMemTable = b.engine.activeMemTable ∧
    (b.Put env value).1.engine.sealedMemTables = b.engine.sealedMemTables ∧
    (b.Put env value).1.engine.dataStore = b.engine.dataStore ∧
    ∃ frames, (b.Put env value).1.engine.wal = b.engine.wal ++ frames := by
  rcases Put_cases env b value with ⟨err, _, hput⟩ | ⟨_, err, hput⟩ |
      ⟨_, encoded, chunkPos, _, _, hput⟩
  · rw [hput]
    exact ⟨rfl, rfl, rfl, rfl, rfl, rfl, rfl, [], (List.append_nil _).symm⟩
  · rw [hput]
    exact ⟨rfl, rfl, rfl, rfl, rfl, rfl, rfl, [], (List.append_nil _).symm⟩
  · rw [hput]
    exact ⟨rfl, rfl, rfl, rfl, rfl, rfl, rfl, [(chunkPos, encoded)], rfl⟩

theorem putEach_frame (env : Env) (values : List Bytes) :
    ∀ b : Batch,
      (b.putEach env values).engine.bloom = b.engine.bloom ∧
      (b.putEach env values).engine.activeMemTable = b.engine.activeMemTable ∧
      (b.putEach env values).engine.sealedMemTables = b.engine.sealedMemTables ∧
      (b.putEach env values).engine.dataStore = b.engine.dataStore ∧
      ∃ frames, (b.putEach env values).engine.wal = b.engine.wal ++ frames := by
  induction values with
  | nil => intro b; exact ⟨rfl, rfl, rfl, rfl, [], (List.append_nil _).symm⟩
  | cons value values ih =>
    intro b
    obtain ⟨_, _, _, h1, h2, h3, h4, frames1, h5⟩ := Put_frame env b value
    obtain ⟨g1, g2, g3, g4, frames2, g5⟩ := ih (b.Put env value).1
    refine ⟨g1.trans h1, g2.trans h2, g3.trans h3, g4.trans h4, frames1 ++ frames2, ?_⟩
    show ((b.Put env value).1.putEach env values).engine.wal = _
    rw [g5, h5, List.append_assoc]

theorem NewBatch_frame (env : Env) (e : Engine) (uuid : Except Err Bytes) (key : Bytes) :
    (e.NewBatch env uuid key).1.bloom = e.bloom ∧
    (e.NewBatch env uuid key).1.activeMemTable = e.activeMemTable ∧
    (e.NewBatch env uuid key).1.sealedMemTables = e.sealedMemTables ∧
    (e.NewBatch env uuid key).1.dataStore = e.dataStore ∧
    (∃ frames, (e.NewBatch env uuid key).1.wal = e.wal ++ frames) ∧
    (∀ b, (e.NewBatch env uuid key).2 = .ok b → b.engine = (e.NewBatch env uuid key).1) := by
  cases uuid with
  | error err =>
    exact ⟨rfl, rfl, rfl, rfl, ⟨[], (List.append_nil _).symm⟩, fun b h => by cases h⟩
  | ok id =>
    cases henc : env.fbEncode (e.startRecord id key) with
    | error err =>
      unfold Engine.startRecord at henc
      simp only [Engine.NewBatch, henc]
      exact ⟨rfl, rfl, rfl, rfl, ⟨[], (List.append_nil _).symm⟩, fun b h => by cases h⟩
    | ok encoded =>
      unfold Engine.startRecord at henc
      cases hw : env.Write e.addCounter.wal encoded with
      | error err =>
        simp only [Engine.NewBatch, henc, Engine.walWrite, hw]
        exact ⟨rfl, rfl, rfl, rfl, ⟨[], (List.append_nil _).symm⟩, fun b h => by cases h⟩
      | ok chunkPos =>
        simp only [Engine.NewBatch, henc, Engine.walWrite, hw]
        refine ⟨rfl, rfl, rfl, rfl, ⟨[(chunkPos, encoded)], rfl⟩, fun b h => ?_⟩
        injection h with h
        rw [← h]

theorem openBatch_frame (env : Env) (e : Engine) (uuid : Except Err Bytes) (key : Bytes)
    (values : List Bytes) :
    (e.openBatch env uuid key values).bloom = e.bloom ∧
    (e.openBatch env uuid key values).activeMemTable = e.activeMemTable ∧
    (e.openBatch env uuid key values).sealedMemTables = e.sealedMemTables ∧
    (e.openBatch env uuid key values).dataStore = e.dataStore ∧
    ∃ frames, (e.openBatch env uuid key values).wal = e.wal ++ frames := by
  obtain ⟨h1, h2, h3, h4, ⟨frames1, h5⟩, h6⟩ := NewBatch_frame env e uuid key
  unfold Engine.openBatch
  rcases hnew : e.NewBatch env uuid key with ⟨e1, r⟩
  rw [hnew] at h1 h2 h3 h4 h5 h6
  cases r with
  | error err => exact ⟨h1, h2, h3, h4, frames1, h5⟩
  | ok b =>
    have hb : b.engine = e1 := h6 b rfl
    obtain ⟨g1, g2, g3, g4, frames2, g5⟩ := putEach_frame env values b
    rw [hb] at g1 g2 g3 g4 g5
    refine ⟨g1.trans h1, g2.trans h2, g3.trans h3, g4.trans h4, frames1 ++ frames2, ?_⟩
    show (b.putEach env values).engine.wal = _
    rw [g5, h5, List.append_assoc]

/-- C14. An uncommitted batch is not visible. Opening a batch and putting values into it,
with no `Commit`, leaves the Bloom filter, the memtables and the store of the engine as
they were and only adds frames to the log; a `Put` changes, in the batch, nothing but its
last position, its rolling checksum and its error; so a read of a key, made through the
tiers and the log, returns what it returned before the batch was opened, the log being
append-only: what it returned for the entry that decides the key it still returns. -/
theorem C14_uncommitted_invisible (env : Env) (e : Engine) (uuid : Except Err Bytes)
    (key : Bytes) (values : List Bytes) :
    ((e.openBatch env uuid key values).bloom = e.bloom ∧
      (e.openBatch env uuid key values).activeMemTable = e.activeMemTable ∧
      (e.openBatch env uuid key values).sealedMemTables = e.sealedMemTables ∧
      (e.openBatch env uuid key values).dataStore = e.dataStore ∧
      ∃ frames, (e.openBatch env uuid key values).wal = e.wal ++ frames) ∧
    (∀ (b : Batch) (value : Bytes),
      (b.Put env value).1.key = b.key ∧ (b.Put env value).1.batchID = b.batchID ∧
      (b.Put env value).1.commited = b.commited) ∧
    (∀ k : Bytes,
      (∀ it, (e.view env).checkFunc k = .ok it →
        env.getWalRecord (e.openBatch env uuid key values).wal it = env.getWalRecord e.wal it ∧
        ∀ record, env.getWalRecord e.wal it = .ok record →
          env.GetTransactionRecords (e.openBatch env uuid key values).wal
              record.PrevTxnWalIndexBytes
            = env.GetTransactionRecords e.wal record.PrevTxnWalIndexBytes) →
      (e.openBatch env uuid key values).read env k = e.read env k) := by
  have hframe := openBatch_frame env e uuid key values
  refine ⟨hframe, fun b value => ?_, fun k hlog => ?_⟩
  · obtain ⟨h1, h2, h3, _⟩ := Put_frame env b value
    exact ⟨h1, h2, h3⟩
  · obtain ⟨h1, h2, h3, h4, _⟩ := hframe
    exact dbkernel.Get_congr k rfl h1 h2 h3 h4 hlog


theorem exampleBatch_new :
    exampleEngine.NewBatch exampleEnv (.ok [77]) [5] = (exampleBatch.engine, .ok exampleBatch) :=
  rfl

/-- Witness of C12: the values `[1, 2]` and `[3]` put into the example batch. -/
theorem C12_Commit_checksum_witness :
    (exampleBatch.putAll exampleEnv [[1, 2], [3]]).2 = .ok ∧
    (exampleBatch.putAll exampleEnv [[1, 2], [3]]).1.checksum
      = crc32.ChecksumIEEE [1, 2, 3] :=
  ⟨by decide,
    (C12_Commit_checksum exampleEnv exampleEngine exampleBatch.engine (.ok [77]) [5]
      [[1, 2], [3]] exampleBatch (exampleBatch.putAll exampleEnv [[1, 2], [3]]).1
      exampleBatch_new (Prod.ext rfl (by decide))).1⟩

/-- Witness of C13: the same two values; the chain has three records. -/
theorem C13_batch_chain_witness :
    ∃ records : List (ChunkPosition × walRecord),
      records.length = 3 ∧ IsChain [5] [77] none records ∧
      (exampleBatch.putEach exampleEnv [[1, 2], [3]]).lastPos = chainEnd none records :=
  match (C13_batch_chain exampleEnv exampleEngine exampleBatch.engine (.ok [77]) [5]
      [[1, 2], [3]] exampleBatch exampleBatch_new).2 with
  | ⟨records, _, hchain, _, hlast, _, _, _, hfull⟩ =>
    ⟨records, (hfull (by decide)).1, hchain, hlast⟩

/-- Witness of C14: a batch opened on the key `[1]`, which the active memtable holds, and
two values put into it; the read of `[1]` is what it was. -/
theorem C14_uncommitted_invisible_witness :
    exampleEngine.read exampleEnv [1] = (some [21], .ok) ∧
    (exampleEngine.openBatch exampleEnv (.ok [77]) [1] [[1, 2], [3]]).wal.length = 3 ∧
    (exampleEngine.openBatch exampleEnv (.ok [77]) [1] [[1, 2], [3]]).read exampleEnv [1]
      = exampleEngine.read exampleEnv [1] :=
  ⟨by decide, by decide,
    (C14_uncommitted_invisible exampleEnv exampleEngine (.ok [77]) [1] [[1, 2], [3]]).2.2 [1]
      (fun _ _ => ⟨rfl, fun _ _ => rfl⟩)⟩

end storage

/-! ## Rows -/

namespace dbkernel

/-- The closure `checkFunc` of `GetRowColumns` passes exactly when the Bloom test is
positive and the last row entry of the active memtable, if any, is not a `DeleteRow`; it
then hands out the deltas of the sealed memtables in list order, then those of the active
memtable. -/
theorem rowCheckFunc_ok {e : Engine} {key : Bytes} {vs : List ValueStruct}
    (h : e.rowCheckFunc key = .ok vs) :
    vs = (e.sealedMemTables.map fun sm => sm.getRowYValue key).flatten
      ++ e.activeMemTable.getRowYValue key := by
  unfold Engine.rowCheckFunc at h
  split at h
  · cases h
  · dsimp only at h
    split at h
    · cases h
    · injection h with h
      exact h.symm

theorem rowCheckFunc_of_active_nil {e : Engine} {key : Bytes} (hbloom : e.bloom key = true)
    (hactive : e.activeMemTable.getRowYValue key = []) :
    e.rowCheckFunc key
      = .ok (e.sealedMemTables.map fun sm => sm.getRowYValue key).flatten := by
  simp [Engine.rowCheckFunc, hbloom, hactive]

/-- What `GetRowColumns` returns once its checks have passed and the store has answered
without a fatal error: the filtered result of the merge. -/
theorem GetRowColumns_merge {deps : Deps} {e : Engine} {rowKey : Bytes}
    {predicate : Option (Bytes → Bool)} {vs : List ValueStruct} {cols : Option ColumnMap}
    {r : Outcome} (hrun : e.shutdown = false) (hcheck : e.rowCheckFunc rowKey = .ok vs)
    (hstore : deps.storeGetRowColumns e.dataStore rowKey (predicateFunc predicate) = (cols, r))
    (hr : r = .ok ∨ ∃ err, r = .err err ∧ err.Is .ErrKeyNotFound = true) :
    e.GetRowColumns deps rowKey predicate
      = match deps.buildColumnMap e cols vs with
        | (merged, .ok) => (filterColumns predicate merged, .ok)
        | (_, r') => (none, r') := by
  unfold Engine.GetRowColumns
  simp only [hrun, Bool.false_eq_true, if_false, hcheck, hstore]
  rcases hr with rfl | ⟨err, rfl, herr⟩
  · rfl
  · simp only [herr, Bool.not_true, Bool.false_eq_true, if_false]

/-- C21 (divergence). When the active memtable holds no row entry for `rowKey`,
`GetRowColumns` does not look at the kind of the newest sealed entry: with a positive Bloom
test, a store read that is not fatal and a merge that ends without an error, it returns
the filtered merge and a nil error, also when the newest memtable entry for `rowKey` is a
`DeleteRow` that sits in a sealed memtable. -/
theorem C21_sealed_DeleteRow_not_reported (deps : Deps) (e : Engine) (rowKey : Bytes)
    (predicate : Option (Bytes → Bool)) (cols merged : Option ColumnMap) (r : Outcome)
    (hrun : e.shutdown = false) (hbloom : e.bloom rowKey = true)
    (hactive : e.activeMemTable.getRowYValue rowKey = [])
    (_hnewest : ((e.sealedMemTables.map fun sm => sm.getRowYValue rowKey).flatten.getLast?.map
      fun v => v.Meta) = some .DeleteRow)
    (hstore : deps.storeGetRowColumns e.dataStore rowKey (predicateFunc predicate) = (cols, r))
    (hr : r = .ok ∨ ∃ err, r = .err err ∧ err.Is .ErrKeyNotFound = true)
    (hmerge : deps.buildColumnMap e cols
      (e.sealedMemTables.map fun sm => sm.getRowYValue rowKey).flatten = (merged, .ok)) :
    e.GetRowColumns deps rowKey predicate = (filterColumns predicate merged, .ok) := by
  rw [GetRowColumns_merge hrun (rowCheckFunc_of_active_nil hbloom hactive) hstore hr, hmerge]

theorem C21_sealed_DeleteRow_not_reported_witness :
    sealedDeleteRowEngine.activeMemTable.getRowYValue [1] = [] ∧
    ((sealedDeleteRowEngine.sealedMemTables.map fun sm => sm.getRowYValue [1]).flatten.getLast?.map
      fun v => v.Meta) = some .DeleteRow ∧
    (sealedDeleteRowEngine.GetRowColumns rowDeps [1] none).2 = .ok ∧
    activeDeleteRowEngine.GetRowColumns rowDeps [1] none = (none, .err .ErrKeyNotFound) :=
  ⟨rfl, by decide,
    congrArg Prod.snd (C21_sealed_DeleteRow_not_reported rowDeps sealedDeleteRowEngine [1] none
      _ _ .ok rfl rfl rfl (by decide) rfl (Or.inl rfl) rfl),
    rfl⟩

/-- A successful `GetRowColumns` went through its checks, a store read and a merge that
ended without an error, and returns the filtered merge. -/
theorem GetRowColumns_ok_inv {deps : Deps} {e : Engine} {rowKey : Bytes}
    {predicate : Option (Bytes → Bool)} {result : Option ColumnMap}
    (h : e.GetRowColumns deps rowKey predicate = (result, .ok)) :
    ∃ (vs : List ValueStruct) (cols merged : Option ColumnMap),
      e.rowCheckFunc rowKey = .ok vs ∧
      (deps.storeGetRowColumns e.dataStore rowKey (predicateFunc predicate)).1 = cols ∧
      deps.buildColumnMap e cols vs = (merged, .ok) ∧
      filterColumns predicate merged = result := by
  unfold Engine.GetRowColumns at h
  cases hs : e.shutdown
  · cases hcheck : e.rowCheckFunc rowKey with
    | error err => simp [hs, hcheck] at h
    | ok vs =>
      rcases hstore : deps.storeGetRowColumns e.dataStore rowKey (predicateFunc predicate)
        with ⟨cols, r⟩
      rcases hmerge : deps.buildColumnMap e cols vs with ⟨merged, r'⟩
      simp only [hs, hcheck, hstore, Bool.false_eq_true, if_false] at h
      cases r with
      | panic => simp at h
      | ok =>
        cases r' <;> simp [hmerge] at h
        exact ⟨vs, cols, merged, rfl, rfl, hmerge, h⟩
      | err err =>
        cases hfatal : err.Is .ErrKeyNotFound
        · simp [hfatal] at h
        · cases r' <;> simp [hfatal, hmerge] at h
          exact ⟨vs, cols, merged, rfl, rfl, hmerge, h⟩
  · simp [hs] at h

/-- C22. In a successful `GetRowColumns` the returned map is the map that the merge of
the store's columns with the memtable deltas produced, filtered: with a predicate, every
column of the returned map satisfies the predicate, whether the store held it or a delta
introduced it, and every column that satisfies the predicate is returned as the merge left
it; with a nil predicate the merged map is returned as it is. -/
theorem C22_GetRowColumns_predicate (deps : Deps) (e : Engine) (rowKey : Bytes)
    (predicate : Option (Bytes → Bool)) (result : ColumnMap)
    (h : e.GetRowColumns deps rowKey predicate = (some result, .ok)) :
    ∃ (vs : List ValueStruct) (cols : Option ColumnMap) (merged : ColumnMap),
      e.rowCheckFunc rowKey = .ok vs ∧
      (deps.storeGetRowColumns e.dataStore rowKey (predicateFunc predicate)).1 = cols ∧
      deps.buildColumnMap e cols vs = (some merged, .ok) ∧
      (∀ p, predicate = some p → ∀ col,
        (result col ≠ none → p col = true) ∧ (p col = true → result col = merged col)) ∧
      (predicate = none → result = merged) := by
  obtain ⟨vs, cols, merged, hcheck, hstore, hmerge, hfilter⟩ := GetRowColumns_ok_inv h
  cases predicate with
  | none =>
    have hm : merged = some result := hfilter
    subst hm
    exact ⟨vs, cols, result, hcheck, hstore, hmerge, (fun p hp => nomatch hp), fun _ => rfl⟩
  | some p =>
    cases merged with
    | none => cases hfilter
    | some m =>
      have hres : (fun columnKey => if p columnKey then m columnKey else none) = result := by
        injection hfilter
      subst hres
      refine ⟨vs, cols, m, hcheck, hstore, hmerge, ?_, fun hp => nomatch hp⟩
      intro q hq col
      injection hq with hq
      subst hq
      constructor
      · intro hcol
        by_contra hp
        simp [hp] at hcol
      · intro hp
        simp [hp]

theorem C22_GetRowColumns_predicate_witness :
    ∃ result : ColumnMap,
      rowEngine.GetRowColumns rowDeps [1] (some fun c => decide (c ≠ [3]))
        = (some result, .ok) ∧
      [result [1], result [2], result [3], result [4]] = [none, some [20], none, some [40]] ∧
      ∃ (vs : List ValueStruct) (cols : Option ColumnMap) (merged : ColumnMap),
        rowEngine.rowCheckFunc [1] = .ok vs ∧
        (rowDeps.storeGetRowColumns rowEngine.dataStore [1]
          (predicateFunc (some fun c => decide (c ≠ [3])))).1 = cols ∧
        rowDeps.buildColumnMap rowEngine cols vs = (some merged, .ok) ∧
        (∀ p, (some fun c => decide (c ≠ [3])) = some p → ∀ col,
          (result col ≠ none → p col = true) ∧ (p col = true → result col = merged col)) ∧
        ((some fun c : Bytes => decide (c ≠ [3])) = none → result = merged) :=
  ⟨_, rfl, by decide,
    C22_GetRowColumns_predicate rowDeps rowEngine [1] (some fun c => decide (c ≠ [3])) _ rfl⟩

/-- C23. The deltas that `GetRowColumns` hands to the merge are the row entries of the
sealed memtables in the order of the sealed list, index 0 first, followed by those of the
active memtable, each memtable's entries in the order it holds them: the last sealed
memtable is the newest. `Get` reads the sealed list the same way: its scan starts at the
last index, so the entry it takes is that of the highest index that is not `Noop`. -/
theorem C23_row_deltas_order (deps : Deps) (e : Engine) (rowKey : Bytes)
    (predicate : Option (Bytes → Bool)) (hrun : e.shutdown = false) :
    (∀ vs, e.rowCheckFunc rowKey = .ok vs →
      vs = (e.sealedMemTables.map fun sm => sm.getRowYValue rowKey).flatten
          ++ e.activeMemTable.getRowYValue rowKey ∧
      ∀ cols r, deps.storeGetRowColumns e.dataStore rowKey (predicateFunc predicate) = (cols, r) →
        (r = .ok ∨ ∃ err, r = .err err ∧ err.Is .ErrKeyNotFound = true) →
        e.GetRowColumns deps rowKey predicate
          = match deps.buildColumnMap e cols
              ((e.sealedMemTables.map fun sm => sm.getRowYValue rowKey).flatten
                ++ e.activeMemTable.getRowYValue rowKey) with
            | (merged, .ok) => (filterColumns predicate merged, .ok)
            | (_, r') => (none, r')) ∧
    (∀ (key : Bytes) (i : Fin e.sealedMemTables.length), e.bloom key = true →
      (e.activeMemTable.get key).Meta = .Noop →
      ((e.sealedMemTables.get i).get key).Meta ≠ .Noop →
      (∀ j : Fin e.sealedMemTables.length, i < j →
        ((e.sealedMemTables.get j).get key).Meta = .Noop) →
      e.checkFunc key = .ok ((e.sealedMemTables.get i).get key)) := by
  refine ⟨fun vs hcheck => ?_, fun key i hbloom hactive hi hnewer => ?_⟩
  · have hvs := rowCheckFunc_ok hcheck
    refine ⟨hvs, fun cols r hstore hr => ?_⟩
    rw [GetRowColumns_merge hrun hcheck hstore hr, hvs]
  · exact checkFunc_deciding hbloom (Or.inr ⟨hactive, i, rfl, hi, hnewer⟩)

theorem C23_row_deltas_order_witness :
    rowEngine.shutdown = false ∧
    rowEngine.rowCheckFunc [1]
      = .ok [{ Meta := .Insert, Value := [3, 30] }, { Meta := .Delete, Value := [1] },
          { Meta := .Insert, Value := [4, 40] }] ∧
    exampleEngine.checkFunc [3] = .ok { Meta := .Delete, Value := [13] } ∧
    (∀ vs, rowEngine.rowCheckFunc [1] = .ok vs →
      vs = (rowEngine.sealedMemTables.map fun sm => sm.getRowYValue [1]).flatten
          ++ rowEngine.activeMemTable.getRowYValue [1]) :=
  ⟨rfl, rfl, rfl,
    fun vs h => ((C23_row_deltas_order rowDeps rowEngine [1] none rfl).1 vs h).1⟩

end dbkernel

/-! ## The persistent store: malformed values, replaced chunks, metadata and frames -/

namespace kvdb

/-! ### Malformed stored values -/

/-- C25. On a stored value that starts with the flag `0x01` and is shorter than 9 bytes,
`Get` and `Delete` both return `ErrInvalidChunkMetadata`; on a stored value whose first
byte is neither `0x00` nor `0x01`, `Get` returns an error that is `ErrInvalidDataFormat`
under `errors.Is` and `Delete` returns `ErrInvalidDataFormat`. In both cases the store
after `Delete` is the store before it; `Get` is a read-only transaction. -/
theorem C25_malformed_value (b : BoltDBEmbed) (bucket : Bucket) (key : Bytes) (flag : Byte)
    (rest : Bytes) (hb : b.db b.nspace = some bucket)
    (hstored : bucket key = some (flag :: rest)) :
    (flag = ChunkedValueFlag → (flag :: rest).length < 9 →
      b.Get key = (none, .err .ErrInvalidChunkMetadata) ∧
      b.Delete key = (b, .err .ErrInvalidChunkMetadata)) ∧
    (flag ≠ FullValueFlag → flag ≠ ChunkedValueFlag →
      (∃ e, (b.Get key).2 = .err e ∧ e.Is .ErrInvalidDataFormat = true) ∧
      b.Delete key = (b, .err .ErrInvalidDataFormat)) := by
  constructor
  · intro hflag hlen
    subst hflag
    have hne : ChunkedValueFlag ≠ FullValueFlag := by decide
    have hbody : deleteBody key bucket = (bucket, .err .ErrInvalidChunkMetadata) := by
      simp only [deleteBody, hstored, hne, if_false, if_true, hlen]
    constructor
    · rw [Get_of_bucket hb]
      simp only [getBody, hstored, hne, if_false, if_true, hlen]
    · have := run_fail b (deleteBody key) hb (by rw [hbody]; simp)
      rw [hbody] at this
      exact this
  · intro hfull hchunked
    have hbody : deleteBody key bucket = (bucket, .err .ErrInvalidDataFormat) := by
      simp only [deleteBody, hstored, hfull, hchunked, if_false]
    constructor
    · refine ⟨.invalidDataFormatFor key, ?_, ?_⟩
      · rw [Get_of_bucket hb]
        simp only [getBody, hstored, hfull, hchunked, if_false]
      · simp [Err.Is]
    · have := run_fail b (deleteBody key) hb (by rw [hbody]; simp)
      rw [hbody] at this
      exact this

theorem C25_malformed_value_witness :
    ((storeOf [([5], [1, 2, 0, 0])]).Get [5] = (none, .err .ErrInvalidChunkMetadata) ∧
      (storeOf [([5], [1, 2, 0, 0])]).Delete [5]
        = (storeOf [([5], [1, 2, 0, 0])], .err .ErrInvalidChunkMetadata)) ∧
    ((∃ e, ((storeOf [([5], [7, 2])]).Get [5]).2 = .err e ∧ e.Is .ErrInvalidDataFormat = true) ∧
      (storeOf [([5], [7, 2])]).Delete [5]
        = (storeOf [([5], [7, 2])], .err .ErrInvalidDataFormat)) :=
  ⟨(C25_malformed_value (storeOf [([5], [1, 2, 0, 0])]) (bucketOf [([5], [1, 2, 0, 0])]) [5] 1
      [2, 0, 0] rfl rfl).1 rfl (by decide),
    (C25_malformed_value (storeOf [([5], [7, 2])]) (bucketOf [([5], [7, 2])]) [5] 7 [2]
      rfl rfl).2 (by decide) (by decide)⟩

/-! ### Replaced chunks -/

/-- On a well-formed chunked header with count `m` the first part of `SetChunks` deletes
the children `0 .. m-1`. -/
theorem dropOldChunks_header {bucket : Bucket} {key : Bytes} {m : Nat}
    (h : HoldsHeader bucket key m) :
    dropOldChunks key bucket = deleteChunks key m 0 bucket := by
  obtain ⟨rest, hstored, hlen, hcount⟩ := h
  have hnot : ¬ (ChunkedValueFlag :: rest).length < 9 := by omega
  simp only [dropOldChunks, hstored, if_true, hnot, if_false, hcount]

/-- C26, as amended. When `k` holds a well-formed chunked header with count `m` and
`SetChunks(k, chunks, checksum)` succeeds with `n = len(chunks)`, afterwards every child
`k_chunk_i` with `i < n` holds chunk `i`, no child with `n <= i < m` is present, and a
child with `i >= n` and `i >= m` is as it was before the call; so when the children present
before the call are among `0 .. m-1`, the children present after it are exactly those with
`i < n`. -/
theorem C26_SetChunks_replaces_children (b : BoltDBEmbed) (bucket : Bucket) (key : Bytes)
    (chunks : List Bytes) (checksum m : Nat) (hb : b.db b.nspace = some bucket)
    (hheader : HoldsHeader bucket key m)
    (hok : (b.SetChunks key chunks checksum).2 = .ok) :
    ∃ bucket', (b.SetChunks key chunks checksum).1.db b.nspace = some bucket' ∧
      (∀ i (hi : i < chunks.length), bucket' (chunkKey key i) = some chunks[i]) ∧
      (∀ i, chunks.length ≤ i → i < m → bucket' (chunkKey key i) = none) ∧
      (∀ i, chunks.length ≤ i → m ≤ i → bucket' (chunkKey key i) = bucket (chunkKey key i)) ∧
      ((∀ i, bucket (chunkKey key i) ≠ none → i < m) →
        ∀ i, bucket' (chunkKey key i) ≠ none ↔ i < chunks.length) := by
  obtain ⟨bucket0, bucket1, hb0, hdrop, ⟨_, hput⟩, hset⟩ :=
    SetChunks_inv b key chunks checksum hok
  have hbb : bucket0 = bucket := by
    rw [hb] at hb0
    injection hb0 with h
    exact h.symm
  subst hbb
  rw [dropOldChunks_header hheader] at hdrop
  have hb1 : bucket1 = (deleteChunks key m 0 bucket0).1 := by rw [hdrop]
  have hrest : ∀ i, chunks.length ≤ i →
      (putChunks key chunks 0 (Function.update bucket1 key
        (some (metaData (chunks.length % 2 ^ 32) checksum)))).1 (chunkKey key i)
        = (deleteChunks key m 0 bucket0).1 (chunkKey key i) := by
    intro i hi
    rw [putChunks_other key chunks 0 _ _ (fun j hj hEq => by
      have := chunkKey_injective hEq
      omega), Function.update_noteq (chunkKey_ne_self key i), hb1]
  have hgone : ∀ i, chunks.length ≤ i → i < m →
      (putChunks key chunks 0 (Function.update bucket1 key
        (some (metaData (chunks.length % 2 ^ 32) checksum)))).1 (chunkKey key i) = none := by
    intro i hi him
    rw [hrest i hi]
    simpa using deleteChunks_child key m 0 bucket0 i him
  have hkept : ∀ i, chunks.length ≤ i → m ≤ i →
      (putChunks key chunks 0 (Function.update bucket1 key
        (some (metaData (chunks.length % 2 ^ 32) checksum)))).1 (chunkKey key i)
        = bucket0 (chunkKey key i) := by
    intro i hi him
    rw [hrest i hi]
    exact deleteChunks_other key m 0 bucket0 _ (fun j hj hEq => by
      have := chunkKey_injective hEq
      omega)
  refine ⟨_, by rw [hset]; exact commit_bucket b _, ?_, hgone, hkept, ?_⟩
  · intro i hi
    exact written_child key chunks _ hput i hi
  · intro hbefore i
    constructor
    · intro hpresent
      by_contra hlt
      have hi : chunks.length ≤ i := by omega
      by_cases him : i < m
      · exact hpresent (hgone i hi him)
      · rw [hkept i hi (by omega)] at hpresent
        exact him (hbefore i hpresent)
    · intro hi
      rw [written_child key chunks _ hput i hi]
      simp

theorem C26_SetChunks_replaces_children_witness :
    (storeOf (chunkedEntries 0)).db (storeOf (chunkedEntries 0)).nspace
      = some (bucketOf (chunkedEntries 0)) ∧
    HoldsHeader (bucketOf (chunkedEntries 0)) [5] 3 ∧
    ((storeOf (chunkedEntries 0)).SetChunks [5] [[21]] 0).2 = .ok ∧
    ∃ bucket', ((storeOf (chunkedEntries 0)).SetChunks [5] [[21]] 0).1.db [1] = some bucket' ∧
      bucket' (chunkKey [5] 0) = some [21] ∧ bucket' (chunkKey [5] 1) = none ∧
      bucket' (chunkKey [5] 2) = none :=
  have hheader : HoldsHeader (bucketOf (chunkedEntries 0)) [5] 3 :=
    ⟨binary.PutUint32 3 ++ binary.PutUint32 0, rfl, by decide, by decide⟩
  ⟨rfl, hheader, by decide,
    (C26_SetChunks_replaces_children (storeOf (chunkedEntries 0)) (bucketOf (chunkedEntries 0))
      [5] [[21]] 0 3 rfl hheader (by decide)).elim fun bucket' h =>
        ⟨bucket', h.1, h.2.1 0 (by decide), h.2.2.1 1 (by decide) (by decide),
          h.2.2.1 2 (by decide) (by decide)⟩⟩

/-- C26 as stated fails on a store that an earlier `Set` on the key left with children of
a replaced value: `replacedStore` holds under `[5]` a header with count 1 next to the
children 1 and 2 of an older value; `SetChunks` of one chunk succeeds on it, and the child
of index 2 is still in the bucket afterwards. -/
theorem C26_counterexample :
    (∃ bucket, replacedStore.db replacedStore.nspace = some bucket ∧
      HoldsHeader bucket [5] 1) ∧
    (replacedStore.SetChunks [5] [[22]] 0).2 = .ok ∧
    ((replacedStore.SetChunks [5] [[22]] 0).1.db [1]).bind (fun bucket => bucket (chunkKey [5] 2))
      = some [13] :=
  ⟨⟨_, rfl, binary.PutUint32 1 ++ binary.PutUint32 0, by decide, by decide, by decide⟩,
    by decide, by decide⟩

/-! ### The metadata bucket -/

/-- A transaction on the bucket `name` leaves every other bucket as it was. -/
theorem Update_inBucket_other (db : DB) (name name' : Bytes)
    (body : Bucket → Bucket × Outcome) (h : name' ≠ name) :
    (db.Update (inBucket name body)).1 name' = db name' := by
  cases hb : db name with
  | none => simp [DB.Update, inBucket, hb]
  | some bucket =>
    rcases hbody : body bucket with ⟨bucket', r⟩
    cases r with
    | ok => simp [DB.Update, inBucket, hb, hbody, Function.update_noteq h]
    | err e => simp [DB.Update, inBucket, hb, hbody]
    | panic => simp [DB.Update, inBucket, hb, hbody]

theorem RetrieveMetadata_congr {b b' : BoltDBEmbed}
    (h : b'.db sysBucketMetaData = b.db sysBucketMetaData) (key : Bytes) :
    b'.RetrieveMetadata key = b.RetrieveMetadata key := by
  simp only [BoltDBEmbed.RetrieveMetadata, h]

/-- What `StoreMetadata` does on a store that has the metadata bucket, for a key and a
value within the limits of bbolt. -/
theorem StoreMetadata_ok (b : BoltDBEmbed) {mb : Bucket} {key value : Bytes}
    (hmb : b.db sysBucketMetaData = some mb) (hkey : key ≠ [])
    (hk : key.length ≤ MaxKeySize) (hv : value.length ≤ MaxValueSize) :
    b.StoreMetadata key value
      = (BoltDBEmbed.mk (Function.update b.db sysBucketMetaData
            (some (Function.update mb key (some value)))) b.nspace, .ok) := by
  simp [BoltDBEmbed.StoreMetadata, BoltDBEmbed.withDB, DB.Update, inBucket, hmb,
    Put_valid mb hkey hk hv]

/-- A `StoreMetadata` that returns nil found the metadata bucket and had a key and a value
within the limits of bbolt. -/
theorem StoreMetadata_inv (b : BoltDBEmbed) (key value : Bytes)
    (hok : (b.StoreMetadata key value).2 = .ok) :
    ∃ mb, b.db sysBucketMetaData = some mb ∧ key ≠ [] ∧ key.length ≤ MaxKeySize ∧
      value.length ≤ MaxValueSize := by
  cases hmb : b.db sysBucketMetaData with
  | none =>
    simp [BoltDBEmbed.StoreMetadata, BoltDBEmbed.withDB, DB.Update, inBucket, hmb] at hok
  | some mb =>
    refine ⟨mb, rfl, ?_⟩
    apply @Put_inv mb key value
    rcases hput : mb.Put key value with ⟨mb', r⟩
    cases r with
    | ok => rfl
    | err e =>
      simp [BoltDBEmbed.StoreMetadata, BoltDBEmbed.withDB, DB.Update, inBucket, hmb, hput]
        at hok
    | panic =>
      simp [BoltDBEmbed.StoreMetadata, BoltDBEmbed.withDB, DB.Update, inBucket, hmb, hput]
        at hok

/-- A transaction that does not return nil leaves the database as it was. -/
theorem Update_refused (db : DB) (fn : DB → DB × Outcome) (h : (db.Update fn).2 ≠ .ok) :
    (db.Update fn).1 = db := by
  unfold DB.Update at h ⊢
  rcases hfn : fn db with ⟨tx, r⟩
  rw [hfn] at h
  cases r with
  | ok => exact absurd rfl h
  | err e => rfl
  | panic => rfl

/-- The call `StoreMetadata(k, v)` leaves every other key of the metadata bucket as it
was. -/
theorem StoreMetadata_other (b : BoltDBEmbed) (key value : Bytes) {other : Bytes}
    (hne : other ≠ key) :
    (b.StoreMetadata key value).1.RetrieveMetadata other = b.RetrieveMetadata other := by
  by_cases hok : (b.StoreMetadata key value).2 = .ok
  · obtain ⟨mb, hmb, hkey, hk, hv⟩ := StoreMetadata_inv b key value hok
    rw [StoreMetadata_ok b hmb hkey hk hv]
    simp [BoltDBEmbed.RetrieveMetadata, hmb, Function.update_noteq hne]
  · apply RetrieveMetadata_congr
    have := Update_refused b.db
      (inBucket sysBucketMetaData fun bucket => bucket.Put key value) hok
    exact congrFun this sysBucketMetaData

/-- A sequence of `StoreMetadata` calls on other keys leaves what `RetrieveMetadata` of a
key returns as it was. -/
theorem storeMetadataEach_other (key : Bytes) :
    ∀ (pairs : List (Bytes × Bytes)) (b : BoltDBEmbed), (∀ p ∈ pairs, p.1 ≠ key) →
      (storeMetadataEach b pairs).RetrieveMetadata key = b.RetrieveMetadata key := by
  intro pairs
  induction pairs with
  | nil => intro b _; rfl
  | cons p ps ih =>
    intro b h
    obtain ⟨k, v⟩ := p
    rw [storeMetadataEach, ih _ (fun q hq => h q (by simp [hq]))]
    exact StoreMetadata_other b k v (fun hEq => h (k, v) (by simp) hEq.symm)

/-- The store that `NewBoltdb` makes of an empty file. -/
theorem NewBoltdb_fresh {nspace : Bytes} (hns : nspace ≠ []) :
    (NewBoltdb (fun _ => none) nspace).2 = .ok ∧
    (NewBoltdb (fun _ => none) nspace).1.nspace = nspace ∧
    (NewBoltdb (fun _ => none) nspace).1.db nspace = some Bucket.empty ∧
    (NewBoltdb (fun _ => none) nspace).1.db sysBucketMetaData = some Bucket.empty := by
  have hsys : sysBucketMetaData ≠ [] := by decide
  by_cases h : sysBucketMetaData = nspace
  · subst h
    simp [NewBoltdb, BoltDBEmbed.withDB, DB.Update, CreateBucketIfNotExists, hsys]
  · have h' : nspace ≠ sysBucketMetaData := fun h'' => h h''.symm
    simp [NewBoltdb, BoltDBEmbed.withDB, DB.Update, CreateBucketIfNotExists, hsys, hns, h,
      Function.update_noteq h']

/-- C27. The metadata bucket is a key space of its own. After a `StoreMetadata(k, v)`
that returns nil, which it does for every key and value within the limits of bbolt when
the metadata bucket is there, `RetrieveMetadata(k)` returns exactly `v` with a nil error,
and what `RetrieveMetadata` returns for every other key is as before the call, whether the
call returned nil or not. `RetrieveMetadata` of a key that the metadata bucket does not
hold returns `ErrKeyNotFound`; so it does for a key never stored: a key other than all
those of a sequence of `StoreMetadata` calls made on the store that `NewBoltdb` makes of an
empty file. When the name of the user bucket differs from the name of the metadata bucket,
`Set`, `SetChunks` and `Delete` on any user key leave what `RetrieveMetadata` returns
unchanged, and `StoreMetadata` leaves what `Get` returns unchanged. -/
theorem C27_metadata_namespace (b : BoltDBEmbed) (key value : Bytes) :
    ((b.StoreMetadata key value).2 = .ok →
      (b.StoreMetadata key value).1.RetrieveMetadata key = (some value, .ok)) ∧
    (∀ mb, b.db sysBucketMetaData = some mb → key ≠ [] → key.length ≤ 32768 →
      value.length ≤ 2 ^ 31 - 2 → (b.StoreMetadata key value).2 = .ok) ∧
    (∀ other, other ≠ key →
      (b.StoreMetadata key value).1.RetrieveMetadata other = b.RetrieveMetadata other) ∧
    (∀ mb, b.db sysBucketMetaData = some mb → mb key = none →
      b.RetrieveMetadata key = (none, .err .ErrKeyNotFound)) ∧
    (∀ (nspace : Bytes) (pairs : List (Bytes × Bytes)), nspace ≠ [] →
      (∀ p ∈ pairs, p.1 ≠ key) →
      (NewBoltdb (fun _ => none) nspace).2 = .ok ∧
      (storeMetadataEach (NewBoltdb (fun _ => none) nspace).1 pairs).RetrieveMetadata key
        = (none, .err .ErrKeyNotFound)) ∧
    (b.nspace ≠ sysBucketMetaData → ∀ (userKey v : Bytes) (chunks : List Bytes) (checksum : Nat),
      (b.Set userKey v).1.RetrieveMetadata key = b.RetrieveMetadata key ∧
      (b.SetChunks userKey chunks checksum).1.RetrieveMetadata key = b.RetrieveMetadata key ∧
      (b.Delete userKey).1.RetrieveMetadata key = b.RetrieveMetadata key ∧
      (b.StoreMetadata key value).1.Get userKey = b.Get userKey) := by
  refine ⟨fun hok => ?_, fun mb hmb hkey hk hv => ?_,
    fun other hne => StoreMetadata_other b key value hne, fun mb hmb habsent => ?_,
    fun nspace pairs hns hpairs => ?_, fun hne userKey v chunks checksum => ?_⟩
  · obtain ⟨mb, hmb, hkey, hk, hv⟩ := StoreMetadata_inv b key value hok
    rw [StoreMetadata_ok b hmb hkey hk hv]
    simp [BoltDBEmbed.RetrieveMetadata]
  · rw [StoreMetadata_ok b hmb hkey hk hv]
  · simp [BoltDBEmbed.RetrieveMetadata, hmb, habsent]
  · obtain ⟨hok, _, _, hsys⟩ := NewBoltdb_fresh hns
    refine ⟨hok, ?_⟩
    rw [storeMetadataEach_other key pairs _ hpairs]
    simp [BoltDBEmbed.RetrieveMetadata, hsys, Bucket.empty]
  · have hne' : sysBucketMetaData ≠ b.nspace := fun h => hne h.symm
    refine ⟨RetrieveMetadata_congr ?_ key, RetrieveMetadata_congr ?_ key,
      RetrieveMetadata_congr ?_ key, ?_⟩
    · exact Update_inBucket_other b.db b.nspace sysBucketMetaData _ hne'
    · exact Update_inBucket_other b.db b.nspace sysBucketMetaData _ hne'
    · exact Update_inBucket_other b.db b.nspace sysBucketMetaData _ hne'
    · have hdb : (b.StoreMetadata key value).1.db b.nspace = b.db b.nspace :=
        Update_inBucket_other b.db sysBucketMetaData b.nspace _ hne
      have hns : (b.StoreMetadata key value).1.nspace = b.nspace := rfl
      simp only [BoltDBEmbed.Get, hns, hdb]

theorem C27_metadata_namespace_witness :
    ((storeWithMeta [([2], [0, 32])] []).StoreMetadata [3] [4]).2 = .ok ∧
    ((storeWithMeta [([2], [0, 32])] []).StoreMetadata [3] [4]).1.RetrieveMetadata [3]
      = (some [4], .ok) ∧
    ((storeWithMeta [([2], [0, 32])] [([6], [7])]).StoreMetadata [3] [4]).1.RetrieveMetadata [6]
      = (some [7], .ok) ∧
    ((storeWithMeta [([2], [0, 32])] []).StoreMetadata [3] [4]).1.RetrieveMetadata [3, 0]
      = (none, .err .ErrKeyNotFound) ∧
    (storeMetadataEach (NewBoltdb (fun _ => none) [1]).1 [([3], [4]), ([5], [6])]).RetrieveMetadata
      [3, 0] = (none, .err .ErrKeyNotFound) ∧
    ((storeWithMeta [([2], [0, 32])] []).Set [3] [9]).1.RetrieveMetadata [3]
      = (storeWithMeta [([2], [0, 32])] []).RetrieveMetadata [3] ∧
    ((storeWithMeta [([2], [0, 32])] []).StoreMetadata [3] [4]).1.Get [2]
      = (storeWithMeta [([2], [0, 32])] []).Get [2] :=
  ⟨(C27_metadata_namespace (storeWithMeta [([2], [0, 32])] []) [3] [4]).2.1
      (bucketOf []) rfl (by decide) (by decide) (by decide),
    (C27_metadata_namespace (storeWithMeta [([2], [0, 32])] []) [3] [4]).1 (by decide),
    ((C27_metadata_namespace (storeWithMeta [([2], [0, 32])] [([6], [7])]) [3] [4]).2.2.1
      [6] (by decide)).trans (by decide),
    ((C27_metadata_namespace (storeWithMeta [([2], [0, 32])] []) [3] [4]).2.2.1
      [3, 0] (by decide)).trans (by decide),
    ((C27_metadata_namespace (storeWithMeta [] []) [3, 0] []).2.2.2.2.1 [1]
      [([3], [4]), ([5], [6])] (by decide) (by decide)).2,
    ((C27_metadata_namespace (storeWithMeta [([2], [0, 32])] []) [3] [4]).2.2.2.2.2
      (by decide) [3] [9] [] 0).1,
    ((C27_metadata_namespace (storeWithMeta [([2], [0, 32])] []) [3] [4]).2.2.2.2.2
      (by decide) [2] [] [] 0).2.2.2⟩

/-! ### Many keys in one transaction -/

theorem commit_commit (b : BoltDBEmbed) (bucket bucket' : Bucket) :
    (b.commit bucket).commit bucket' = b.commit bucket' := by
  simp [BoltDBEmbed.commit]

theorem putFullValues_cons (bucket : Bucket) (key v : Bytes) (pairs : List (Bytes × Bytes)) :
    putFullValues bucket ((key, v) :: pairs)
      = putFullValues (Function.update bucket key (some (FullValueFlag :: v))) pairs := rfl

theorem putFullValues_other (pairs : List (Bytes × Bytes)) :
    ∀ (bucket : Bucket) (k : Bytes), (∀ p ∈ pairs, p.1 ≠ k) →
      putFullValues bucket pairs k = bucket k := by
  induction pairs with
  | nil => intro bucket k _; rfl
  | cons p ps ih =>
    intro bucket k h
    obtain ⟨key, v⟩ := p
    rw [putFullValues_cons, ih _ k (fun q hq => h q (by simp [hq]))]
    exact Function.update_noteq (fun hk => h (key, v) (by simp) hk.symm) _ _

/-- The last value listed with a key is the one that the bucket holds for it. -/
theorem putFullValues_last (pre post : List (Bytes × Bytes)) (k v : Bytes) (bucket : Bucket)
    (h : ∀ p ∈ post, p.1 ≠ k) :
    putFullValues bucket (pre ++ (k, v) :: post) k = some (FullValueFlag :: v) := by
  unfold putFullValues
  rw [List.foldl_append, List.foldl_cons]
  exact (putFullValues_other post _ k h).trans (Function.update_same _ _ _)

/-- The loop of `SetMany` when the keys and the values are within the limits of bbolt and
the values reach as far as the keys. -/
theorem setManyLoop_ok (value : List Bytes) (hvalues : ∀ v ∈ value, v.length + 1 ≤ MaxValueSize) :
    ∀ (keys : List Bytes) (i : Nat) (bucket : Bucket),
      (∀ k ∈ keys, k ≠ [] ∧ k.length ≤ MaxKeySize) →
      i + keys.length ≤ value.length →
      setManyLoop value keys i bucket = (putFullValues bucket (keys.zip (value.drop i)), .ok) := by
  intro keys
  induction keys with
  | nil => intro i bucket _ _; rfl
  | cons key keys ih =>
    intro i bucket hkeys hlen
    have hi : i < value.length := by
      simp only [List.length_cons] at hlen
      omega
    have hkey := hkeys key (by simp)
    have hv : (FullValueFlag :: value[i]).length ≤ MaxValueSize := by
      simpa using hvalues value[i] (List.getElem_mem hi)
    have hdrop : value.drop i = value[i] :: value.drop (i + 1) := List.drop_eq_getElem_cons hi
    simp only [setManyLoop, List.getElem?_eq_getElem hi, Put_valid bucket hkey.1 hkey.2 hv]
    rw [ih (i + 1) _ (fun k hk => hkeys k (by simp [hk]))
      (by simp only [List.length_cons] at hlen; omega), hdrop]
    rfl

/-- The loop of `SetMany` when the keys and the values are within the limits of bbolt and
the values end before the keys. -/
theorem setManyLoop_short (value : List Bytes)
    (hvalues : ∀ v ∈ value, v.length + 1 ≤ MaxValueSize) :
    ∀ (keys : List Bytes) (i : Nat) (bucket : Bucket),
      (∀ k ∈ keys, k ≠ [] ∧ k.length ≤ MaxKeySize) →
      i ≤ value.length → value.length < i + keys.length →
      (setManyLoop value keys i bucket).2 = .panic := by
  intro keys
  induction keys with
  | nil => intro i bucket _ hi hlen; simp at hlen; omega
  | cons key keys ih =>
    intro i bucket hkeys hi hlen
    have hkey := hkeys key (by simp)
    by_cases hlt : i < value.length
    · have hv : (FullValueFlag :: value[i]).length ≤ MaxValueSize := by
        simpa using hvalues value[i] (List.getElem_mem hlt)
      simp only [setManyLoop, List.getElem?_eq_getElem hlt, Put_valid bucket hkey.1 hkey.2 hv]
      exact ih (i + 1) _ (fun k hk => hkeys k (by simp [hk])) hlt
        (by simp only [List.length_cons] at hlen; omega)
    · have hnone : value[i]? = none := List.getElem?_eq_none (by omega)
      simp only [setManyLoop, hnone]

/-- What `SetMany` does when the keys and the values are within the limits of bbolt and
there are at least as many values as keys. -/
theorem SetMany_ok (b : BoltDBEmbed) {bucket : Bucket} {keys : List Bytes} (values : List Bytes)
    (hb : b.db b.nspace = some bucket) (hkeys : ∀ k ∈ keys, k ≠ [] ∧ k.length ≤ MaxKeySize)
    (hvalues : ∀ v ∈ values, v.length + 1 ≤ MaxValueSize)
    (hlen : keys.length ≤ values.length) :
    b.SetMany keys values = (b.commit (putFullValues bucket (keys.zip values)), .ok) :=
  run_ok b _ hb (by rw [setManyLoop_ok values hvalues keys 0 bucket hkeys (by omega)]; rfl)

/-- The store after the `Set` calls one by one, when the keys and the values are within
the limits of bbolt. -/
theorem setEach_eq :
    ∀ (keys values : List Bytes) (b : BoltDBEmbed) (bucket : Bucket),
      b.db b.nspace = some bucket → (∀ k ∈ keys, k ≠ [] ∧ k.length ≤ MaxKeySize) →
      (∀ v ∈ values, v.length + 1 ≤ MaxValueSize) →
      setEach b keys values = b.commit (putFullValues bucket (keys.zip values)) := by
  intro keys
  induction keys with
  | nil =>
    intro values b bucket hb _ _
    simp only [setEach, List.zip_nil_left, putFullValues, List.foldl_nil]
    exact (commit_self hb).symm
  | cons key keys ih =>
    intro values b bucket hb hkeys hvalues
    cases values with
    | nil =>
      simp only [setEach, List.zip_nil_right, putFullValues, List.foldl_nil]
      exact (commit_self hb).symm
    | cons v values =>
      have hkey := hkeys key (by simp)
      have hset := Set_valid b hb hkey.1 hkey.2 (hvalues v (by simp))
      simp only [setEach, hset, List.zip_cons_cons, putFullValues_cons]
      rw [ih values (b.commit _) _ (commit_bucket b _) (fun k hk => hkeys k (by simp [hk]))
        (fun v' hv' => hvalues v' (by simp [hv'])), commit_commit]

/-- C28, as amended. In a store whose user bucket exists, for key and value lists in
which every key is non-empty and of at most 32768 bytes and every value of at most
`2 ^ 31 - 3` bytes: when the lists are of equal length, `SetMany(keys, values)` returns
nil and leaves the store in exactly the state that `Set(keys[i], values[i])` for
`i = 0, 1, ...` in order would, so a listed key reads back the value listed with its last
occurrence; and the indexing `values[i]` runs out of range, which is a panic, exactly when
there are fewer values than keys. -/
theorem C28_SetMany_as_Sets (b : BoltDBEmbed) (bucket : Bucket) (keys values : List Bytes)
    (hb : b.db b.nspace = some bucket)
    (hkeys : ∀ k ∈ keys, k ≠ [] ∧ k.length ≤ 32768)
    (hvalues : ∀ v ∈ values, v.length ≤ 2 ^ 31 - 3) :
    (keys.length = values.length →
      b.SetMany keys values = (setEach b keys values, .ok) ∧
      ∀ (pre post : List (Bytes × Bytes)) (k v : Bytes),
        keys.zip values = pre ++ (k, v) :: post → (∀ p ∈ post, p.1 ≠ k) →
        (b.SetMany keys values).1.Get k = (some v, .ok)) ∧
    ((b.SetMany keys values).2 = .panic ↔ values.length < keys.length) := by
  have hkeys' : ∀ k ∈ keys, k ≠ [] ∧ k.length ≤ MaxKeySize := hkeys
  have hvalues' : ∀ v ∈ values, v.length + 1 ≤ MaxValueSize := by
    intro v hv
    have := hvalues v hv
    simp only [MaxValueSize]
    omega
  constructor
  · intro hlen
    have hmany := SetMany_ok b values hb hkeys' hvalues' (by omega)
    refine ⟨by rw [hmany, setEach_eq keys values b bucket hb hkeys' hvalues'], ?_⟩
    intro pre post k v hzip hpost
    rw [hmany, Get_commit, hzip]
    exact getBody_full (putFullValues_last pre post k v bucket hpost)
  · constructor
    · intro hpanic
      by_contra hle
      rw [SetMany_ok b values hb hkeys' hvalues' (by omega)] at hpanic
      cases hpanic
    · intro hlt
      have hloop := setManyLoop_short values hvalues' keys 0 bucket hkeys' (by omega)
        (by omega)
      have := run_fail b (setManyLoop values keys 0) hb (by rw [hloop]; simp)
      rw [hloop] at this
      exact congrArg Prod.snd this

theorem C28_SetMany_as_Sets_witness :
    exampleStore.SetMany [[1], [2], [1]] [[7], [8], [9]]
      = (setEach exampleStore [[1], [2], [1]] [[7], [8], [9]], .ok) ∧
    (exampleStore.SetMany [[1], [2], [1]] [[7], [8], [9]]).1.Get [1] = (some [9], .ok) ∧
    ((exampleStore.SetMany [[1], [2], [1]] [[7], [8], [9]]).2 = .panic ↔ 3 < 3) :=
  have h := C28_SetMany_as_Sets exampleStore Bucket.empty [[1], [2], [1]] [[7], [8], [9]] rfl
    (by decide) (by decide)
  ⟨(h.1 rfl).1, (h.1 rfl).2 [([1], [7]), ([2], [8])] [] [1] [9] rfl (by simp), h.2⟩

/-- C28 as stated fails twice. With an empty key after the key `[1]`, `SetMany` on lists
of equal length returns bbolt's error and rolls its transaction back, so `[1]` is not
stored, while the `Set` calls one by one store it. And with one key and two values of
which only the first is read, `SetMany` returns nil: the indexing stays in range although
the lengths differ. -/
theorem C28_counterexample :
    (exampleStore.SetMany [[1], []] [[7], [8]]).2 = .err .ErrKeyRequired ∧
    (exampleStore.SetMany [[1], []] [[7], [8]]).1.Get [1] = (none, .err .ErrKeyNotFound) ∧
    (setEach exampleStore [[1], []] [[7], [8]]).Get [1] = (some [7], .ok) ∧
    (exampleStore.SetMany [[1]] [[7], [8]]).2 = .ok := by
  decide

/-! ### Writes to other keys -/

/-- The chunk loop of `Get` reads nothing but the children it walks over. -/
theorem readChunks_congr {bucket bucket' : Bucket} (key : Bytes) :
    ∀ (n i crc : Nat) (buf : Bytes),
      (∀ j, j < n → bucket' (chunkKey key (i + j)) = bucket (chunkKey key (i + j))) →
      readChunks bucket' key n i crc buf = readChunks bucket key n i crc buf := by
  intro n
  induction n with
  | zero => intro i crc buf _; rfl
  | succ n ih =>
    intro i crc buf h
    have h0 : bucket' (chunkKey key i) = bucket (chunkKey key i) := by
      simpa using h 0 (by omega)
    simp only [readChunks, h0]
    cases bucket (chunkKey key i) with
    | none => rfl
    | some chunkData =>
      exact ih (i + 1) _ _ (fun j hj => by
        have := h (j + 1) (by omega)
        rwa [show i + (j + 1) = i + 1 + j by omega] at this)

/-- The body of `Get` reads the key and, under a well-formed header, its counted children,
and nothing else. -/
theorem getBody_congr {bucket bucket' : Bucket} {key : Bytes} (hkey : bucket' key = bucket key)
    (hchildren : ∀ n i, HoldsHeader bucket key n → i < n →
      bucket' (chunkKey key i) = bucket (chunkKey key i)) :
    getBody key bucket' = getBody key bucket := by
  unfold getBody
  rw [hkey]
  cases hstored : bucket key with
  | none => rfl
  | some storedValue =>
    cases storedValue with
    | nil => rfl
    | cons flag rest =>
      by_cases hfull : flag = FullValueFlag
      · simp only [hfull, if_true]
      · by_cases hchunked : flag = ChunkedValueFlag
        · subst hchunked
          by_cases hlen : (ChunkedValueFlag :: rest).length < 9
          · simp only [hfull, if_false, if_true, hlen]
          · simp only [hfull, if_false, if_true, hlen]
            cases hcount : binary.Uint32 rest with
            | none => rfl
            | some chunkCount =>
              cases hsum : binary.Uint32 (rest.drop 4) with
              | none => rfl
              | some storedChecksum =>
                simp only []
                rw [readChunks_congr key chunkCount 0 0 [] (fun j hj => by
                  have := hchildren chunkCount j ⟨rest, hstored, by omega, hcount⟩ hj
                  simpa using this)]
        · simp only [hfull, hchunked, if_false]

/-- A `Set` that does not return nil leaves the store as it was. -/
theorem Set_refused (b : BoltDBEmbed) (key value : Bytes) (h : (b.Set key value).2 ≠ .ok) :
    (b.Set key value).1 = b := by
  have hdb := Update_refused b.db
    (inBucket b.nspace fun bucket => bucket.Put key (FullValueFlag :: value)) h
  show ({ b with db := _ } : BoltDBEmbed) = b
  rw [hdb]

/-- C29. For every store and every two keys `k1`, `k2` that differ, `Set(k2, v)` leaves
what `Get(k1)` returns unchanged, unless `k1` holds a well-formed chunked header with
count `n` and `k2` is one of its child keys `k1_chunk_i` with `i < n`. -/
theorem C29_Set_other_key (b : BoltDBEmbed) (k1 k2 v : Bytes) (hne : k1 ≠ k2)
    (hchild : ∀ bucket n i, b.db b.nspace = some bucket → HoldsHeader bucket k1 n → i < n →
      k2 ≠ chunkKey k1 i) :
    (b.Set k2 v).1.Get k1 = b.Get k1 := by
  by_cases hok : (b.Set k2 v).2 = .ok
  · obtain ⟨bucket, hb, hput⟩ := run_snd_ok b _ hok
    obtain ⟨h1, h2, h3⟩ := Put_inv hput
    have hset : b.Set k2 v
        = (b.commit (Function.update bucket k2 (some (FullValueFlag :: v))), .ok) :=
      run_ok b _ hb (Put_valid bucket h1 h2 h3)
    rw [hset, Get_commit, Get_of_bucket hb]
    apply getBody_congr
    · exact Function.update_noteq hne _ _
    · intro n i hheader hi
      exact Function.update_noteq (fun h => hchild bucket n i hb hheader hi h.symm) _ _
  · rw [Set_refused b k2 v hok]

theorem C29_Set_other_key_witness :
    [5] ≠ [6] ∧
    ((storeOf (chunkedEntries (crc32.ChecksumIEEE [11, 12, 13]))).Set [6] [9]).1.Get [5]
      = (storeOf (chunkedEntries (crc32.ChecksumIEEE [11, 12, 13]))).Get [5] ∧
    (storeOf (chunkedEntries (crc32.ChecksumIEEE [11, 12, 13]))).Get [5]
      = (some [11, 12, 13], .ok) ∧
    ((storeOf (chunkedEntries (crc32.ChecksumIEEE [11, 12, 13]))).Set (chunkKey [5] 1) [9]).1.Get
      [5] = (none, .err .ErrRecordCorrupted) :=
  ⟨by decide,
    C29_Set_other_key (storeOf (chunkedEntries (crc32.ChecksumIEEE [11, 12, 13]))) [5] [6] [9]
      (by decide) (fun _ _ i _ _ _ h => by simp [chunkKey] at h),
    by decide, by decide⟩

/-! ### Counted children in reachable stores -/

/-- A decimal digit is not the byte of the underscore. -/
theorem digit_ne_underscore (n : Nat) (h : n < 10) :
    (Fin.ofNat (48 + n) : Byte) ≠ (95 : Byte) := by
  intro hEq
  have hv : (Fin.ofNat (48 + n) : Fin 256).val = (95 : Fin 256).val := congrArg Fin.val hEq
  have h1 : (Fin.ofNat (48 + n) : Fin 256).val = 48 + n := by
    show (48 + n) % 256 = 48 + n
    omega
  have h95 : (95 : Fin 256).val = 95 := rfl
  rw [h1, h95] at hv
  omega

/-- No digit that `%d` prints is the byte of the underscore. -/
theorem decimalCore_no_underscore (fuel : Nat) :
    ∀ (n : Nat) (acc : Bytes), (∀ d ∈ acc, d ≠ (95 : Byte)) →
      ∀ d ∈ decimalCore fuel n acc, d ≠ (95 : Byte) := by
  induction fuel with
  | zero => intro n acc h; exact h
  | succ fuel ih =>
    intro n acc h
    unfold decimalCore
    split
    · next hlt =>
      intro d hd
      rw [List.mem_cons] at hd
      rcases hd with rfl | hd
      · exact digit_ne_underscore n hlt
      · exact h d hd
    · next hge =>
      apply ih
      intro d hd
      rw [List.mem_cons] at hd
      rcases hd with rfl | hd
      · exact digit_ne_underscore (n % 10) (Nat.mod_lt n (by decide))
      · exact h d hd

theorem decimal_no_underscore (n : Nat) : ∀ d ∈ decimal n, d ≠ (95 : Byte) :=
  decimalCore_no_underscore (n + 1) n [] (fun d hd => by simp at hd)

/-- Two strings that end in a mark after a stretch without the mark agree on where the
mark is. -/
theorem split_at_mark {a : Byte} :
    ∀ (l1 l2 t1 t2 : Bytes), (∀ d ∈ l1, d ≠ a) → (∀ d ∈ l2, d ≠ a) →
      l1 ++ a :: t1 = l2 ++ a :: t2 → l1 = l2 ∧ t1 = t2 := by
  intro l1
  induction l1 with
  | nil =>
    intro l2 t1 t2 _ h2 h
    cases l2 with
    | nil => exact ⟨rfl, by simpa using h⟩
    | cons d l2 =>
      simp only [List.nil_append, List.cons_append, List.cons.injEq] at h
      exact absurd h.1.symm (h2 d (by simp))
  | cons c l1 ih =>
    intro l2 t1 t2 h1 h2 h
    cases l2 with
    | nil =>
      simp only [List.nil_append, List.cons_append, List.cons.injEq] at h
      exact absurd h.1 (h1 c (by simp))
    | cons d l2 =>
      simp only [List.cons_append, List.cons.injEq] at h
      obtain ⟨hl, ht⟩ := ih l2 t1 t2 (fun x hx => h1 x (by simp [hx]))
        (fun x hx => h2 x (by simp [hx])) h.2
      exact ⟨by rw [h.1, hl], ht⟩

/-- A child key determines both its parent key and its index. -/
theorem chunkKey_parent {key key' : Bytes} {i j : Nat}
    (h : chunkKey key i = chunkKey key' j) : key = key' ∧ i = j := by
  have hrev := congrArg List.reverse h
  simp only [chunkKey, chunkInfix, List.reverse_append, List.reverse_cons, List.reverse_nil,
    List.nil_append, List.cons_append, List.append_assoc] at hrev
  obtain ⟨hd, ht⟩ := split_at_mark _ _ _ _
    (fun d hd => decimal_no_underscore i d (List.mem_reverse.mp hd))
    (fun d hd => decimal_no_underscore j d (List.mem_reverse.mp hd)) hrev
  have hij : i = j := decimal_injective (List.reverse_injective hd)
  simp only [List.cons.injEq, true_and] at ht
  exact ⟨List.reverse_injective ht, hij⟩

/-- A committed transaction on the user bucket leaves the store with the bucket that its
body returned. -/
theorem run_inv {b b' : BoltDBEmbed} {body : Bucket → Bucket × Outcome} {bucket : Bucket}
    (hb : b.db b.nspace = some bucket)
    (h : b.withDB (b.db.Update (inBucket b.nspace body)) = (b', .ok)) :
    (body bucket).2 = .ok ∧ b' = b.commit (body bucket).1 := by
  have hok : (body bucket).2 = .ok := by
    by_contra hne
    rw [run_fail b body hb hne] at h
    exact hne (congrArg Prod.snd h)
  refine ⟨hok, ?_⟩
  rw [run_ok b body hb (Prod.ext rfl hok)] at h
  exact (congrArg Prod.fst h).symm

/-- The chunk loop of `Get` fails only at a child that is not in the bucket. -/
theorem readChunks_error {bucket : Bucket} {key : Bytes} {e : Err} :
    ∀ (n i crc : Nat) (buf : Bytes), readChunks bucket key n i crc buf = .error e →
      ∃ j, j < n ∧ bucket (chunkKey key (i + j)) = none := by
  intro n
  induction n with
  | zero => intro i crc buf h; cases h
  | succ n ih =>
    intro i crc buf h
    cases hchild : bucket (chunkKey key i) with
    | none => exact ⟨0, by omega, by simpa using hchild⟩
    | some chunkData =>
      simp only [readChunks, hchild] at h
      obtain ⟨j, hj, hnone⟩ := ih _ _ _ h
      exact ⟨j + 1, by omega, by rwa [show i + (j + 1) = i + 1 + j by omega]⟩

/-- With every counted child present, `Get` does not fail with a missing chunk. -/
theorem getBody_not_missing {bucket : Bucket} {key : Bytes} (h : ChildrenPresent bucket key)
    (i : Nat) : (getBody key bucket).2 ≠ .err (.chunkMissing i) := by
  unfold getBody
  cases hstored : bucket key with
  | none => simp
  | some storedValue =>
    cases storedValue with
    | nil => simp
    | cons flag rest =>
      by_cases hfull : flag = FullValueFlag
      · simp [hfull]
      · by_cases hchunked : flag = ChunkedValueFlag
        · subst hchunked
          by_cases hlen : (ChunkedValueFlag :: rest).length < 9
          · simp only [hfull, if_false, if_true, hlen]
            simp
          · simp only [hfull, if_false, if_true, hlen]
            cases hcount : binary.Uint32 rest with
            | none => simp
            | some chunkCount =>
              cases hsum : binary.Uint32 (rest.drop 4) with
              | none => simp
              | some storedChecksum =>
                simp only []
                cases hread : readChunks bucket key chunkCount 0 0 [] with
                | error e =>
                  obtain ⟨j, hj, hnone⟩ := readChunks_error _ _ _ _ hread
                  exact absurd (by simpa using hnone)
                    (h chunkCount ⟨rest, hstored, by omega, hcount⟩ j hj)
                | ok p =>
                  obtain ⟨calculatedChecksum, fullValue⟩ := p
                  simp only []
                  split <;> simp
        · simp [hfull, hchunked]

/-- A successful `Delete` body removes the key and changes nothing else but child keys of
the key. -/
theorem deleteBody_touches {bucket : Bucket} {key : Bytes}
    (hok : (deleteBody key bucket).2 = .ok) :
    (∀ x, x ≠ key → (∀ i, x ≠ chunkKey key i) → (deleteBody key bucket).1 x = bucket x) ∧
    (deleteBody key bucket).1 key = none := by
  cases hstored : bucket key with
  | none =>
    have hbody : deleteBody key bucket = (bucket, .ok) := by simp only [deleteBody, hstored]
    rw [hbody]
    exact ⟨fun _ _ _ => rfl, hstored⟩
  | some storedValue =>
    cases storedValue with
    | nil => simp [deleteBody, hstored] at hok
    | cons flag rest =>
      by_cases hfull : flag = FullValueFlag
      · simp only [deleteBody, hstored, hfull, if_true, Bucket.Delete]
        exact ⟨fun x hx _ => Function.update_noteq hx _ _, Function.update_same _ _ _⟩
      · by_cases hchunked : flag = ChunkedValueFlag
        · subst hchunked
          by_cases hlen : (ChunkedValueFlag :: rest).length < 9
          · simp only [deleteBody, hstored, hfull, if_false, if_true, hlen] at hok
            simp at hok
          · cases hcount : binary.Uint32 rest with
            | none =>
              simp only [deleteBody, hstored, hfull, if_false, if_true, hlen, hcount] at hok
              simp at hok
            | some n =>
              rw [deleteBody_chunked hstored (by omega) hcount]
              refine ⟨fun x hx hchild => ?_, Function.update_same _ _ _⟩
              simp only []
              rw [Function.update_noteq hx]
              exact deleteChunks_other key n 0 bucket x (fun j _ => hchild (0 + j))
        · simp [deleteBody, hstored, hfull, hchunked] at hok

/-- The first part of `SetChunks` changes nothing but child keys of the key. -/
theorem dropOldChunks_touches {bucket bucket1 : Bucket} {key : Bytes}
    (h : dropOldChunks key bucket = (bucket1, .ok)) :
    ∀ x, (∀ i, x ≠ chunkKey key i) → bucket1 x = bucket x := by
  intro x hchild
  cases hstored : bucket key with
  | none =>
    simp only [dropOldChunks, hstored, Prod.mk.injEq, and_true] at h
    rw [← h]
  | some storedValue =>
    cases storedValue with
    | nil => simp [dropOldChunks, hstored] at h
    | cons flag rest =>
      by_cases hchunked : flag = ChunkedValueFlag
      · subst hchunked
        by_cases hlen : (ChunkedValueFlag :: rest).length < 9
        · simp only [dropOldChunks, hstored, if_true, hlen] at h
          simp at h
        · cases hcount : binary.Uint32 rest with
          | none =>
            simp only [dropOldChunks, hstored, if_true, hlen, if_false, hcount] at h
            simp at h
          | some n =>
            simp only [dropOldChunks, hstored, if_true, hlen, if_false, hcount] at h
            have h1 : bucket1 = (deleteChunks key n 0 bucket).1 := by rw [h]
            rw [h1]
            exact deleteChunks_other key n 0 bucket x (fun j _ => hchild (0 + j))
      · simp only [dropOldChunks, hstored, hchunked, if_false, Prod.mk.injEq, and_true] at h
        rw [← h]

/-- What a successful call changes: nothing but its key and the child keys of its key,
and its key is left with every counted child present. -/
theorem Call.run_touches {b b' : BoltDBEmbed} {bucket : Bucket} (c : Call)
    (hb : b.db b.nspace = some bucket) (h : c.run b = (b', .ok)) :
    ∃ bucket', b' = b.commit bucket' ∧
      (∀ x, x ≠ c.key → (∀ i, x ≠ chunkKey c.key i) → bucket' x = bucket x) ∧
      ChildrenPresent bucket' c.key := by
  cases c with
  | Set key value =>
    obtain ⟨hok, hb'⟩ := run_inv hb h
    obtain ⟨h1, h2, h3⟩ := Put_inv hok
    have hput : bucket.Put key (FullValueFlag :: value)
        = (Function.update bucket key (some (FullValueFlag :: value)), .ok) :=
      Put_valid bucket h1 h2 h3
    refine ⟨Function.update bucket key (some (FullValueFlag :: value)),
      by rw [hb']; simp only [hput], ?_, ?_⟩
    · intro x hx _
      exact Function.update_noteq hx _ _
    · intro n hheader
      obtain ⟨rest, hstored, _, _⟩ := hheader
      simp [Call.key, FullValueFlag, ChunkedValueFlag] at hstored
  | Delete key =>
    obtain ⟨hok, hb'⟩ := run_inv hb h
    obtain ⟨hframe, hgone⟩ := deleteBody_touches hok
    refine ⟨_, hb', hframe, ?_⟩
    intro n hheader
    obtain ⟨rest, hstored, _, _⟩ := hheader
    rw [Call.key, hgone] at hstored
    cases hstored
  | SetChunks key chunks checksum =>
    have hok : (b.SetChunks key chunks checksum).2 = .ok := congrArg Prod.snd h
    obtain ⟨bucket0, bucket1, hb0, hdrop, ⟨_, hput⟩, hset⟩ :=
      SetChunks_inv b key chunks checksum hok
    have hbb : bucket0 = bucket := by
      rw [hb] at hb0
      injection hb0 with h0
      exact h0.symm
    subst hbb
    have hb' : b' = b.commit (putChunks key chunks 0 (Function.update bucket1 key
        (some (metaData (chunks.length % 2 ^ 32) checksum)))).1 := by
      have h1 : b.SetChunks key chunks checksum = (b', .ok) := h
      rw [hset] at h1
      exact (congrArg Prod.fst h1).symm
    refine ⟨_, hb', ?_, ?_⟩
    · intro x hx hchild
      have hx' : x ≠ key := hx
      rw [putChunks_other key chunks 0 _ x (fun j _ => hchild (0 + j)),
        Function.update_noteq hx']
      exact dropOldChunks_touches hdrop x hchild
    · intro n hheader i hi
      obtain ⟨rest, hstored, _, hcount⟩ := hheader
      rw [Call.key, written_header] at hstored
      have hrest : rest = binary.PutUint32 (chunks.length % 2 ^ 32) ++ binary.PutUint32 checksum := by
        have := Option.some.inj hstored
        simp only [metaData, List.cons.injEq, true_and] at this
        exact this.symm
      rw [hrest, binary.Uint32_PutUint32] at hcount
      have hn : n = chunks.length % 2 ^ 32 % 2 ^ 32 := (Option.some.inj hcount).symm
      have hle : chunks.length % 2 ^ 32 % 2 ^ 32 ≤ chunks.length := by
        rw [Nat.mod_mod]
        exact Nat.mod_le _ _
      have hlt : i < chunks.length := by omega
      rw [Call.key, written_child key chunks _ hput i hlt]
      simp

/-- The children of every key of a set in which no key is a child key of another stay
present over a successful call on a key of the set. -/
theorem Call.run_preserves {b b' : BoltDBEmbed} {bucket : Bucket} (c : Call)
    (keys : Bytes → Prop) (hkeys : ∀ k k', keys k → keys k' → ∀ i, k ≠ chunkKey k' i)
    (hc : keys c.key) (hb : b.db b.nspace = some bucket)
    (hinv : ∀ k, keys k → ChildrenPresent bucket k) (h : c.run b = (b', .ok)) :
    ∃ bucket', b'.db b'.nspace = some bucket' ∧ ∀ k, keys k → ChildrenPresent bucket' k := by
  obtain ⟨bucket', hb', hframe, hown⟩ := c.run_touches hb h
  refine ⟨bucket', by rw [hb']; exact commit_bucket b bucket', ?_⟩
  intro k hk
  by_cases hkc : k = c.key
  · rw [hkc]
    exact hown
  · have hkey : bucket' k = bucket k := hframe k hkc (fun i => hkeys k c.key hk hc i)
    have hchildren : ∀ i, bucket' (chunkKey k i) = bucket (chunkKey k i) := fun i =>
      hframe _ (fun hEq => hkeys c.key k hc hk i hEq.symm)
        (fun j hEq => hkc (chunkKey_parent hEq).1)
    intro n hheader i hi
    obtain ⟨rest, hstored, hlen, hcount⟩ := hheader
    rw [hchildren i]
    exact hinv k hk n ⟨rest, by rw [← hkey]; exact hstored, hlen, hcount⟩ i hi

/-- Over a sequence of successful calls on keys of a set in which no key is a child key of
another, the counted children of every key of the set stay present, and the bucket holds
nothing but keys of the set and child keys of them. -/
theorem runCalls_preserves (keys : Bytes → Prop)
    (hkeys : ∀ k k', keys k → keys k' → ∀ i, k ≠ chunkKey k' i) :
    ∀ (calls : List Call) (b b' : BoltDBEmbed) (bucket : Bucket),
      (∀ c ∈ calls, keys c.key) → b.db b.nspace = some bucket →
      (∀ k, keys k → ChildrenPresent bucket k) →
      (∀ x, bucket x ≠ none → keys x ∨ ∃ k i, keys k ∧ x = chunkKey k i) →
      runCalls b calls = some b' →
      ∃ bucket', b'.db b'.nspace = some bucket' ∧
        (∀ k, keys k → ChildrenPresent bucket' k) ∧
        (∀ x, bucket' x ≠ none → keys x ∨ ∃ k i, keys k ∧ x = chunkKey k i) := by
  intro calls
  induction calls with
  | nil =>
    intro b b' bucket _ hb hinv hheld hrun
    have hbb : b' = b := (Option.some.inj hrun).symm
    subst hbb
    exact ⟨bucket, hb, hinv, hheld⟩
  | cons c cs ih =>
    intro b b' bucket hcalls hb hinv hheld hrun
    rcases hstep : c.run b with ⟨b1, r⟩
    cases r with
    | err e => simp [runCalls, hstep] at hrun
    | panic => simp [runCalls, hstep] at hrun
    | ok =>
      simp only [runCalls, hstep] at hrun
      have hc : keys c.key := hcalls c (by simp)
      obtain ⟨bucket1, hb1, hinv1⟩ := c.run_preserves keys hkeys hc hb hinv hstep
      obtain ⟨bucket1', hcommit, hframe, _⟩ := c.run_touches hb hstep
      have hsame : bucket1' = bucket1 := by
        rw [hcommit] at hb1
        have := (commit_bucket b bucket1').symm.trans hb1
        exact Option.some.inj this
      subst hsame
      refine ih b1 b' bucket1' (fun c' hc' => hcalls c' (by simp [hc'])) hb1 hinv1 ?_ hrun
      intro x hx
      by_cases hxc : x = c.key
      · exact Or.inl (hxc ▸ hc)
      · by_cases hchild : ∃ i, x = chunkKey c.key i
        · obtain ⟨i, hi⟩ := hchild
          exact Or.inr ⟨c.key, i, hc, hi⟩
        · rw [hframe x hxc (fun i hEq => hchild ⟨i, hEq⟩)] at hx
          exact hheld x hx

/-- C30, as amended. In every store reached from an empty bucket by a sequence of
successful `Set`, `SetChunks` and `Delete` calls in which no operated key is a chunk child
key of an operated key, every key that is not a chunk child key of an operated key and
holds a chunked header with count `n` has all `n` children present, so `Get` of such a
key, and so of every operated key, does not fail with a missing chunk. -/
theorem C30_counted_children_present (calls : List Call) (b b' : BoltDBEmbed)
    (hempty : b.db b.nspace = some Bucket.empty) (hkeys : NoChildKeys calls)
    (hrun : runCalls b calls = some b') :
    ∃ bucket', b'.db b'.nspace = some bucket' ∧
      ∀ key, (∀ c ∈ calls, ∀ i, key ≠ chunkKey c.key i) →
        ChildrenPresent bucket' key ∧ ∀ i, (b'.Get key).2 ≠ .err (.chunkMissing i) := by
  obtain ⟨bucket', hb', hinv, hheld⟩ := runCalls_preserves (fun k => ∃ c ∈ calls, c.key = k)
    (fun k k' hk hk' i => by
      obtain ⟨c, hc, rfl⟩ := hk
      obtain ⟨c', hc', rfl⟩ := hk'
      exact hkeys c hc c' hc' i)
    calls b b' Bucket.empty (fun c hc => ⟨c, hc, rfl⟩) hempty
    (fun k _ n hheader => by
      obtain ⟨rest, hstored, _, _⟩ := hheader
      cases hstored)
    (fun x hx => absurd rfl hx) hrun
  refine ⟨bucket', hb', fun key hkey => ?_⟩
  have hpresent : ChildrenPresent bucket' key := by
    by_cases hop : ∃ c ∈ calls, c.key = key
    · exact hinv key hop
    · intro n hheader
      obtain ⟨rest, hstored, _, _⟩ := hheader
      have hx : bucket' key ≠ none := by rw [hstored]; simp
      rcases hheld key hx with h | ⟨k, i, ⟨c, hc, rfl⟩, hEq⟩
      · exact absurd h hop
      · exact absurd hEq (hkey c hc i)
  refine ⟨hpresent, fun i => ?_⟩
  rw [Get_of_bucket hb']
  exact getBody_not_missing hpresent i

theorem C30_counted_children_present_witness :
    exampleStore.db exampleStore.nspace = some Bucket.empty ∧
    NoChildKeys [.SetChunks [5] [[11], [12], [13]] 0, .Set [5] [9], .SetChunks [5] [[21]] 0] ∧
    runCalls exampleStore [.SetChunks [5] [[11], [12], [13]] 0, .Set [5] [9],
      .SetChunks [5] [[21]] 0] = some replacedStore ∧
    ∃ bucket', replacedStore.db replacedStore.nspace = some bucket' ∧
      ChildrenPresent bucket' [5] ∧ ∀ i, (replacedStore.Get [5]).2 ≠ .err (.chunkMissing i) :=
  have hkeys : NoChildKeys [.SetChunks [5] [[11], [12], [13]] 0, .Set [5] [9],
      .SetChunks [5] [[21]] 0] := by
    intro c hc c' hc' i
    have h1 : c.key = [5] := by
      simp only [List.mem_cons, List.mem_singleton, List.not_mem_nil, or_false] at hc
      rcases hc with rfl | rfl | rfl <;> rfl
    have h2 : c'.key = [5] := by
      simp only [List.mem_cons, List.mem_singleton, List.not_mem_nil, or_false] at hc'
      rcases hc' with rfl | rfl | rfl <;> rfl
    rw [h1, h2]
    exact (chunkKey_ne_self [5] i).symm
  ⟨rfl, hkeys, rfl,
    (C30_counted_children_present _ exampleStore replacedStore rfl hkeys rfl).elim
      fun bucket' h => ⟨bucket', h.1, h.2 [5] (fun c hc i => by
        have h1 : c.key = [5] := by
          simp only [List.mem_cons, List.mem_singleton, List.not_mem_nil, or_false] at hc
          rcases hc with rfl | rfl | rfl <;> rfl
        rw [h1]
        exact (chunkKey_ne_self [5] i).symm)⟩⟩

/-- C30 as stated fails on a chunk child: after the one call `SetChunks` of the single chunk
`headerLikeChunk` under `[5]`, the child key of index 0 of `[5]` holds bytes that are a
well-formed chunked header with count 5, none of its own children is in the bucket, and
`Get` of it fails with chunk 0 missing. -/
theorem C30_counterexample :
    NoChildKeys [.SetChunks [5] [headerLikeChunk] 0] ∧
    ∃ b' bucket', runCalls exampleStore [.SetChunks [5] [headerLikeChunk] 0] = some b' ∧
      b'.db b'.nspace = some bucket' ∧
      HoldsHeader bucket' (chunkKey [5] 0) 5 ∧
      bucket' (chunkKey (chunkKey [5] 0) 0) = none ∧
      b'.Get (chunkKey [5] 0) = (none, .err (.chunkMissing 0)) := by
  refine ⟨?_, _, _, rfl, rfl, ⟨[5, 0, 0, 0, 0, 0, 0, 0], by decide, by decide, by decide⟩,
    by decide, by decide⟩
  intro c hc c' hc' i
  simp only [List.mem_singleton] at hc hc'
  subst hc
  subst hc'
  exact (chunkKey_ne_self [5] i).symm

end kvdb

/-! ## The empty chain, the failed batch and the checksum bytes -/

namespace dbkernel

/-- C31, as amended. For every chain with at least one record that the log returns,
dropping the leading record is within bounds and `reconstructBatchValue` returns either
the value or `ErrRecordCorrupted`; when the log returns an error it returns that error,
wrapped; and it panics on the slice exactly when the log returns, without an error, the
chain with no record. -/
theorem C31_reconstructBatchValue_total (e : Engine) (record : WalRecord) :
    (∀ first chain, e.GetTransactionRecords record.PrevTxnWalIndexBytes = .ok (first :: chain) →
      e.reconstructBatchValue record
          = (some (chain.map fun rec => rec.ValueBytes).flatten, .ok) ∨
        e.reconstructBatchValue record = (none, .err .ErrRecordCorrupted)) ∧
    (∀ err, e.GetTransactionRecords record.PrevTxnWalIndexBytes = .error err →
      e.reconstructBatchValue record = (none, .err (.reconstructFailed err))) ∧
    ((e.reconstructBatchValue record).2 = .panic ↔
      e.GetTransactionRecords record.PrevTxnWalIndexBytes = .ok []) := by
  refine ⟨fun first chain hchain => ?_, fun err herr => ?_, ?_⟩
  · rw [reconstructBatchValue_chain hchain]
    split
    · exact Or.inr rfl
    · exact Or.inl rfl
  · simp only [Engine.reconstructBatchValue, herr]
  · cases hrecords : e.GetTransactionRecords record.PrevTxnWalIndexBytes with
    | error err => simp [Engine.reconstructBatchValue, hrecords]
    | ok records =>
      cases records with
      | nil => simp [Engine.reconstructBatchValue, hrecords]
      | cons first chain =>
        rw [reconstructBatchValue_chain hrecords]
        split <;> simp

theorem C31_reconstructBatchValue_total_witness :
    chunkedEngine.reconstructBatchValue
        { EntryType := EntryTypeChunked,
          ValueBytes := binary.PutUint32 (crc32.ChecksumIEEE [41, 42, 43]),
          Crc32Checksum := 0, PrevTxnWalIndexBytes := [17] }
      = (some [41, 42, 43], .ok) ∨
    chunkedEngine.reconstructBatchValue
        { EntryType := EntryTypeChunked,
          ValueBytes := binary.PutUint32 (crc32.ChecksumIEEE [41, 42, 43]),
          Crc32Checksum := 0, PrevTxnWalIndexBytes := [17] }
      = (none, .err .ErrRecordCorrupted) :=
  (C31_reconstructBatchValue_total chunkedEngine
    { EntryType := EntryTypeChunked,
      ValueBytes := binary.PutUint32 (crc32.ChecksumIEEE [41, 42, 43]),
      Crc32Checksum := 0, PrevTxnWalIndexBytes := [17] }).1 _ _ rfl

/-- C31 as stated fails on the empty list: when the log returns, without an error, a
chain with no record, the slice `records[1:]` is out of range and the call panics instead
of returning a value or an error. -/
theorem C31_counterexample :
    emptyChainEngine.GetTransactionRecords [17] = .ok [] ∧
    emptyChainEngine.reconstructBatchValue
        { EntryType := EntryTypeChunked, ValueBytes := binary.PutUint32 0,
          Crc32Checksum := 0, PrevTxnWalIndexBytes := [17] }
      = (none, .panic) :=
  ⟨rfl, rfl⟩

end dbkernel

namespace storage

/-- A `Put` that fails leaves the error in the batch and the last position and the
rolling checksum as they were. -/
theorem Put_failed {env : Env} {b : Batch} {value : Bytes} {e : Err}
    (h : (b.Put env value).2 = .err e) :
    (b.Put env value).1.err = some e ∧ (b.Put env value).1.lastPos = b.lastPos ∧
    (b.Put env value).1.checksum = b.checksum := by
  rcases Put_cases env b value with ⟨err, herr, hput⟩ | ⟨_, err, hput⟩ |
      ⟨_, encoded, chunkPos, _, _, hput⟩
  · rw [hput] at h ⊢
    injection h with h
    subst h
    exact ⟨herr, rfl, rfl⟩
  · rw [hput] at h ⊢
    injection h with h
    subst h
    exact ⟨rfl, rfl, rfl⟩
  · rw [hput] at h
    cases h

/-- On a batch that holds an error, `Put` returns it and leaves the batch as it is. -/
theorem Put_of_err {env : Env} {b : Batch} {e : Err} (herr : b.err = some e) (value : Bytes) :
    b.Put env value = (b, .err e) := by
  simp [Batch.Put, herr]

/-- On a batch that holds an error, `Commit` returns it without a call of the write path. -/
theorem Commit_of_err {env : Env} {b : Batch} {e : Err} (herr : b.err = some e) :
    b.Commit env = (b.engine, .err e) := by
  simp [Batch.Commit, herr]

/-- A batch that holds an error is left as it is by every `Put`. -/
theorem putEach_failed {env : Env} {b : Batch} {e : Err} (herr : b.err = some e) :
    ∀ values : List Bytes, b.putEach env values = b := by
  intro values
  induction values with
  | nil => rfl
  | cons value values ih =>
    simp only [Batch.putEach, Put_of_err herr value]
    exact ih

/-- C32. Once a `Put` on a batch has failed with the error `e`, the batch holds `e`, and
its last position and rolling checksum are those from before the failing `Put`; from then
on every `Put` returns `e` and leaves the batch, and with it the engine, its log and its
global counter, exactly as it was, however many of them are made, and `Commit` returns `e`
with the engine as it was, without a call of the write path. -/
theorem C32_batch_error_sticky (env : Env) (b : Batch) (value : Bytes) (e : Err)
    (hfail : (b.Put env value).2 = .err e) :
    (b.Put env value).1.lastPos = b.lastPos ∧
    (b.Put env value).1.checksum = b.checksum ∧
    ∀ later : List Bytes,
      ((b.Put env value).1.putEach env later) = (b.Put env value).1 ∧
      (∀ next, ((b.Put env value).1.putEach env later).Put env next
        = ((b.Put env value).1, .err e)) ∧
      ((b.Put env value).1.putEach env later).Commit env
        = ((b.Put env value).1.engine, .err e) := by
  obtain ⟨herr, hpos, hsum⟩ := Put_failed hfail
  refine ⟨hpos, hsum, fun later => ?_⟩
  rw [putEach_failed herr later]
  exact ⟨rfl, fun next => Put_of_err herr next, Commit_of_err herr⟩

theorem C32_batch_error_sticky_witness :
    (exampleBatch.Put exampleEnv [0, 0, 0, 0, 0, 0, 0, 0, 0]).2 = .err (.walFailure 2) ∧
    (exampleBatch.Put exampleEnv [0, 0, 0, 0, 0, 0, 0, 0, 0]).1.lastPos = exampleBatch.lastPos ∧
    (exampleBatch.Put exampleEnv [0, 0, 0, 0, 0, 0, 0, 0, 0]).1.checksum = exampleBatch.checksum ∧
    ((exampleBatch.Put exampleEnv [0, 0, 0, 0, 0, 0, 0, 0, 0]).1.putEach exampleEnv [[1], [2]]).Put
        exampleEnv [3]
      = ((exampleBatch.Put exampleEnv [0, 0, 0, 0, 0, 0, 0, 0, 0]).1, .err (.walFailure 2)) ∧
    ((exampleBatch.Put exampleEnv [0, 0, 0, 0, 0, 0, 0, 0, 0]).1.putEach exampleEnv [[1], [2]]).Commit
        exampleEnv
      = ((exampleBatch.Put exampleEnv [0, 0, 0, 0, 0, 0, 0, 0, 0]).1.engine,
          .err (.walFailure 2)) :=
  have h := C32_batch_error_sticky exampleEnv exampleBatch [0, 0, 0, 0, 0, 0, 0, 0, 0]
    (.walFailure 2) rfl
  ⟨rfl, h.1, h.2.1, (h.2.2 [[1], [2]]).2.1 [3], (h.2.2 [[1], [2]]).2.2⟩

end storage

/-! ## The bytes of the checksum -/

namespace binary

/-- The number that four little-endian bytes denote. -/
theorem Uint32_value (b0 b1 b2 b3 : Byte) (rest : Bytes) :
    Uint32 (b0 :: b1 :: b2 :: b3 :: rest)
      = some (b0.val + 2 ^ 8 * b1.val + 2 ^ 16 * b2.val + 2 ^ 24 * b3.val) := by
  have h0 := b0.isLt
  have h1 := b1.isLt
  have h2 := b2.isLt
  have h3 := b3.isLt
  simp only [Uint32, Nat.shiftLeft_eq, Option.some.injEq]
  rw [@lor_mul_two_pow b0.val 8 (by omega)]
  rw [@lor_mul_two_pow (2 ^ 8 * b1.val + b0.val) 16 (by omega)]
  rw [@lor_mul_two_pow (2 ^ 16 * b2.val + (2 ^ 8 * b1.val + b0.val)) 24 (by omega)]
  omega

/-- The bytes that `PutUint32` writes, as numbers. -/
theorem PutUint32_bytes (v : Nat) :
    (PutUint32 v).map Fin.val
      = [v % 256, v / 2 ^ 8 % 256, v / 2 ^ 16 % 256, v / 2 ^ 24 % 256] := by
  have e0 : (Fin.ofNat v : Fin 256).val = v % 256 := rfl
  have e1 : (Fin.ofNat (v >>> 8) : Fin 256).val = v / 2 ^ 8 % 256 := by
    rw [← Nat.shiftRight_eq_div_pow]; rfl
  have e2 : (Fin.ofNat (v >>> 16) : Fin 256).val = v / 2 ^ 16 % 256 := by
    rw [← Nat.shiftRight_eq_div_pow]; rfl
  have e3 : (Fin.ofNat (v >>> 24) : Fin 256).val = v / 2 ^ 24 % 256 := by
    rw [← Nat.shiftRight_eq_div_pow]; rfl
  simp only [PutUint32, List.map_cons, List.map_nil, e0, e1, e2, e3]

end binary

namespace storage

/-- C33. For every `uint32` `c`, `marshalChecksum(c)` is exactly four bytes, the bytes of
`c` from the least significant to the most significant, and `unmarshalChecksum` of them is
`c`; `unmarshalChecksum` of an input shorter than four bytes is 0, and of an input of four
bytes or more it is the little-endian `uint32` of the first four. The function of the same
name that the read path calls is the same function. -/
theorem C33_checksum_bytes :
    (∀ c, c < 2 ^ 32 →
      (marshalChecksum c).length = 4 ∧
      (marshalChecksum c).map Fin.val
        = [c % 256, c / 2 ^ 8 % 256, c / 2 ^ 16 % 256, c / 2 ^ 24 % 256] ∧
      unmarshalChecksum (marshalChecksum c) = c) ∧
    (∀ data : Bytes, data.length < 4 → unmarshalChecksum data = 0) ∧
    (∀ (b0 b1 b2 b3 : Byte) (rest : Bytes),
      unmarshalChecksum (b0 :: b1 :: b2 :: b3 :: rest)
        = b0.val + 2 ^ 8 * b1.val + 2 ^ 16 * b2.val + 2 ^ 24 * b3.val) ∧
    (∀ data : Bytes, dbkernel.unmarshalChecksum data = unmarshalChecksum data) := by
  refine ⟨fun c hc => ⟨rfl, binary.PutUint32_bytes c, ?_⟩, fun data hlen => ?_,
    fun b0 b1 b2 b3 rest => ?_, fun _ => rfl⟩
  · have h := unmarshal_marshal c
    rw [Nat.mod_eq_of_lt hc] at h
    exact h
  · simp [unmarshalChecksum, hlen]
  · have hlen : ¬ (b0 :: b1 :: b2 :: b3 :: rest).length < 4 := by simp
    simp only [unmarshalChecksum, hlen, if_false, binary.Uint32_value, Option.getD_some]

theorem C33_checksum_bytes_witness :
    (marshalChecksum 305419896).map Fin.val = [120, 86, 52, 18] ∧
    unmarshalChecksum (marshalChecksum 305419896) = 305419896 ∧
    unmarshalChecksum [1, 2, 3] = 0 ∧
    unmarshalChecksum [120, 86, 52, 18, 99] = 305419896 :=
  ⟨(C33_checksum_bytes.1 305419896 (by norm_num)).2.1.trans (by norm_num),
    (C33_checksum_bytes.1 305419896 (by norm_num)).2.2,
    C33_checksum_bytes.2.1 [1, 2, 3] (by decide),
    (C33_checksum_bytes.2.2.1 120 86 52 18 [99]).trans (by decide)⟩

end storage
